import Mathlib

/-!
# PairDipoleSF (LAMMPS `pair_style dipole/sf`): parameter table and per-pair kernel

Shallow embedding of `src/USER-MISC/pair_dipole_sf.cpp`.

* C `double` is a linearly ordered field `K`; the theorems that speak of real
  arithmetic take `K = ℝ`.
* `sqrt` (math.h) is an argument `sqrt : K → K` of every definition that calls
  it; the theorems over `ℝ` pass `Real.sqrt`.
* `pow(x,12.0)` and `pow(x,6.0)` (math.h) are the powers `x ^ 12` and `x ^ 6`.
* A two-dimensional array `a[i][j]` is a function `Nat → Nat → _`; a write
  `a[i][j] = v` is `set2 a i j v`.
-/

namespace PairDipoleSF

/-- Array write `a[i][j] = v` on a two-dimensional array. -/
def set2 {α : Type} (a : Nat → Nat → α) (i j : Nat) (v : α) : Nat → Nat → α :=
  fun i' j' => if i' = i ∧ j' = j then v else a i' j'

/-- Data members of `PairDipoleSF` (with those inherited from `Pair` that the
file reads or writes): the per-type-pair arrays and the global settings. -/
structure Pair (K : Type) where
  allocated : Int
  setflag : Nat → Nat → Int
  cutsq : Nat → Nat → K
  cut_lj_global : K
  cut_coul_global : K
  mix_flag : Int
  cut_lj : Nat → Nat → K
  cut_ljsq : Nat → Nat → K
  cut_coul : Nat → Nat → K
  cut_coulsq : Nat → Nat → K
  epsilon : Nat → Nat → K
  sigma : Nat → Nat → K
  lj1 : Nat → Nat → K
  lj2 : Nat → Nat → K
  lj3 : Nat → Nat → K
  lj4 : Nat → Nat → K

section Defs

variable {K : Type} [LinearOrderedField K]

/-- Modelled from the spec: the macro `MAX` is declared in a header that is not
part of the sources at hand; it yields the larger of its two arguments
(`((A) > (B) ? (A) : (B))`). -/
def MAX (A B : K) : K := if A > B then A else B

/-- Modelled from the spec: `Pair::mix_energy` is defined in `pair.cpp`, which is
not part of the sources at hand. The spec fixes epsilon of an unset pair as the
geometric mean `√(εᵢᵢ·εⱼⱼ)`; the two sigma arguments are passed by the caller
and not used by this rule. -/
def mix_energy (sqrt : K → K) (eps1 eps2 _sig1 _sig2 : K) : K :=
  sqrt (eps1 * eps2)

/-- Modelled from the spec: `Pair::mix_distance` is defined in `pair.cpp`, which
is not part of the sources at hand. The spec fixes sigma and the cutoffs of an
unset pair as the arithmetic mean `(σᵢᵢ+σⱼⱼ)/2`. -/
def mix_distance (sig1 sig2 : K) : K :=
  (sig1 + sig2) / 2

/-- The mixing block of `init_one` (lines 401-407): executed when
`setflag[i][j] == 0`, the four stored arrays are written at `[i][j]` one after
the other, each from its own diagonal entries. -/
def init_one_mix (sqrt : K → K) (P : Pair K) (i j : Nat) : Pair K :=
  if P.setflag i j = 0 then
    let eps := mix_energy sqrt (P.epsilon i i) (P.epsilon j j) (P.sigma i i) (P.sigma j j)
    let P1 := { P with epsilon := set2 P.epsilon i j eps }
    let P2 := { P1 with sigma := set2 P1.sigma i j (mix_distance (P1.sigma i i) (P1.sigma j j)) }
    let P3 := { P2 with cut_lj := set2 P2.cut_lj i j (mix_distance (P2.cut_lj i i) (P2.cut_lj j j)) }
    { P3 with cut_coul := set2 P3.cut_coul i j (mix_distance (P3.cut_coul i i) (P3.cut_coul j j)) }
  else P

/-- `PairDipoleSF::init_one(i,j)` (lines 399-426): returns the value `cut` and
the object after the call. -/
def init_one (sqrt : K → K) (P : Pair K) (i j : Nat) : K × Pair K :=
  let P0 := init_one_mix sqrt P i j
  let cut := MAX (P0.cut_lj i j) (P0.cut_coul i j)
  let P1 := { P0 with cut_ljsq := set2 P0.cut_ljsq i j (P0.cut_lj i j * P0.cut_lj i j) }
  let P2 := { P1 with cut_coulsq := set2 P1.cut_coulsq i j (P1.cut_coul i j * P1.cut_coul i j) }
  let P3 := { P2 with lj1 := set2 P2.lj1 i j (48 * P2.epsilon i j * P2.sigma i j ^ 12) }
  let P4 := { P3 with lj2 := set2 P3.lj2 i j (24 * P3.epsilon i j * P3.sigma i j ^ 6) }
  let P5 := { P4 with lj3 := set2 P4.lj3 i j (4 * P4.epsilon i j * P4.sigma i j ^ 12) }
  let P6 := { P5 with lj4 := set2 P5.lj4 i j (4 * P5.epsilon i j * P5.sigma i j ^ 6) }
  let P7 := { P6 with cut_ljsq := set2 P6.cut_ljsq j i (P6.cut_ljsq i j) }
  let P8 := { P7 with cut_coulsq := set2 P7.cut_coulsq j i (P7.cut_coulsq i j) }
  let P9 := { P8 with lj1 := set2 P8.lj1 j i (P8.lj1 i j) }
  let P10 := { P9 with lj2 := set2 P9.lj2 j i (P9.lj2 i j) }
  let P11 := { P10 with lj3 := set2 P10.lj3 j i (P10.lj3 i j) }
  let P12 := { P11 with lj4 := set2 P11.lj4 j i (P11.lj4 i j) }
  (cut, P12)

/-! ### The per-pair body of `compute` (lines 115-285) -/

/-- What one Coulomb block adds to the accumulators `forcecoul*`, `ti*coul` and
`tj*coul`; an accumulator the block does not touch gets the increment `0`. -/
structure CoulTerm (K : Type) where
  forcecoulx : K
  forcecouly : K
  forcecoulz : K
  tixcoul : K
  tiycoul : K
  tizcoul : K
  tjxcoul : K
  tjycoul : K
  tjzcoul : K

/-- The initial values of the accumulators (lines 128-130). -/
def CoulTerm.zero : CoulTerm K :=
  { forcecoulx := 0, forcecouly := 0, forcecoulz := 0,
    tixcoul := 0, tiycoul := 0, tizcoul := 0,
    tjxcoul := 0, tjycoul := 0, tjzcoul := 0 }

/-- The force part `(forcecoulx, forcecouly, forcecoulz)` of a term. -/
def CoulTerm.force (t : CoulTerm K) : K × K × K :=
  (t.forcecoulx, t.forcecouly, t.forcecoulz)

/-- The statements `acc += inc` of a block, accumulator by accumulator. -/
def CoulTerm.add (a b : CoulTerm K) : CoulTerm K :=
  { forcecoulx := a.forcecoulx + b.forcecoulx,
    forcecouly := a.forcecouly + b.forcecouly,
    forcecoulz := a.forcecoulz + b.forcecoulz,
    tixcoul := a.tixcoul + b.tixcoul,
    tiycoul := a.tiycoul + b.tiycoul,
    tizcoul := a.tizcoul + b.tizcoul,
    tjxcoul := a.tjxcoul + b.tjxcoul,
    tjycoul := a.tjycoul + b.tjycoul,
    tjzcoul := a.tjzcoul + b.tjzcoul }

/-- The term a block adds as seen from the other particle of the pair: the force
on the other particle is the opposite one, and the two torques change places. -/
def CoulTerm.exchange (t : CoulTerm K) : CoulTerm K :=
  { forcecoulx := -t.forcecoulx, forcecouly := -t.forcecouly, forcecoulz := -t.forcecoulz,
    tixcoul := t.tjxcoul, tiycoul := t.tjycoul, tizcoul := t.tjzcoul,
    tjxcoul := t.tixcoul, tjycoul := t.tiycoul, tjzcoul := t.tizcoul }

/-- The three components of `ti + tj + del × force = 0` for a term and the
separation `del = (x, y, z)`. -/
def CoulTerm.balanced (t : CoulTerm K) (x y z : K) : Prop :=
  t.tixcoul + t.tjxcoul + (y * t.forcecoulz - z * t.forcecouly) = 0 ∧
  t.tiycoul + t.tjycoul + (z * t.forcecoulx - x * t.forcecoulz) = 0 ∧
  t.tizcoul + t.tjzcoul + (x * t.forcecouly - y * t.forcecoulx) = 0

/-- The smoothing factor `afac` (line 151). -/
def afac (rsq rcutcoul2inv : K) : K :=
  1 - rsq * rsq * rcutcoul2inv * rcutcoul2inv

/-- The smoothing factor `bfac` (lines 157-158). -/
def bfac (sqrt : K → K) (rsq rcutcoul2inv : K) : K :=
  1 - 4 * rsq * sqrt rsq * rcutcoul2inv * sqrt rcutcoul2inv +
    3 * rsq * rsq * rcutcoul2inv * rcutcoul2inv

/-- The smoothing factor `pqfac` (lines 190-191). -/
def pqfac (sqrt : K → K) (rsq rcutcoul2inv : K) : K :=
  1 - 3 * rsq * rcutcoul2inv +
    2 * rsq * sqrt rsq * rcutcoul2inv * sqrt rcutcoul2inv

/-- The smoothing factor `qpfac` (lines 208-209). -/
def qpfac (sqrt : K → K) (rsq rcutcoul2inv : K) : K :=
  1 - 3 * rsq * rcutcoul2inv +
    2 * rsq * sqrt rsq * rcutcoul2inv * sqrt rcutcoul2inv

/-- The charge-charge block (lines 135-139), without its guard; `cut_coulsq`
is `cut_coulsq[itype][jtype]`. -/
def charge_charge (sqrt : K → K) (cut_coulsq qtmp qj delx dely delz : K) : CoulTerm K :=
  let rsq := delx * delx + dely * dely + delz * delz
  let r2inv := 1 / rsq
  let rinv := sqrt r2inv
  let pre1 := qtmp * qj * rinv * (r2inv - 1 / cut_coulsq)
  { forcecoulx := pre1 * delx, forcecouly := pre1 * dely, forcecoulz := pre1 * delz,
    tixcoul := 0, tiycoul := 0, tizcoul := 0,
    tjxcoul := 0, tjycoul := 0, tjzcoul := 0 }

/-- The dipole-dipole block (lines 143-181), without its guard; `mui` and `muj`
are the rows `mu[i]` and `mu[j]`. -/
def dipole_dipole (sqrt : K → K) (cut_coulsq : K) (mui muj : Nat → K)
    (delx dely delz : K) : CoulTerm K :=
  let rsq := delx * delx + dely * dely + delz * delz
  let r2inv := 1 / rsq
  let rinv := sqrt r2inv
  let r3inv := r2inv * rinv
  let r5inv := r3inv * r2inv
  let rcutcoul2inv := 1 / cut_coulsq
  let pdotp := mui 0 * muj 0 + mui 1 * muj 1 + mui 2 * muj 2
  let pidotr := mui 0 * delx + mui 1 * dely + mui 2 * delz
  let pjdotr := muj 0 * delx + muj 1 * dely + muj 2 * delz
  let afac := afac rsq rcutcoul2inv
  let pre1 := afac * (pdotp - 3 * r2inv * pidotr * pjdotr)
  let aforcecoulx := pre1 * delx
  let aforcecouly := pre1 * dely
  let aforcecoulz := pre1 * delz
  let bfac := bfac sqrt rsq rcutcoul2inv
  let presf := 2 * r2inv * pidotr * pjdotr
  let bforcecoulx := bfac * (pjdotr * mui 0 + pidotr * muj 0 - presf * delx)
  let bforcecouly := bfac * (pjdotr * mui 1 + pidotr * muj 1 - presf * dely)
  let bforcecoulz := bfac * (pjdotr * mui 2 + pidotr * muj 2 - presf * delz)
  let pre2 := 3 * bfac * r5inv * pjdotr
  let pre3 := 3 * bfac * r5inv * pidotr
  let pre4 := -bfac * r3inv
  let crossx := pre4 * (mui 1 * muj 2 - mui 2 * muj 1)
  let crossy := pre4 * (mui 2 * muj 0 - mui 0 * muj 2)
  let crossz := pre4 * (mui 0 * muj 1 - mui 1 * muj 0)
  { forcecoulx := 3 * r5inv * (aforcecoulx + bforcecoulx),
    forcecouly := 3 * r5inv * (aforcecouly + bforcecouly),
    forcecoulz := 3 * r5inv * (aforcecoulz + bforcecoulz),
    tixcoul := crossx + pre2 * (mui 1 * delz - mui 2 * dely),
    tiycoul := crossy + pre2 * (mui 2 * delx - mui 0 * delz),
    tizcoul := crossz + pre2 * (mui 0 * dely - mui 1 * delx),
    tjxcoul := -crossx + pre3 * (muj 1 * delz - muj 2 * dely),
    tjycoul := -crossy + pre3 * (muj 2 * delx - muj 0 * delz),
    tjzcoul := -crossz + pre3 * (muj 0 * dely - muj 1 * delx) }

/-- The dipole(i)-charge(j) block (lines 185-199), without its guard. -/
def dipole_charge (sqrt : K → K) (cut_coulsq qj : K) (mui : Nat → K)
    (delx dely delz : K) : CoulTerm K :=
  let rsq := delx * delx + dely * dely + delz * delz
  let r2inv := 1 / rsq
  let rinv := sqrt r2inv
  let r3inv := r2inv * rinv
  let r5inv := r3inv * r2inv
  let pidotr := mui 0 * delx + mui 1 * dely + mui 2 * delz
  let rcutcoul2inv := 1 / cut_coulsq
  let pre1 := 3 * qj * r5inv * pidotr * (1 - rsq * rcutcoul2inv)
  let pqfac := pqfac sqrt rsq rcutcoul2inv
  let pre2 := qj * r3inv * pqfac
  { forcecoulx := pre2 * mui 0 - pre1 * delx,
    forcecouly := pre2 * mui 1 - pre1 * dely,
    forcecoulz := pre2 * mui 2 - pre1 * delz,
    tixcoul := pre2 * (mui 1 * delz - mui 2 * dely),
    tiycoul := pre2 * (mui 2 * delx - mui 0 * delz),
    tizcoul := pre2 * (mui 0 * dely - mui 1 * delx),
    tjxcoul := 0, tjycoul := 0, tjzcoul := 0 }

/-- The charge(i)-dipole(j) block (lines 203-217), without its guard. -/
def charge_dipole (sqrt : K → K) (cut_coulsq qtmp : K) (muj : Nat → K)
    (delx dely delz : K) : CoulTerm K :=
  let rsq := delx * delx + dely * dely + delz * delz
  let r2inv := 1 / rsq
  let rinv := sqrt r2inv
  let r3inv := r2inv * rinv
  let r5inv := r3inv * r2inv
  let pjdotr := muj 0 * delx + muj 1 * dely + muj 2 * delz
  let rcutcoul2inv := 1 / cut_coulsq
  let pre1 := 3 * qtmp * r5inv * pjdotr * (1 - rsq * rcutcoul2inv)
  let qpfac := qpfac sqrt rsq rcutcoul2inv
  let pre2 := qtmp * r3inv * qpfac
  { forcecoulx := pre1 * delx - pre2 * muj 0,
    forcecouly := pre1 * dely - pre2 * muj 1,
    forcecoulz := pre1 * delz - pre2 * muj 2,
    tixcoul := 0, tiycoul := 0, tizcoul := 0,
    tjxcoul := -pre2 * (muj 1 * delz - muj 2 * dely),
    tjycoul := -pre2 * (muj 2 * delx - muj 0 * delz),
    tjzcoul := -pre2 * (muj 0 * dely - muj 1 * delx) }

/-- The Coulomb family (lines 128-219): the accumulators start at zero and each
of the four guarded blocks adds its term, all under the Coulomb cutoff gate. -/
def coulomb (sqrt : K → K) (cut_coulsq qtmp qj : K) (mui muj : Nat → K)
    (delx dely delz : K) : CoulTerm K :=
  let rsq := delx * delx + dely * dely + delz * delz
  let c0 : CoulTerm K := CoulTerm.zero
  if rsq < cut_coulsq then
    let c1 := if qtmp ≠ 0 ∧ qj ≠ 0 then
      c0.add (charge_charge sqrt cut_coulsq qtmp qj delx dely delz) else c0
    let c2 := if mui 3 > 0 ∧ muj 3 > 0 then
      c1.add (dipole_dipole sqrt cut_coulsq mui muj delx dely delz) else c1
    let c3 := if mui 3 > 0 ∧ qj ≠ 0 then
      c2.add (dipole_charge sqrt cut_coulsq qj mui delx dely delz) else c2
    let c4 := if muj 3 > 0 ∧ qtmp ≠ 0 then
      c3.add (charge_dipole sqrt cut_coulsq qtmp muj delx dely delz) else c3
    c4
  else c0

/-- The difference `forceljcut - forceljsf` (lines 224-230), without the LJ
cutoff gate; `lj1`, `lj2`, `cut_ljsq` are the entries at `[itype][jtype]`. -/
def lj_shifted (lj1 lj2 cut_ljsq rsq : K) : K :=
  let r2inv := 1 / rsq
  let r6inv := r2inv * r2inv * r2inv
  let forceljcut := r6inv * (lj1 * r6inv - lj2) * r2inv
  let rcutlj2inv := 1 / cut_ljsq
  let rcutlj6inv := rcutlj2inv * rcutlj2inv * rcutlj2inv
  let forceljsf := (lj1 * rcutlj6inv - lj2) * rcutlj6inv * rcutlj2inv
  forceljcut - forceljsf

/-- The variable `forcelj` (lines 223-233). -/
def forcelj (lj1 lj2 cut_ljsq factor_lj rsq : K) : K :=
  if rsq < cut_ljsq then factor_lj * lj_shifted lj1 lj2 cut_ljsq rsq else 0

/-- The charge-charge energy (lines 262-264): the value of `ecoul` before the
guarded terms are added. -/
def energy_charge_charge (sqrt : K → K) (cut_coulsq qtmp qj delx dely delz : K) : K :=
  let rsq := delx * delx + dely * dely + delz * delz
  let r2inv := 1 / rsq
  let rinv := sqrt r2inv
  let e0 := 1 - sqrt rsq / sqrt cut_coulsq
  let e1 := e0 * e0
  e1 * (qtmp * qj * rinv)

/-- The dipole-dipole energy term (line 266). The locals `bfac`, `r3inv`,
`pdotp`, `r5inv`, `pidotr`, `pjdotr` hold the values the force blocks gave
them. -/
def energy_dipole_dipole (sqrt : K → K) (cut_coulsq : K) (mui muj : Nat → K)
    (delx dely delz : K) : K :=
  let rsq := delx * delx + dely * dely + delz * delz
  let r2inv := 1 / rsq
  let rinv := sqrt r2inv
  let r3inv := r2inv * rinv
  let r5inv := r3inv * r2inv
  let rcutcoul2inv := 1 / cut_coulsq
  let pdotp := mui 0 * muj 0 + mui 1 * muj 1 + mui 2 * muj 2
  let pidotr := mui 0 * delx + mui 1 * dely + mui 2 * delz
  let pjdotr := muj 0 * delx + muj 1 * dely + muj 2 * delz
  bfac sqrt rsq rcutcoul2inv * (r3inv * pdotp - 3 * r5inv * pidotr * pjdotr)

/-- The dipole(i)-charge(j) energy term (line 268). -/
def energy_dipole_charge (sqrt : K → K) (cut_coulsq qj : K) (mui : Nat → K)
    (delx dely delz : K) : K :=
  let rsq := delx * delx + dely * dely + delz * delz
  let r2inv := 1 / rsq
  let rinv := sqrt r2inv
  let r3inv := r2inv * rinv
  let rcutcoul2inv := 1 / cut_coulsq
  let pidotr := mui 0 * delx + mui 1 * dely + mui 2 * delz
  let term := -qj * r3inv * pqfac sqrt rsq rcutcoul2inv * pidotr
  term

/-- The charge(i)-dipole(j) energy term (line 270). -/
def energy_charge_dipole (sqrt : K → K) (cut_coulsq qtmp : K) (muj : Nat → K)
    (delx dely delz : K) : K :=
  let rsq := delx * delx + dely * dely + delz * delz
  let r2inv := 1 / rsq
  let rinv := sqrt r2inv
  let r3inv := r2inv * rinv
  let rcutcoul2inv := 1 / cut_coulsq
  let pjdotr := muj 0 * delx + muj 1 * dely + muj 2 * delz
  qtmp * r3inv * qpfac sqrt rsq rcutcoul2inv * pjdotr

/-- The variable `ecoul` when `eflag` is set (lines 261-272). -/
def ecoul (sqrt : K → K) (cut_coulsq qtmp qj : K) (mui muj : Nat → K)
    (delx dely delz factor_coul qqrd2e : K) : K :=
  let rsq := delx * delx + dely * dely + delz * delz
  if rsq < cut_coulsq then
    let e2 := energy_charge_charge sqrt cut_coulsq qtmp qj delx dely delz
    let e3 := if mui 3 > 0 ∧ muj 3 > 0 then
      e2 + energy_dipole_dipole sqrt cut_coulsq mui muj delx dely delz else e2
    let e4 := if mui 3 > 0 ∧ qj ≠ 0 then
      e3 + energy_dipole_charge sqrt cut_coulsq qj mui delx dely delz else e3
    let e5 := if muj 3 > 0 ∧ qtmp ≠ 0 then
      e4 + energy_charge_dipole sqrt cut_coulsq qtmp muj delx dely delz else e4
    e5 * (factor_coul * qqrd2e)
  else 0

/-- The variable `evdwl` when `eflag` is set (lines 274-280); `lj3`, `lj4`,
`cut_ljsq` are the entries at `[itype][jtype]`. -/
def evdwl (lj3 lj4 cut_ljsq factor_lj rsq : K) : K :=
  let r2inv := 1 / rsq
  let r6inv := r2inv * r2inv * r2inv
  let rcutlj2inv := 1 / cut_ljsq
  let rcutlj6inv := rcutlj2inv * rcutlj2inv * rcutlj2inv
  if rsq < cut_ljsq then
    (r6inv * (lj3 * r6inv - lj4) +
      rcutlj6inv * (6 * lj3 * rcutlj6inv - 3 * lj4) * rsq * rcutlj2inv +
      rcutlj6inv * (-7 * lj3 * rcutlj6inv + 4 * lj4)) * factor_lj
  else 0

/-- The values a pair leaves in the locals of `compute` once the body guarded by
`rsq < cutsq[itype][jtype]` has run. -/
structure PairRecord (K : Type) where
  coul : CoulTerm K
  forcelj : K
  fq : K
  fx : K
  fy : K
  fz : K
  ecoul : K
  evdwl : K

/-- The body guarded by `rsq < cutsq[itype][jtype]` (lines 122-281) as a function
of the data it reads: the table `P`, the two types, the charges `qtmp = q[i]` and
`qj = q[j]`, the rows `mui = mu[i]` and `muj = mu[j]`, the separation, the two
special factors, `qqrd2e` and `eflag`. With `eflag` clear, `ecoul` and `evdwl`
keep the `0.0` of line 76. The divisions are those of the field `K`, which agree
with the program's wherever the divisor is not zero: the record describes the
program for `rsq ≠ 0`, and at `rsq = 0`, where `1.0/rsq` is not a number of `K`,
it does not. -/
def pair_body (sqrt : K → K) (P : Pair K) (itype jtype : Nat) (qtmp qj : K)
    (mui muj : Nat → K) (delx dely delz factor_lj factor_coul qqrd2e : K)
    (eflag : Int) : PairRecord K :=
  let rsq := delx * delx + dely * dely + delz * delz
  let c := coulomb sqrt (P.cut_coulsq itype jtype) qtmp qj mui muj delx dely delz
  let forcelj := forcelj (P.lj1 itype jtype) (P.lj2 itype jtype) (P.cut_ljsq itype jtype)
    factor_lj rsq
  let fq := factor_coul * qqrd2e
  { coul := c,
    forcelj := forcelj,
    fq := fq,
    fx := fq * c.forcecoulx + delx * forcelj,
    fy := fq * c.forcecouly + dely * forcelj,
    fz := fq * c.forcecoulz + delz * forcelj,
    ecoul := if eflag ≠ 0 then
        ecoul sqrt (P.cut_coulsq itype jtype) qtmp qj mui muj delx dely delz factor_coul qqrd2e
      else 0,
    evdwl := if eflag ≠ 0 then
        evdwl (P.lj3 itype jtype) (P.lj4 itype jtype) (P.cut_ljsq itype jtype) factor_lj rsq
      else 0 }

/-- The per-atom arrays of `atom` that `compute` only reads, and `nlocal`. -/
structure Atom (K : Type) where
  x : Nat → Nat → K
  q : Nat → K
  mu : Nat → Nat → K
  type : Nat → Nat
  nlocal : Nat

/-- The members of `force` that `compute` reads. -/
structure Force (K : Type) where
  special_coul : Nat → K
  special_lj : Nat → K
  newton_pair : Int
  qqrd2e : K

/-- What `compute` writes: the arrays `atom->f` and `atom->torque`, and the
energy/virial accumulators behind `ev_tally_xyz`, whose state has type `E`. -/
structure Accum (K E : Type) where
  f : Nat → Nat → K
  torque : Nat → Nat → K
  ev : E

/-- The force and torque accumulation (lines 244-258) for the pair `(i,j)`. -/
def accumulate (newton_pair : Int) (nlocal i j : Nat) (r : PairRecord K)
    (f torque : Nat → Nat → K) : (Nat → Nat → K) × (Nat → Nat → K) :=
  let f := set2 f i 0 (f i 0 + r.fx)
  let f := set2 f i 1 (f i 1 + r.fy)
  let f := set2 f i 2 (f i 2 + r.fz)
  let torque := set2 torque i 0 (torque i 0 + r.fq * r.coul.tixcoul)
  let torque := set2 torque i 1 (torque i 1 + r.fq * r.coul.tiycoul)
  let torque := set2 torque i 2 (torque i 2 + r.fq * r.coul.tizcoul)
  if newton_pair ≠ 0 ∨ j < nlocal then
    let f := set2 f j 0 (f j 0 - r.fx)
    let f := set2 f j 1 (f j 1 - r.fy)
    let f := set2 f j 2 (f j 2 - r.fz)
    let torque := set2 torque j 0 (torque j 0 + r.fq * r.coul.tjxcoul)
    let torque := set2 torque j 1 (torque j 1 + r.fq * r.coul.tjycoul)
    let torque := set2 torque j 2 (torque j 2 + r.fq * r.coul.tjzcoul)
    (f, torque)
  else (f, torque)

/-- The squared separation `rsq` of the atoms `i` and `j` (lines 115-118). -/
def pair_rsq (A : Atom K) (i j : Nat) : K :=
  let delx := A.x i 0 - A.x j 0
  let dely := A.x i 1 - A.x j 1
  let delz := A.x i 2 - A.x j 2
  delx * delx + dely * dely + delz * delz

/-- The record `pair_body` yields for the local atom `i` and a neighbor entry
already decoded into the atom index `j` (`j & NEIGHMASK`) and the special-bond
index `sb` (`sbmask(j)`); both macros live in headers outside the sources at
hand. -/
def pair_record (sqrt : K → K) (P : Pair K) (A : Atom K) (F : Force K) (eflag : Int)
    (i j sb : Nat) : PairRecord K :=
  let factor_lj := F.special_lj sb
  let factor_coul := F.special_coul sb
  let delx := A.x i 0 - A.x j 0
  let dely := A.x i 1 - A.x j 1
  let delz := A.x i 2 - A.x j 2
  pair_body sqrt P (A.type i) (A.type j) (A.q i) (A.q j) (A.mu i) (A.mu j)
    delx dely delz factor_lj factor_coul F.qqrd2e eflag

/-- One pass of the inner loop of `compute` (lines 110-285) for the pair `(i,j)`.
`ev_tally_xyz` (defined in `pair.cpp`) is an arbitrary function on the
accumulator state `E`; `evflag` is the member set by `ev_setup`. -/
def pair_step {E : Type} (sqrt : K → K)
    (ev_tally_xyz : E → Nat → Nat → Nat → Int → K → K → K → K → K → K → K → K → E)
    (P : Pair K) (A : Atom K) (F : Force K) (eflag evflag : Int) (i j sb : Nat)
    (S : Accum K E) : Accum K E :=
  let delx := A.x i 0 - A.x j 0
  let dely := A.x i 1 - A.x j 1
  let delz := A.x i 2 - A.x j 2
  if pair_rsq A i j < P.cutsq (A.type i) (A.type j) then
    let r := pair_record sqrt P A F eflag i j sb
    let ft := accumulate F.newton_pair A.nlocal i j r S.f S.torque
    let ev := if evflag ≠ 0 then
      ev_tally_xyz S.ev i j A.nlocal F.newton_pair r.evdwl r.ecoul r.fx r.fy r.fz delx dely delz
      else S.ev
    { f := ft.1, torque := ft.2, ev := ev }
  else S

/-! ### Commands on the table: `allocate`, `settings`, `coeff`, restart files -/

/-- The values `lo, lo+1, …, hi` that `for (k = lo; k <= hi; k++)` runs through. -/
def loop_range (lo hi : Nat) : List Nat :=
  List.range' lo (hi + 1 - lo)

/-- The index pairs visited, in this order, by the nested loops
`for (i = ilo; i <= ihi; i++) for (j = jlo(i); j <= jhi; j++)`. -/
def loop2 (ilo ihi : Nat) (jlo : Nat → Nat) (jhi : Nat) : List (Nat × Nat) :=
  (loop_range ilo ihi).flatMap fun i => (loop_range (jlo i) jhi).map fun j => (i, j)

/-- How a command ends: it returns with the object in state `s`, or it stops in
`error->all` with the object as it was at that moment. -/
inductive Outcome (σ : Type) where
  | ok (s : σ)
  | error (s : σ)

/-- The object at the end of a command, however it ended. -/
def Outcome.state {σ : Type} : Outcome σ → σ
  | Outcome.ok s => s
  | Outcome.error s => s

/-- Whether the command returned rather than stopped in `error->all`. -/
def Outcome.isOk {σ : Type} : Outcome σ → Bool
  | Outcome.ok _ => true
  | Outcome.error _ => false

/-- `PairDipoleSF::allocate()` (lines 296-318) with `n = atom->ntypes`.
`memory->create` hands out uninitialised storage: the arrays after the call are
those of `fresh`, an arbitrary table, with `setflag[i][j] = 0` written for
`1 ≤ i ≤ j ≤ n`; the scalar members other than `allocated` are kept. -/
def allocate (P fresh : Pair K) (n : Nat) : Pair K :=
  let P1 := { fresh with allocated := 1, cut_lj_global := P.cut_lj_global, cut_coul_global := P.cut_coul_global, mix_flag := P.mix_flag }
  (loop2 1 n (fun i => i) n).foldl
    (fun Q ij => { Q with setflag := set2 Q.setflag ij.1 ij.2 0 }) P1

/-- The body of the double loop of `settings` (lines 339-342). -/
def settings_body (Q : Pair K) (ij : Nat × Nat) : Pair K :=
  if Q.setflag ij.1 ij.2 ≠ 0 then
    let Q1 := { Q with cut_lj := set2 Q.cut_lj ij.1 ij.2 Q.cut_lj_global }
    { Q1 with cut_coul := set2 Q1.cut_coul ij.1 ij.2 Q1.cut_coul_global }
  else Q

/-- `PairDipoleSF::settings(narg,arg)` (lines 324-344) with `ntypes = atom->ntypes`;
`arg k` is the number `force->numeric(arg[k])`. -/
def settings (P : Pair K) (ntypes narg : Nat) (arg : Nat → K) : Outcome (Pair K) :=
  if narg < 1 ∨ narg > 2 then Outcome.error P
  else
    let P1 := { P with cut_lj_global := arg 0 }
    let P2 := if narg = 1 then { P1 with cut_coul_global := P1.cut_lj_global }
      else { P1 with cut_coul_global := arg 1 }
    if P2.allocated ≠ 0 then
      Outcome.ok ((loop2 1 ntypes (fun i => i + 1) ntypes).foldl settings_body P2)
    else Outcome.ok P2

/-- The body of the double loop of `coeff` (lines 371-376) on the object and
the counter `count`. -/
def coeff_body (epsilon_one sigma_one cut_lj_one cut_coul_one : K)
    (s : Pair K × Nat) (ij : Nat × Nat) : Pair K × Nat :=
  let Q1 := { s.1 with epsilon := set2 s.1.epsilon ij.1 ij.2 epsilon_one }
  let Q2 := { Q1 with sigma := set2 Q1.sigma ij.1 ij.2 sigma_one }
  let Q3 := { Q2 with cut_lj := set2 Q2.cut_lj ij.1 ij.2 cut_lj_one }
  let Q4 := { Q3 with cut_coul := set2 Q3.cut_coul ij.1 ij.2 cut_coul_one }
  let Q5 := { Q4 with setflag := set2 Q4.setflag ij.1 ij.2 1 }
  (Q5, s.2 + 1)

/-- `PairDipoleSF::coeff(narg,arg)` (lines 350-381) with `ntypes = atom->ntypes`.
The ranges `ilo..ihi` and `jlo..jhi` are what `force->bounds` resolved `arg[0]`
and `arg[1]` to, `arg k` is the number `force->numeric(arg[k])`, and `fresh`
holds the storage `allocate` would hand out. -/
def coeff (P fresh : Pair K) (ntypes narg ilo ihi jlo jhi : Nat) (arg : Nat → K) :
    Outcome (Pair K) :=
  if narg < 4 ∨ narg > 6 then Outcome.error P
  else
    let P0 := if P.allocated = 0 then allocate P fresh ntypes else P
    let epsilon_one := arg 2
    let sigma_one := arg 3
    let cut_lj_one := if narg ≥ 5 then arg 4 else P0.cut_lj_global
    let cut_coul_5 := if narg ≥ 5 then arg 4 else P0.cut_coul_global
    let cut_coul_one := if narg = 6 then arg 5 else cut_coul_5
    let r := (loop2 ilo ihi (fun i => if jlo > i then jlo else i) jhi).foldl
      (coeff_body epsilon_one sigma_one cut_lj_one cut_coul_one) (P0, 0)
    if r.2 = 0 then Outcome.error r.1 else Outcome.ok r.1

/-- One value of a restart file, as `fwrite` stores it: an `int` or a `double`. -/
inductive Item (K : Type) where
  | int (v : Int)
  | double (v : K)

/-- `fread(&v,sizeof(int),1,fp)`: the next value of the file and the rest of it;
`none` when the file does not continue with an `int`. -/
def fread_int : List (Item K) → Option (Int × List (Item K))
  | Item.int v :: rest => some (v, rest)
  | _ => none

/-- `fread(&v,sizeof(double),1,fp)`: the next value of the file and the rest of
it; `none` when the file does not continue with a `double`. -/
def fread_double : List (Item K) → Option (K × List (Item K))
  | Item.double v :: rest => some (v, rest)
  | _ => none

/-- `PairDipoleSF::write_restart_settings(fp)` (lines 484-489): the file after
the three values are appended. -/
def write_restart_settings (P : Pair K) (fp : List (Item K)) : List (Item K) :=
  fp ++ [Item.double P.cut_lj_global, Item.double P.cut_coul_global, Item.int P.mix_flag]

/-- The body of the double loop of `write_restart` (lines 439-445). -/
def write_restart_body (P : Pair K) (fp : List (Item K)) (ij : Nat × Nat) :
    List (Item K) :=
  let fp1 := fp ++ [Item.int (P.setflag ij.1 ij.2)]
  if P.setflag ij.1 ij.2 ≠ 0 then
    fp1 ++ [Item.double (P.epsilon ij.1 ij.2), Item.double (P.sigma ij.1 ij.2),
      Item.double (P.cut_lj ij.1 ij.2), Item.double (P.cut_coul ij.1 ij.2)]
  else fp1

/-- `PairDipoleSF::write_restart(fp)` (lines 432-447) with
`ntypes = atom->ntypes`: the file after the call. -/
def write_restart (P : Pair K) (ntypes : Nat) (fp : List (Item K)) : List (Item K) :=
  (loop2 1 ntypes (fun i => i) ntypes).foldl (write_restart_body P)
    (write_restart_settings P fp)

/-- `PairDipoleSF::read_restart_settings(fp)` (lines 495-505) on process 0
(`comm->me == 0`), where `MPI_Bcast` leaves the values read in place. -/
def read_restart_settings (P : Pair K) (fp : List (Item K)) :
    Option (Pair K × List (Item K)) :=
  match fread_double fp with
  | none => none
  | some (a, fp1) =>
    match fread_double fp1 with
    | none => none
    | some (b, fp2) =>
      match fread_int fp2 with
      | none => none
      | some (m, fp3) =>
        some ({ P with cut_lj_global := a, cut_coul_global := b, mix_flag := m }, fp3)

/-- The four `fread` of lines 467-470 for the pair `ij`. -/
def read_restart_values (Q : Pair K) (fp : List (Item K)) (ij : Nat × Nat) :
    Option (Pair K × List (Item K)) :=
  match fread_double fp with
  | none => none
  | some (e, fp1) =>
    match fread_double fp1 with
    | none => none
    | some (s, fp2) =>
      match fread_double fp2 with
      | none => none
      | some (l, fp3) =>
        match fread_double fp3 with
        | none => none
        | some (c, fp4) =>
          let Q1 := { Q with epsilon := set2 Q.epsilon ij.1 ij.2 e }
          let Q2 := { Q1 with sigma := set2 Q1.sigma ij.1 ij.2 s }
          let Q3 := { Q2 with cut_lj := set2 Q2.cut_lj ij.1 ij.2 l }
          some ({ Q3 with cut_coul := set2 Q3.cut_coul ij.1 ij.2 c }, fp4)

/-- The body of the double loop of `read_restart` (lines 463-476) on process 0,
on the object and the rest of the file. -/
def read_restart_body (s : Pair K × List (Item K)) (ij : Nat × Nat) :
    Option (Pair K × List (Item K)) :=
  match fread_int s.2 with
  | none => none
  | some (v, fp1) =>
    let Q := { s.1 with setflag := set2 s.1.setflag ij.1 ij.2 v }
    if Q.setflag ij.1 ij.2 ≠ 0 then read_restart_values Q fp1 ij else some (Q, fp1)

/-- `PairDipoleSF::read_restart(fp)` (lines 453-478) with `ntypes = atom->ntypes`,
on process 0: the object after the call and the rest of the file, or `none`
when a read finds no value of the expected kind. `fresh` holds the storage
`allocate` hands out. -/
def read_restart (P fresh : Pair K) (ntypes : Nat) (fp : List (Item K)) :
    Option (Pair K × List (Item K)) :=
  match read_restart_settings P fp with
  | none => none
  | some (P1, fp1) =>
    (loop2 1 ntypes (fun i => i) ntypes).foldlM read_restart_body
      (allocate P1 fresh ntypes, fp1)

/-- Modelled from the spec: the caller of `init_one` (`Pair::init` in `pair.cpp`,
not part of the sources at hand) finalizes every type pair `i ≤ j`, in the order
`for i = 1..ntypes, for j = i..ntypes`. -/
def init_all (sqrt : K → K) (P : Pair K) (ntypes : Nat) : Pair K :=
  (loop2 1 ntypes (fun i => i) ntypes).foldl (fun Q ij => (init_one sqrt Q ij.1 ij.2).2) P

/-! ### Comparing two tables -/

/-- The stored arrays `epsilon`, `sigma`, `cut_lj`, `cut_coul` of two tables
agree at `[a][b]`. -/
def StoredEq (A B : Pair K) (a b : Nat) : Prop :=
  A.epsilon a b = B.epsilon a b ∧ A.sigma a b = B.sigma a b ∧
    A.cut_lj a b = B.cut_lj a b ∧ A.cut_coul a b = B.cut_coul a b

/-- The derived arrays `cut_ljsq`, `cut_coulsq`, `lj1..lj4` of two tables agree
at `[a][b]`. -/
def DerivedEq (A B : Pair K) (a b : Nat) : Prop :=
  A.cut_ljsq a b = B.cut_ljsq a b ∧ A.cut_coulsq a b = B.cut_coulsq a b ∧
    A.lj1 a b = B.lj1 a b ∧ A.lj2 a b = B.lj2 a b ∧
    A.lj3 a b = B.lj3 a b ∧ A.lj4 a b = B.lj4 a b

/-- Two tables agree on the pair `a ≤ b`: the stored arrays at `[a][b]` and the
derived arrays at `[a][b]` and `[b][a]`. -/
def AgreeAt (A B : Pair K) (a b : Nat) : Prop :=
  StoredEq A B a b ∧ DerivedEq A B a b ∧ DerivedEq A B b a

/-- Two tables hold the same explicit settings for the types `1..n`: the same
flags for every pair `a ≤ b`, and the same stored values where the flag is set. -/
def SameSettings (A B : Pair K) (n : Nat) : Prop :=
  ∀ a b, 1 ≤ a → a ≤ b → b ≤ n →
    A.setflag a b = B.setflag a b ∧ (B.setflag a b ≠ 0 → StoredEq A B a b)

/-! ### Concrete data used to instantiate the theorems -/

/-- A table with one value per array: every pair explicitly set, epsilon 1,
sigma 1, both cutoffs 2, derived arrays as `init_one` leaves them. -/
def exPair (K : Type) [LinearOrderedField K] : Pair K :=
  { allocated := 1, setflag := fun _ _ => 1, cutsq := fun _ _ => 4,
    cut_lj_global := 2, cut_coul_global := 2, mix_flag := 0,
    cut_lj := fun _ _ => 2, cut_ljsq := fun _ _ => 4,
    cut_coul := fun _ _ => 2, cut_coulsq := fun _ _ => 4,
    epsilon := fun _ _ => 1, sigma := fun _ _ => 1,
    lj1 := fun _ _ => 48, lj2 := fun _ _ => 24, lj3 := fun _ _ => 4, lj4 := fun _ _ => 4 }

/-- The same table with no pair set yet. -/
def exPairUnset (K : Type) [LinearOrderedField K] : Pair K :=
  { exPair K with setflag := fun _ _ => 0 }

/-- Two atoms of type 1 on the x axis at distance 1: atom 0 at `(1,0,0)` with
charge 1, atom 1 at the origin with charge -1; no dipole flags; one local atom. -/
def exAtom (K : Type) [LinearOrderedField K] : Atom K :=
  { x := fun i d => if i = 0 ∧ d = 0 then 1 else 0,
    q := fun i => if i = 0 then 1 else -1,
    mu := fun _ _ => 0,
    type := fun _ => 1,
    nlocal := 1 }

/-- The table `exPair` with the entry `cut_lj[2][1]`, below the diagonal, set to 3. -/
def exPairSkew (K : Type) [LinearOrderedField K] : Pair K :=
  { exPair K with cut_lj := fun a b => if a = 2 ∧ b = 1 then 3 else 2 }

/-- The table of the scenarios before it is finalized: every pair set with
epsilon 1, sigma 1 and both cutoffs 2.5, `cutsq = 6.25`. -/
def scenPair (K : Type) [LinearOrderedField K] : Pair K :=
  { exPair K with cutsq := fun _ _ => 25 / 4, cut_lj_global := 5 / 2, cut_coul_global := 5 / 2, cut_lj := fun _ _ => 5 / 2, cut_coul := fun _ _ => 5 / 2 }

/-- Storage filled with zeros. -/
def exFresh (K : Type) [LinearOrderedField K] : Pair K :=
  { allocated := 0, setflag := fun _ _ => 0, cutsq := fun _ _ => 0,
    cut_lj_global := 0, cut_coul_global := 0, mix_flag := 0,
    cut_lj := fun _ _ => 0, cut_ljsq := fun _ _ => 0,
    cut_coul := fun _ _ => 0, cut_coulsq := fun _ _ => 0,
    epsilon := fun _ _ => 0, sigma := fun _ _ => 0,
    lj1 := fun _ _ => 0, lj2 := fun _ _ => 0, lj3 := fun _ _ => 0, lj4 := fun _ _ => 0 }

/-- A row of `mu`: dipole vector `(1,1,1)` with magnitude flag 1. -/
def exMu (K : Type) [LinearOrderedField K] : Nat → K := fun _ => 1

/-- A row of `mu` with all four entries zero: no dipole. -/
def exMuNone (K : Type) [LinearOrderedField K] : Nat → K := fun _ => 0

/-- Special factors 1, Newton's third law off for ghosts, `qqrd2e = 1`. -/
def exForce (K : Type) [LinearOrderedField K] : Force K :=
  { special_coul := fun _ => 1, special_lj := fun _ => 1, newton_pair := 0, qqrd2e := 1 }

/-- Zeroed force and torque arrays and a unit accumulator state. -/
def exAccum (K : Type) [LinearOrderedField K] : Accum K Unit :=
  { f := fun _ _ => 0, torque := fun _ _ => 0, ev := () }

end Defs

section Lemmas

variable {K : Type} [LinearOrderedField K]

/-- Reading back the entry just written. -/
theorem set2_same {α : Type} (a : Nat → Nat → α) (i j : Nat) (v : α) :
    set2 a i j v i j = v := by
  simp [set2]

/-- `MAX` is the maximum of the order. -/
theorem MAX_eq_max (A B : K) : MAX A B = max A B := by
  unfold MAX
  split_ifs with h
  · exact (max_eq_left (le_of_lt h)).symm
  · exact (max_eq_right (not_lt.mp h)).symm

/-- A write leaves every other entry alone. -/
theorem set2_other {α : Type} (a : Nat → Nat → α) (i j i' j' : Nat) (v : α)
    (h : ¬ (i' = i ∧ j' = j)) : set2 a i j v i' j' = a i' j' := by
  simp [set2, h]

/-- The mixing block writes none of the derived arrays and changes no flag. -/
theorem init_one_mix_setflag (sqrt : K → K) (P : Pair K) (i j : Nat) :
    (init_one_mix sqrt P i j).setflag = P.setflag := by
  unfold init_one_mix
  split_ifs <;> rfl

/-- With the flag set the mixing block is skipped. -/
theorem init_one_mix_of_set (sqrt : K → K) (P : Pair K) (i j : Nat)
    (h : P.setflag i j ≠ 0) : init_one_mix sqrt P i j = P := by
  unfold init_one_mix
  rw [if_neg h]

/-- The effect of `init_one(i,j)` on a pair whose flag is set, written out. -/
theorem init_one_of_set (sqrt : K → K) (P : Pair K) (i j : Nat)
    (h : P.setflag i j ≠ 0) :
    init_one sqrt P i j =
      (MAX (P.cut_lj i j) (P.cut_coul i j),
       { P with
         cut_ljsq := set2 (set2 P.cut_ljsq i j (P.cut_lj i j * P.cut_lj i j)) j i
           (P.cut_lj i j * P.cut_lj i j),
         cut_coulsq := set2 (set2 P.cut_coulsq i j (P.cut_coul i j * P.cut_coul i j)) j i
           (P.cut_coul i j * P.cut_coul i j),
         lj1 := set2 (set2 P.lj1 i j (48 * P.epsilon i j * P.sigma i j ^ 12)) j i
           (48 * P.epsilon i j * P.sigma i j ^ 12),
         lj2 := set2 (set2 P.lj2 i j (24 * P.epsilon i j * P.sigma i j ^ 6)) j i
           (24 * P.epsilon i j * P.sigma i j ^ 6),
         lj3 := set2 (set2 P.lj3 i j (4 * P.epsilon i j * P.sigma i j ^ 12)) j i
           (4 * P.epsilon i j * P.sigma i j ^ 12),
         lj4 := set2 (set2 P.lj4 i j (4 * P.epsilon i j * P.sigma i j ^ 6)) j i
           (4 * P.epsilon i j * P.sigma i j ^ 6) }) := by
  simp only [init_one, init_one_mix_of_set sqrt P i j h, set2_same]

end Lemmas

section Calculus

open Filter Topology

/-! ### Real analysis of the kernel: energies differentiated along a family of
separation vectors -/

variable {E : Type} [NormedAddCommGroup E] [NormedSpace ℝ E]

/-- For `s > 0`, `sqrt(1/(s*s)) = 1/s`: the value of `rinv` at distance `s`. -/
theorem sqrt_inv_sq (s : ℝ) (hs : 0 < s) : Real.sqrt (1 / (s * s)) = 1 / s := by
  rw [one_div, Real.sqrt_inv, Real.sqrt_mul_self hs.le, one_div]

/-- For `s > 0`, `sqrt(s*s) = s`. -/
theorem sqrt_sq_self (s : ℝ) (hs : 0 < s) : Real.sqrt (s * s) = s :=
  Real.sqrt_mul_self hs.le

/-- The derivative of `s ↦ 1/sⁿ` away from zero. -/
theorem hasDerivAt_inv_pow (n : ℕ) (s : ℝ) (hs : s ≠ 0) :
    HasDerivAt (fun s : ℝ => 1 / s ^ n) (-(n : ℝ) / s ^ (n + 1)) s := by
  have h := (hasDerivAt_pow n s).inv (pow_ne_zero n hs)
  simp only [one_div]
  convert h using 1
  rcases n with _ | n
  · simp
  · field_simp
    ring

/-- The distance along a differentiable family of separation vectors. -/
theorem hasFDerivAt_dist (X Y Z : E → ℝ) (X' Y' Z' : E →L[ℝ] ℝ) (p : E)
    (hX : HasFDerivAt X X' p) (hY : HasFDerivAt Y Y' p) (hZ : HasFDerivAt Z Z' p)
    (hpos : 0 < X p * X p + Y p * Y p + Z p * Z p) :
    HasFDerivAt (fun y => Real.sqrt (X y * X y + Y y * Y y + Z y * Z y))
      ((1 / Real.sqrt (X p * X p + Y p * Y p + Z p * Z p)) •
        (X p • X' + Y p • Y' + Z p • Z')) p := by
  have h := (((hX.mul hX).add (hY.mul hY)).add (hZ.mul hZ)).sqrt hpos.ne'
  refine h.congr_fderiv ?_
  ext v
  simp only [ContinuousLinearMap.smul_apply, ContinuousLinearMap.add_apply, smul_eq_mul]
  have : Real.sqrt (X p * X p + Y p * Y p + Z p * Z p) ≠ 0 := (Real.sqrt_pos.mpr hpos).ne'
  field_simp
  ring

/-- Scalar calculus behind the dipole-dipole term. -/
theorem hasFDerivAt_dd_closed (σ pi pj : E → ℝ) (σ' pi' pj' : E →L[ℝ] ℝ) (p : E)
    (hσ : HasFDerivAt σ σ' p) (hpi : HasFDerivAt pi pi' p) (hpj : HasFDerivAt pj pj' p)
    (hs : σ p ≠ 0) (rc pdotp : ℝ) :
    HasFDerivAt (fun y => (1 - 4 * (σ y) ^ 3 / rc ^ 3 + 3 * (σ y) ^ 4 / rc ^ 4) *
        (1 / (σ y) ^ 3 * pdotp - 3 * (1 / (σ y) ^ 5) * pi y * pj y))
      (((-12 * (σ p) ^ 2 / rc ^ 3 + 12 * (σ p) ^ 3 / rc ^ 4) *
          (1 / (σ p) ^ 3 * pdotp - 3 * (1 / (σ p) ^ 5) * pi p * pj p) +
        (1 - 4 * (σ p) ^ 3 / rc ^ 3 + 3 * (σ p) ^ 4 / rc ^ 4) *
          (-3 / (σ p) ^ 4 * pdotp + 15 / (σ p) ^ 6 * pi p * pj p)) • σ' +
       ((1 - 4 * (σ p) ^ 3 / rc ^ 3 + 3 * (σ p) ^ 4 / rc ^ 4) * (-3 / (σ p) ^ 5)) •
          (pj p • pi' + pi p • pj')) p := by
  have hb : HasDerivAt (fun s : ℝ => 1 - 4 * s ^ 3 / rc ^ 3 + 3 * s ^ 4 / rc ^ 4)
      (-12 * (σ p) ^ 2 / rc ^ 3 + 12 * (σ p) ^ 3 / rc ^ 4) (σ p) := by
    have h := ((((hasDerivAt_pow 3 (σ p)).const_mul 4).div_const (rc ^ 3)).const_sub 1).add
      (((hasDerivAt_pow 4 (σ p)).const_mul 3).div_const (rc ^ 4))
    convert h using 1
    norm_num
    ring
  have h3 := hasDerivAt_inv_pow 3 (σ p) hs
  have h5 := hasDerivAt_inv_pow 5 (σ p) hs
  have hB := hb.comp_hasFDerivAt p hσ
  have hR3 := h3.comp_hasFDerivAt p hσ
  have hR5 := h5.comp_hasFDerivAt p hσ
  have h := hB.mul ((hR3.mul_const pdotp).sub (((hR5.const_mul 3).mul hpi).mul hpj))
  refine h.congr_fderiv ?_
  ext v
  simp only [ContinuousLinearMap.smul_apply, ContinuousLinearMap.add_apply,
    ContinuousLinearMap.sub_apply, smul_eq_mul, Function.comp_apply]
  field_simp
  ring
/-- The dipole-dipole energy term at distance `s`, free of square roots. -/
theorem energy_dd_closed (rc : ℝ) (mui muj : ℕ → ℝ) (x y z s : ℝ)
    (hs : 0 < s) (hrc : 0 < rc) (hρ : x * x + y * y + z * z = s * s) :
    energy_dipole_dipole Real.sqrt (rc * rc) mui muj x y z =
      (1 - 4 * s ^ 3 / rc ^ 3 + 3 * s ^ 4 / rc ^ 4) *
        (1 / s ^ 3 * (mui 0 * muj 0 + mui 1 * muj 1 + mui 2 * muj 2) -
          3 * (1 / s ^ 5) * (mui 0 * x + mui 1 * y + mui 2 * z) *
            (muj 0 * x + muj 1 * y + muj 2 * z)) := by
  simp only [energy_dipole_dipole, bfac, hρ, sqrt_inv_sq s hs, sqrt_sq_self s hs,
    sqrt_inv_sq rc hrc]
  generalize mui 0 * muj 0 + mui 1 * muj 1 + mui 2 * muj 2 = pdotp
  generalize mui 0 * x + mui 1 * y + mui 2 * z = pidotr
  generalize muj 0 * x + muj 1 * y + muj 2 * z = pjdotr
  field_simp
  ring

/-- The dipole-dipole block force paired with a vector `(a,b,c)`, at distance `s`. -/
theorem force_dd_dot (rc : ℝ) (mui muj : ℕ → ℝ) (x y z s a b c : ℝ)
    (hs : 0 < s) (hrc : 0 < rc) (hρ : x * x + y * y + z * z = s * s) :
    (dipole_dipole Real.sqrt (rc * rc) mui muj x y z).forcecoulx * a +
      (dipole_dipole Real.sqrt (rc * rc) mui muj x y z).forcecouly * b +
      (dipole_dipole Real.sqrt (rc * rc) mui muj x y z).forcecoulz * c =
    3 * (1 / s ^ 5) *
      ((1 - s ^ 4 / rc ^ 4) *
          ((mui 0 * muj 0 + mui 1 * muj 1 + mui 2 * muj 2) -
            3 * (1 / s ^ 2) * (mui 0 * x + mui 1 * y + mui 2 * z) *
              (muj 0 * x + muj 1 * y + muj 2 * z)) * (x * a + y * b + z * c) +
        (1 - 4 * s ^ 3 / rc ^ 3 + 3 * s ^ 4 / rc ^ 4) *
          ((muj 0 * x + muj 1 * y + muj 2 * z) * (mui 0 * a + mui 1 * b + mui 2 * c) +
           (mui 0 * x + mui 1 * y + mui 2 * z) * (muj 0 * a + muj 1 * b + muj 2 * c) -
           2 * (1 / s ^ 2) * (mui 0 * x + mui 1 * y + mui 2 * z) *
              (muj 0 * x + muj 1 * y + muj 2 * z) * (x * a + y * b + z * c))) := by
  simp only [dipole_dipole, afac, bfac, hρ, sqrt_inv_sq s hs, sqrt_sq_self s hs,
    sqrt_inv_sq rc hrc]
  generalize mui 0 * muj 0 + mui 1 * muj 1 + mui 2 * muj 2 = pdotp
  generalize mui 0 * x + mui 1 * y + mui 2 * z = pidotr
  generalize muj 0 * x + muj 1 * y + muj 2 * z = pjdotr
  ring

/-- The dipole-dipole block force is minus the gradient of the dipole-dipole energy term. -/
theorem hasFDerivAt_energy_dd (X Y Z : E → ℝ) (X' Y' Z' : E →L[ℝ] ℝ) (p : E)
    (hX : HasFDerivAt X X' p) (hY : HasFDerivAt Y Y' p) (hZ : HasFDerivAt Z Z' p)
    (hpos : 0 < X p * X p + Y p * Y p + Z p * Z p) (rc : ℝ) (hrc : 0 < rc)
    (mui muj : ℕ → ℝ) :
    HasFDerivAt (fun y => energy_dipole_dipole Real.sqrt (rc * rc) mui muj (X y) (Y y) (Z y))
      (-((dipole_dipole Real.sqrt (rc * rc) mui muj (X p) (Y p) (Z p)).forcecoulx • X' +
         (dipole_dipole Real.sqrt (rc * rc) mui muj (X p) (Y p) (Z p)).forcecouly • Y' +
         (dipole_dipole Real.sqrt (rc * rc) mui muj (X p) (Y p) (Z p)).forcecoulz • Z')) p := by
  have hσ := hasFDerivAt_dist X Y Z X' Y' Z' p hX hY hZ hpos
  have hpi : HasFDerivAt (fun y => mui 0 * X y + mui 1 * Y y + mui 2 * Z y)
      (mui 0 • X' + mui 1 • Y' + mui 2 • Z') p :=
    ((hX.const_mul (mui 0)).add (hY.const_mul (mui 1))).add (hZ.const_mul (mui 2))
  have hpj : HasFDerivAt (fun y => muj 0 * X y + muj 1 * Y y + muj 2 * Z y)
      (muj 0 • X' + muj 1 • Y' + muj 2 • Z') p :=
    ((hX.const_mul (muj 0)).add (hY.const_mul (muj 1))).add (hZ.const_mul (muj 2))
  have hs : 0 < Real.sqrt (X p * X p + Y p * Y p + Z p * Z p) := Real.sqrt_pos.mpr hpos
  have h := hasFDerivAt_dd_closed _ _ _ _ _ _ p hσ hpi hpj hs.ne' rc
    (mui 0 * muj 0 + mui 1 * muj 1 + mui 2 * muj 2)
  refine (h.congr_fderiv ?_).congr_of_eventuallyEq ?_
  · have hρ := (Real.mul_self_sqrt hpos.le).symm
    ext v
    simp only [ContinuousLinearMap.smul_apply, ContinuousLinearMap.add_apply,
      ContinuousLinearMap.neg_apply, smul_eq_mul]
    rw [force_dd_dot rc mui muj (X p) (Y p) (Z p) _ (X' v) (Y' v) (Z' v) hs hrc hρ]
    generalize Real.sqrt (X p * X p + Y p * Y p + Z p * Z p) = s at hs
    generalize mui 0 * muj 0 + mui 1 * muj 1 + mui 2 * muj 2 = pdotp
    generalize mui 0 * X p + mui 1 * Y p + mui 2 * Z p = pidotr
    generalize muj 0 * X p + muj 1 * Y p + muj 2 * Z p = pjdotr
    generalize X p * X' v + Y p * Y' v + Z p * Z' v = dv
    generalize mui 0 * X' v + mui 1 * Y' v + mui 2 * Z' v = mv
    generalize muj 0 * X' v + muj 1 * Y' v + muj 2 * Z' v = nv
    field_simp
    ring
  · have hc : ContinuousAt (fun y => X y * X y + Y y * Y y + Z y * Z y) p :=
      ((hX.continuousAt.mul hX.continuousAt).add (hY.continuousAt.mul hY.continuousAt)).add
        (hZ.continuousAt.mul hZ.continuousAt)
    filter_upwards [hc.eventually (lt_mem_nhds hpos)] with y hy
    exact energy_dd_closed rc mui muj (X y) (Y y) (Z y) _ (Real.sqrt_pos.mpr hy) hrc
      (Real.mul_self_sqrt hy.le).symm

/-! charge-charge -/

/-- The charge-charge energy at distance `s`, free of square roots. -/
theorem energy_qq_closed (rc qtmp qj x y z s : ℝ)
    (hs : 0 < s) (hrc : 0 < rc) (hρ : x * x + y * y + z * z = s * s) :
    energy_charge_charge Real.sqrt (rc * rc) qtmp qj x y z =
      (1 - s / rc) * (1 - s / rc) * (qtmp * qj * (1 / s)) := by
  simp only [energy_charge_charge, hρ, sqrt_inv_sq s hs, sqrt_sq_self s hs,
    sqrt_sq_self rc hrc]

/-- The charge-charge block force paired with a vector `(a,b,c)`, at distance `s`. -/
theorem force_qq_dot (rc qtmp qj x y z s a b c : ℝ)
    (hs : 0 < s) (hρ : x * x + y * y + z * z = s * s) :
    (charge_charge Real.sqrt (rc * rc) qtmp qj x y z).forcecoulx * a +
      (charge_charge Real.sqrt (rc * rc) qtmp qj x y z).forcecouly * b +
      (charge_charge Real.sqrt (rc * rc) qtmp qj x y z).forcecoulz * c =
    qtmp * qj * (1 / s) * (1 / (s * s) - 1 / (rc * rc)) * (x * a + y * b + z * c) := by
  simp only [charge_charge, hρ, sqrt_inv_sq s hs]
  ring

/-- Scalar calculus behind the charge-charge term. -/
theorem hasFDerivAt_qq_closed (σ : E → ℝ) (σ' : E →L[ℝ] ℝ) (p : E)
    (hσ : HasFDerivAt σ σ' p) (hs : σ p ≠ 0) (rc c : ℝ) :
    HasFDerivAt (fun y => (1 - σ y / rc) * (1 - σ y / rc) * (c * (1 / σ y)))
      ((2 * (1 - σ p / rc) * (-(1 / rc)) * (c * (1 / σ p)) +
        (1 - σ p / rc) * (1 - σ p / rc) * (c * (-1 / (σ p) ^ 2))) • σ') p := by
  have h1 : HasDerivAt (fun s : ℝ => 1 - s / rc) (-(1 / rc)) (σ p) := by
    simpa using ((hasDerivAt_id (σ p)).div_const rc).const_sub 1
  have h2 : HasDerivAt (fun s : ℝ => 1 / s) (-1 / (σ p) ^ 2) (σ p) := by
    simpa [one_div, neg_div] using hasDerivAt_inv hs
  have h := ((h1.mul h1).mul (h2.const_mul c)).comp_hasFDerivAt p hσ
  refine h.congr_fderiv ?_
  ext v
  simp only [ContinuousLinearMap.smul_apply, smul_eq_mul]
  ring

/-- The charge-charge block force is minus the gradient of the charge-charge energy. -/
theorem hasFDerivAt_energy_qq (X Y Z : E → ℝ) (X' Y' Z' : E →L[ℝ] ℝ) (p : E)
    (hX : HasFDerivAt X X' p) (hY : HasFDerivAt Y Y' p) (hZ : HasFDerivAt Z Z' p)
    (hpos : 0 < X p * X p + Y p * Y p + Z p * Z p) (rc : ℝ) (hrc : 0 < rc)
    (qtmp qj : ℝ) :
    HasFDerivAt (fun y => energy_charge_charge Real.sqrt (rc * rc) qtmp qj (X y) (Y y) (Z y))
      (-((charge_charge Real.sqrt (rc * rc) qtmp qj (X p) (Y p) (Z p)).forcecoulx • X' +
         (charge_charge Real.sqrt (rc * rc) qtmp qj (X p) (Y p) (Z p)).forcecouly • Y' +
         (charge_charge Real.sqrt (rc * rc) qtmp qj (X p) (Y p) (Z p)).forcecoulz • Z')) p := by
  have hσ := hasFDerivAt_dist X Y Z X' Y' Z' p hX hY hZ hpos
  have hs : 0 < Real.sqrt (X p * X p + Y p * Y p + Z p * Z p) := Real.sqrt_pos.mpr hpos
  have h := hasFDerivAt_qq_closed _ _ p hσ hs.ne' rc (qtmp * qj)
  refine (h.congr_fderiv ?_).congr_of_eventuallyEq ?_
  · have hρ := (Real.mul_self_sqrt hpos.le).symm
    ext v
    simp only [ContinuousLinearMap.smul_apply, ContinuousLinearMap.add_apply,
      ContinuousLinearMap.neg_apply, smul_eq_mul]
    rw [force_qq_dot rc qtmp qj (X p) (Y p) (Z p) _ (X' v) (Y' v) (Z' v) hs hρ]
    generalize Real.sqrt (X p * X p + Y p * Y p + Z p * Z p) = s at hs
    generalize X p * X' v + Y p * Y' v + Z p * Z' v = dv
    field_simp
    ring
  · have hc : ContinuousAt (fun y => X y * X y + Y y * Y y + Z y * Z y) p :=
      ((hX.continuousAt.mul hX.continuousAt).add (hY.continuousAt.mul hY.continuousAt)).add
        (hZ.continuousAt.mul hZ.continuousAt)
    filter_upwards [hc.eventually (lt_mem_nhds hpos)] with y hy
    exact energy_qq_closed rc qtmp qj (X y) (Y y) (Z y) _ (Real.sqrt_pos.mpr hy) hrc
      (Real.mul_self_sqrt hy.le).symm

/-! dipole-charge and charge-dipole -/

/-- Scalar calculus behind the dipole-charge and charge-dipole terms. -/
theorem hasFDerivAt_dq_closed (σ π : E → ℝ) (σ' π' : E →L[ℝ] ℝ) (p : E)
    (hσ : HasFDerivAt σ σ' p) (hπ : HasFDerivAt π π' p)
    (hs : σ p ≠ 0) (rc c : ℝ) :
    HasFDerivAt (fun y => c * (1 / (σ y) ^ 3) *
        (1 - 3 * (σ y) ^ 2 / rc ^ 2 + 2 * (σ y) ^ 3 / rc ^ 3) * π y)
      ((c * (-3 / (σ p) ^ 4) * (1 - 3 * (σ p) ^ 2 / rc ^ 2 + 2 * (σ p) ^ 3 / rc ^ 3) * π p +
        c * (1 / (σ p) ^ 3) * (-6 * σ p / rc ^ 2 + 6 * (σ p) ^ 2 / rc ^ 3) * π p) • σ' +
       (c * (1 / (σ p) ^ 3) * (1 - 3 * (σ p) ^ 2 / rc ^ 2 + 2 * (σ p) ^ 3 / rc ^ 3)) • π') p := by
  have hq : HasDerivAt (fun s : ℝ => 1 - 3 * s ^ 2 / rc ^ 2 + 2 * s ^ 3 / rc ^ 3)
      (-6 * σ p / rc ^ 2 + 6 * (σ p) ^ 2 / rc ^ 3) (σ p) := by
    have h := ((((hasDerivAt_pow 2 (σ p)).const_mul 3).div_const (rc ^ 2)).const_sub 1).add
      (((hasDerivAt_pow 3 (σ p)).const_mul 2).div_const (rc ^ 3))
    convert h using 1
    norm_num
    ring
  have h3 := hasDerivAt_inv_pow 3 (σ p) hs
  have h := (((h3.const_mul c).mul hq).comp_hasFDerivAt p hσ).mul hπ
  refine h.congr_fderiv ?_
  ext v
  simp only [ContinuousLinearMap.smul_apply, ContinuousLinearMap.add_apply,
    smul_eq_mul, Function.comp_apply]
  field_simp
  ring

/-- The dipole-charge energy term at distance `s`, free of square roots. -/
theorem energy_dc_closed (rc qj : ℝ) (mui : ℕ → ℝ) (x y z s : ℝ)
    (hs : 0 < s) (hrc : 0 < rc) (hρ : x * x + y * y + z * z = s * s) :
    energy_dipole_charge Real.sqrt (rc * rc) qj mui x y z =
      -qj * (1 / s ^ 3) * (1 - 3 * s ^ 2 / rc ^ 2 + 2 * s ^ 3 / rc ^ 3) *
        (mui 0 * x + mui 1 * y + mui 2 * z) := by
  simp only [energy_dipole_charge, pqfac, hρ, sqrt_inv_sq s hs, sqrt_sq_self s hs,
    sqrt_inv_sq rc hrc]
  generalize mui 0 * x + mui 1 * y + mui 2 * z = pidotr
  field_simp
  ring

/-- The charge-dipole energy term at distance `s`, free of square roots. -/
theorem energy_cd_closed (rc qtmp : ℝ) (muj : ℕ → ℝ) (x y z s : ℝ)
    (hs : 0 < s) (hrc : 0 < rc) (hρ : x * x + y * y + z * z = s * s) :
    energy_charge_dipole Real.sqrt (rc * rc) qtmp muj x y z =
      qtmp * (1 / s ^ 3) * (1 - 3 * s ^ 2 / rc ^ 2 + 2 * s ^ 3 / rc ^ 3) *
        (muj 0 * x + muj 1 * y + muj 2 * z) := by
  simp only [energy_charge_dipole, qpfac, hρ, sqrt_inv_sq s hs, sqrt_sq_self s hs,
    sqrt_inv_sq rc hrc]
  generalize muj 0 * x + muj 1 * y + muj 2 * z = pjdotr
  field_simp
  ring

/-- The dipole-charge block force paired with a vector `(a,b,c)`, at distance `s`. -/
theorem force_dc_dot (rc qj : ℝ) (mui : ℕ → ℝ) (x y z s a b c : ℝ)
    (hs : 0 < s) (hrc : 0 < rc) (hρ : x * x + y * y + z * z = s * s) :
    (dipole_charge Real.sqrt (rc * rc) qj mui x y z).forcecoulx * a +
      (dipole_charge Real.sqrt (rc * rc) qj mui x y z).forcecouly * b +
      (dipole_charge Real.sqrt (rc * rc) qj mui x y z).forcecoulz * c =
    qj * (1 / s ^ 3) * (1 - 3 * s ^ 2 / rc ^ 2 + 2 * s ^ 3 / rc ^ 3) *
        (mui 0 * a + mui 1 * b + mui 2 * c) -
      3 * qj * (1 / s ^ 5) * (mui 0 * x + mui 1 * y + mui 2 * z) * (1 - s ^ 2 / rc ^ 2) *
        (x * a + y * b + z * c) := by
  simp only [dipole_charge, pqfac, hρ, sqrt_inv_sq s hs, sqrt_sq_self s hs,
    sqrt_inv_sq rc hrc]
  generalize mui 0 * x + mui 1 * y + mui 2 * z = pidotr
  ring

/-- The charge-dipole block force paired with a vector `(a,b,c)`, at distance `s`. -/
theorem force_cd_dot (rc qtmp : ℝ) (muj : ℕ → ℝ) (x y z s a b c : ℝ)
    (hs : 0 < s) (hrc : 0 < rc) (hρ : x * x + y * y + z * z = s * s) :
    (charge_dipole Real.sqrt (rc * rc) qtmp muj x y z).forcecoulx * a +
      (charge_dipole Real.sqrt (rc * rc) qtmp muj x y z).forcecouly * b +
      (charge_dipole Real.sqrt (rc * rc) qtmp muj x y z).forcecoulz * c =
    3 * qtmp * (1 / s ^ 5) * (muj 0 * x + muj 1 * y + muj 2 * z) * (1 - s ^ 2 / rc ^ 2) *
        (x * a + y * b + z * c) -
      qtmp * (1 / s ^ 3) * (1 - 3 * s ^ 2 / rc ^ 2 + 2 * s ^ 3 / rc ^ 3) *
        (muj 0 * a + muj 1 * b + muj 2 * c) := by
  simp only [charge_dipole, qpfac, hρ, sqrt_inv_sq s hs, sqrt_sq_self s hs,
    sqrt_inv_sq rc hrc]
  generalize muj 0 * x + muj 1 * y + muj 2 * z = pjdotr
  ring

/-- The dipole-charge block force is minus the gradient of the dipole-charge energy term. -/
theorem hasFDerivAt_energy_dc (X Y Z : E → ℝ) (X' Y' Z' : E →L[ℝ] ℝ) (p : E)
    (hX : HasFDerivAt X X' p) (hY : HasFDerivAt Y Y' p) (hZ : HasFDerivAt Z Z' p)
    (hpos : 0 < X p * X p + Y p * Y p + Z p * Z p) (rc : ℝ) (hrc : 0 < rc)
    (qj : ℝ) (mui : ℕ → ℝ) :
    HasFDerivAt (fun y => energy_dipole_charge Real.sqrt (rc * rc) qj mui (X y) (Y y) (Z y))
      (-((dipole_charge Real.sqrt (rc * rc) qj mui (X p) (Y p) (Z p)).forcecoulx • X' +
         (dipole_charge Real.sqrt (rc * rc) qj mui (X p) (Y p) (Z p)).forcecouly • Y' +
         (dipole_charge Real.sqrt (rc * rc) qj mui (X p) (Y p) (Z p)).forcecoulz • Z')) p := by
  have hσ := hasFDerivAt_dist X Y Z X' Y' Z' p hX hY hZ hpos
  have hpi : HasFDerivAt (fun y => mui 0 * X y + mui 1 * Y y + mui 2 * Z y)
      (mui 0 • X' + mui 1 • Y' + mui 2 • Z') p :=
    ((hX.const_mul (mui 0)).add (hY.const_mul (mui 1))).add (hZ.const_mul (mui 2))
  have hs : 0 < Real.sqrt (X p * X p + Y p * Y p + Z p * Z p) := Real.sqrt_pos.mpr hpos
  have h := hasFDerivAt_dq_closed _ _ _ _ p hσ hpi hs.ne' rc (-qj)
  refine (h.congr_fderiv ?_).congr_of_eventuallyEq ?_
  · have hρ := (Real.mul_self_sqrt hpos.le).symm
    ext v
    simp only [ContinuousLinearMap.smul_apply, ContinuousLinearMap.add_apply,
      ContinuousLinearMap.neg_apply, smul_eq_mul]
    rw [force_dc_dot rc qj mui (X p) (Y p) (Z p) _ (X' v) (Y' v) (Z' v) hs hrc hρ]
    generalize Real.sqrt (X p * X p + Y p * Y p + Z p * Z p) = s at hs
    generalize mui 0 * X p + mui 1 * Y p + mui 2 * Z p = pidotr
    generalize X p * X' v + Y p * Y' v + Z p * Z' v = dv
    generalize mui 0 * X' v + mui 1 * Y' v + mui 2 * Z' v = mv
    field_simp
    ring
  · have hc : ContinuousAt (fun y => X y * X y + Y y * Y y + Z y * Z y) p :=
      ((hX.continuousAt.mul hX.continuousAt).add (hY.continuousAt.mul hY.continuousAt)).add
        (hZ.continuousAt.mul hZ.continuousAt)
    filter_upwards [hc.eventually (lt_mem_nhds hpos)] with y hy
    exact energy_dc_closed rc qj mui (X y) (Y y) (Z y) _ (Real.sqrt_pos.mpr hy) hrc
      (Real.mul_self_sqrt hy.le).symm

/-- The charge-dipole block force is minus the gradient of the charge-dipole energy term. -/
theorem hasFDerivAt_energy_cd (X Y Z : E → ℝ) (X' Y' Z' : E →L[ℝ] ℝ) (p : E)
    (hX : HasFDerivAt X X' p) (hY : HasFDerivAt Y Y' p) (hZ : HasFDerivAt Z Z' p)
    (hpos : 0 < X p * X p + Y p * Y p + Z p * Z p) (rc : ℝ) (hrc : 0 < rc)
    (qtmp : ℝ) (muj : ℕ → ℝ) :
    HasFDerivAt (fun y => energy_charge_dipole Real.sqrt (rc * rc) qtmp muj (X y) (Y y) (Z y))
      (-((charge_dipole Real.sqrt (rc * rc) qtmp muj (X p) (Y p) (Z p)).forcecoulx • X' +
         (charge_dipole Real.sqrt (rc * rc) qtmp muj (X p) (Y p) (Z p)).forcecouly • Y' +
         (charge_dipole Real.sqrt (rc * rc) qtmp muj (X p) (Y p) (Z p)).forcecoulz • Z')) p := by
  have hσ := hasFDerivAt_dist X Y Z X' Y' Z' p hX hY hZ hpos
  have hpj : HasFDerivAt (fun y => muj 0 * X y + muj 1 * Y y + muj 2 * Z y)
      (muj 0 • X' + muj 1 • Y' + muj 2 • Z') p :=
    ((hX.const_mul (muj 0)).add (hY.const_mul (muj 1))).add (hZ.const_mul (muj 2))
  have hs : 0 < Real.sqrt (X p * X p + Y p * Y p + Z p * Z p) := Real.sqrt_pos.mpr hpos
  have h := hasFDerivAt_dq_closed _ _ _ _ p hσ hpj hs.ne' rc qtmp
  refine (h.congr_fderiv ?_).congr_of_eventuallyEq ?_
  · have hρ := (Real.mul_self_sqrt hpos.le).symm
    ext v
    simp only [ContinuousLinearMap.smul_apply, ContinuousLinearMap.add_apply,
      ContinuousLinearMap.neg_apply, smul_eq_mul]
    rw [force_cd_dot rc qtmp muj (X p) (Y p) (Z p) _ (X' v) (Y' v) (Z' v) hs hrc hρ]
    generalize Real.sqrt (X p * X p + Y p * Y p + Z p * Z p) = s at hs
    generalize muj 0 * X p + muj 1 * Y p + muj 2 * Z p = pjdotr
    generalize X p * X' v + Y p * Y' v + Z p * Z' v = dv
    generalize muj 0 * X' v + muj 1 * Y' v + muj 2 * Z' v = nv
    field_simp
    ring
  · have hc : ContinuousAt (fun y => X y * X y + Y y * Y y + Z y * Z y) p :=
      ((hX.continuousAt.mul hX.continuousAt).add (hY.continuousAt.mul hY.continuousAt)).add
        (hZ.continuousAt.mul hZ.continuousAt)
    filter_upwards [hc.eventually (lt_mem_nhds hpos)] with y hy
    exact energy_cd_closed rc qtmp muj (X y) (Y y) (Z y) _ (Real.sqrt_pos.mpr hy) hrc
      (Real.mul_self_sqrt hy.le).symm

/-- A term that a guard constant in the position switches on or off. -/
theorem hasFDerivAt_ite_zero (g : Prop) [Decidable g] (f : E → ℝ) (f' : E →L[ℝ] ℝ) (p : E)
    (h : HasFDerivAt f f' p) :
    HasFDerivAt (fun y => if g then f y else 0) (if g then f' else 0) p := by
  split_ifs
  · exact h
  · exact hasFDerivAt_const 0 p

/-- The energy `ecoul` under an open Coulomb gate as a sum of guarded terms. -/
theorem ecoul_eq_sum (sqrt : ℝ → ℝ) (c qtmp qj : ℝ) (mui muj : ℕ → ℝ) (x y z fc qq : ℝ)
    (hlt : x * x + y * y + z * z < c) :
    ecoul sqrt c qtmp qj mui muj x y z fc qq =
      (energy_charge_charge sqrt c qtmp qj x y z +
        (if mui 3 > 0 ∧ muj 3 > 0 then energy_dipole_dipole sqrt c mui muj x y z else 0) +
        (if mui 3 > 0 ∧ qj ≠ 0 then energy_dipole_charge sqrt c qj mui x y z else 0) +
        (if muj 3 > 0 ∧ qtmp ≠ 0 then energy_charge_dipole sqrt c qtmp muj x y z else 0)) *
      (fc * qq) := by
  simp only [ecoul, if_pos hlt]
  split_ifs <;> simp

/-- The force accumulated by `coulomb` under an open gate, paired with a vector. -/
theorem coulomb_force_dot (sqrt : ℝ → ℝ) (c qtmp qj : ℝ) (mui muj : ℕ → ℝ) (x y z a b d : ℝ)
    (hlt : x * x + y * y + z * z < c) :
    (coulomb sqrt c qtmp qj mui muj x y z).forcecoulx * a +
      (coulomb sqrt c qtmp qj mui muj x y z).forcecouly * b +
      (coulomb sqrt c qtmp qj mui muj x y z).forcecoulz * d =
    ((charge_charge sqrt c qtmp qj x y z).forcecoulx * a +
      (charge_charge sqrt c qtmp qj x y z).forcecouly * b +
      (charge_charge sqrt c qtmp qj x y z).forcecoulz * d) +
    (if mui 3 > 0 ∧ muj 3 > 0 then
      (dipole_dipole sqrt c mui muj x y z).forcecoulx * a +
      (dipole_dipole sqrt c mui muj x y z).forcecouly * b +
      (dipole_dipole sqrt c mui muj x y z).forcecoulz * d else 0) +
    (if mui 3 > 0 ∧ qj ≠ 0 then
      (dipole_charge sqrt c qj mui x y z).forcecoulx * a +
      (dipole_charge sqrt c qj mui x y z).forcecouly * b +
      (dipole_charge sqrt c qj mui x y z).forcecoulz * d else 0) +
    (if muj 3 > 0 ∧ qtmp ≠ 0 then
      (charge_dipole sqrt c qtmp muj x y z).forcecoulx * a +
      (charge_dipole sqrt c qtmp muj x y z).forcecouly * b +
      (charge_dipole sqrt c qtmp muj x y z).forcecoulz * d else 0) := by
  have hqq : ¬ (qtmp ≠ 0 ∧ qj ≠ 0) →
      (charge_charge sqrt c qtmp qj x y z).forcecoulx = 0 ∧
      (charge_charge sqrt c qtmp qj x y z).forcecouly = 0 ∧
      (charge_charge sqrt c qtmp qj x y z).forcecoulz = 0 := by
    intro h
    have h0 : qtmp * qj = 0 := by
      by_contra hne
      exact h ⟨left_ne_zero_of_mul hne, right_ne_zero_of_mul hne⟩
    simp [charge_charge, h0]
  simp only [coulomb, if_pos hlt]
  by_cases g0 : qtmp ≠ 0 ∧ qj ≠ 0
  · simp only [if_pos g0]
    split_ifs <;> simp only [CoulTerm.add, CoulTerm.zero] <;> ring
  · obtain ⟨h1, h2, h3⟩ := hqq g0
    simp only [if_neg g0, h1, h2, h3]
    split_ifs <;> simp only [CoulTerm.add, CoulTerm.zero] <;> ring

/-- Force-energy consistency of the whole Coulomb family along a differentiable
family of separation vectors. -/
theorem hasFDerivAt_ecoul (X Y Z : E → ℝ) (X' Y' Z' : E →L[ℝ] ℝ) (p : E)
    (hX : HasFDerivAt X X' p) (hY : HasFDerivAt Y Y' p) (hZ : HasFDerivAt Z Z' p)
    (hpos : 0 < X p * X p + Y p * Y p + Z p * Z p) (rc : ℝ) (hrc : 0 < rc)
    (hlt : X p * X p + Y p * Y p + Z p * Z p < rc * rc)
    (qtmp qj : ℝ) (mui muj : ℕ → ℝ) (fc qq : ℝ) :
    HasFDerivAt (fun y => ecoul Real.sqrt (rc * rc) qtmp qj mui muj (X y) (Y y) (Z y) fc qq)
      (-(fc * qq) •
        ((coulomb Real.sqrt (rc * rc) qtmp qj mui muj (X p) (Y p) (Z p)).forcecoulx • X' +
         (coulomb Real.sqrt (rc * rc) qtmp qj mui muj (X p) (Y p) (Z p)).forcecouly • Y' +
         (coulomb Real.sqrt (rc * rc) qtmp qj mui muj (X p) (Y p) (Z p)).forcecoulz • Z')) p := by
  have h1 := hasFDerivAt_energy_qq X Y Z X' Y' Z' p hX hY hZ hpos rc hrc qtmp qj
  have h2 := hasFDerivAt_ite_zero (mui 3 > 0 ∧ muj 3 > 0) _ _ p
    (hasFDerivAt_energy_dd X Y Z X' Y' Z' p hX hY hZ hpos rc hrc mui muj)
  have h3 := hasFDerivAt_ite_zero (mui 3 > 0 ∧ qj ≠ 0) _ _ p
    (hasFDerivAt_energy_dc X Y Z X' Y' Z' p hX hY hZ hpos rc hrc qj mui)
  have h4 := hasFDerivAt_ite_zero (muj 3 > 0 ∧ qtmp ≠ 0) _ _ p
    (hasFDerivAt_energy_cd X Y Z X' Y' Z' p hX hY hZ hpos rc hrc qtmp muj)
  have h := (((h1.add h2).add h3).add h4).mul_const (fc * qq)
  refine (h.congr_fderiv ?_).congr_of_eventuallyEq ?_
  · ext v
    simp only [ContinuousLinearMap.smul_apply, ContinuousLinearMap.add_apply,
      ContinuousLinearMap.neg_apply, smul_eq_mul]
    rw [coulomb_force_dot Real.sqrt (rc * rc) qtmp qj mui muj (X p) (Y p) (Z p)
      (X' v) (Y' v) (Z' v) hlt]
    split_ifs <;>
      simp only [ContinuousLinearMap.smul_apply, ContinuousLinearMap.add_apply,
        ContinuousLinearMap.neg_apply, ContinuousLinearMap.zero_apply, smul_eq_mul] <;>
      ring
  · have hc : ContinuousAt (fun y => X y * X y + Y y * Y y + Z y * Z y) p :=
      ((hX.continuousAt.mul hX.continuousAt).add (hY.continuousAt.mul hY.continuousAt)).add
        (hZ.continuousAt.mul hZ.continuousAt)
    filter_upwards [hc.eventually (gt_mem_nhds hlt)] with y hy
    exact ecoul_eq_sum Real.sqrt (rc * rc) qtmp qj mui muj (X y) (Y y) (Z y) fc qq hy

/-- The LJ energy as a function of `rsq`: its slope is minus half of `forcelj`. -/
theorem hasDerivAt_evdwl (lj3 lj4 c fl ρ : ℝ) (hρ : ρ ≠ 0) (hlt : ρ < c) :
    HasDerivAt (fun t => evdwl lj3 lj4 c fl t)
      (-(1 / 2) * forcelj (12 * lj3) (6 * lj4) c fl ρ) ρ := by
  have hu : HasDerivAt (fun t : ℝ => 1 / t) (-1 / ρ ^ 2) ρ := by
    simpa [one_div, neg_div] using hasDerivAt_inv hρ
  have h6 := (hu.mul hu).mul hu
  have h := (((h6.mul ((h6.const_mul lj3).sub_const lj4)).add
    ((((hasDerivAt_id ρ).const_mul
      (1 / c * (1 / c) * (1 / c) * (6 * lj3 * (1 / c * (1 / c) * (1 / c)) - 3 * lj4))).mul_const
      (1 / c)))).add_const
      (1 / c * (1 / c) * (1 / c) * (-7 * lj3 * (1 / c * (1 / c) * (1 / c)) + 4 * lj4))).mul_const fl
  have hev : (fun t => evdwl lj3 lj4 c fl t) =ᶠ[nhds ρ] fun t =>
      ((1 / t * (1 / t) * (1 / t)) * (lj3 * (1 / t * (1 / t) * (1 / t)) - lj4) +
        1 / c * (1 / c) * (1 / c) * (6 * lj3 * (1 / c * (1 / c) * (1 / c)) - 3 * lj4) * t *
          (1 / c) +
        1 / c * (1 / c) * (1 / c) * (-7 * lj3 * (1 / c * (1 / c) * (1 / c)) + 4 * lj4)) * fl := by
    filter_upwards [gt_mem_nhds hlt] with t ht
    simp only [evdwl, if_pos ht]
  refine HasDerivAt.congr_of_eventuallyEq ?_ hev
  convert h using 1
  simp only [forcelj, if_pos hlt, lj_shifted, id]
  field_simp
  ring

/-- The LJ force `del * forcelj` is minus the gradient of `evdwl` when `lj1 = 12*lj3` and `lj2 = 6*lj4`. -/
theorem hasFDerivAt_evdwl (X Y Z : E → ℝ) (X' Y' Z' : E →L[ℝ] ℝ) (p : E)
    (hX : HasFDerivAt X X' p) (hY : HasFDerivAt Y Y' p) (hZ : HasFDerivAt Z Z' p)
    (hpos : 0 < X p * X p + Y p * Y p + Z p * Z p) (lj3 lj4 c fl : ℝ)
    (hlt : X p * X p + Y p * Y p + Z p * Z p < c) :
    HasFDerivAt (fun y => evdwl lj3 lj4 c fl (X y * X y + Y y * Y y + Z y * Z y))
      (-(forcelj (12 * lj3) (6 * lj4) c fl (X p * X p + Y p * Y p + Z p * Z p)) •
        (X p • X' + Y p • Y' + Z p • Z')) p := by
  have hρ := ((hX.mul hX).add (hY.mul hY)).add (hZ.mul hZ)
  have h := (hasDerivAt_evdwl lj3 lj4 c fl _ hpos.ne' hlt).comp_hasFDerivAt p hρ
  refine h.congr_fderiv ?_
  ext v
  simp only [ContinuousLinearMap.smul_apply, ContinuousLinearMap.add_apply, smul_eq_mul]
  ring

/-- The ray `s ↦ s * u` in one coordinate. -/
theorem hasFDerivAt_ray (u r : ℝ) :
    HasFDerivAt (fun s : ℝ => s * u) (u • ContinuousLinearMap.id ℝ ℝ) r := by
  have h : HasFDerivAt (fun s : ℝ => s) (ContinuousLinearMap.id ℝ ℝ) r := hasFDerivAt_id r
  exact h.mul_const u

/-- On a ray along a unit vector `rsq = r²`. -/
theorem ray_rsq (ux uy uz r : ℝ) (hu : ux * ux + uy * uy + uz * uz = 1) :
    r * ux * (r * ux) + r * uy * (r * uy) + r * uz * (r * uz) = r * r := by
  have : r * ux * (r * ux) + r * uy * (r * uy) + r * uz * (r * uz) =
      r * r * (ux * ux + uy * uy + uz * uz) := by ring
  rw [this, hu, mul_one]

/-- After `init_one(i,j)`: `lj1 = 12*lj3`, `lj2 = 6*lj4` and `cut_ljsq = cut_lj²` at `[i][j]`. -/
theorem init_one_lj (sqrt : ℝ → ℝ) (P : Pair ℝ) (i j : ℕ) :
    (init_one sqrt P i j).2.lj1 i j = 12 * (init_one sqrt P i j).2.lj3 i j ∧
    (init_one sqrt P i j).2.lj2 i j = 6 * (init_one sqrt P i j).2.lj4 i j ∧
    (init_one sqrt P i j).2.cut_ljsq i j =
      (init_one sqrt P i j).2.cut_lj i j * (init_one sqrt P i j).2.cut_lj i j := by
  refine ⟨?_, ?_, ?_⟩
  · simp [init_one, set2]; ring
  · simp [init_one, set2]; ring
  · simp [init_one, set2]

/-- The three coordinates of a separation vector in `ℝ × ℝ × ℝ`. -/
theorem hasFDerivAt_coord (d : ℝ × ℝ × ℝ) :
    HasFDerivAt (fun y : ℝ × ℝ × ℝ => y.1) (ContinuousLinearMap.fst ℝ ℝ (ℝ × ℝ)) d ∧
    HasFDerivAt (fun y : ℝ × ℝ × ℝ => y.2.1)
      ((ContinuousLinearMap.fst ℝ ℝ ℝ).comp (ContinuousLinearMap.snd ℝ ℝ (ℝ × ℝ))) d ∧
    HasFDerivAt (fun y : ℝ × ℝ × ℝ => y.2.2)
      ((ContinuousLinearMap.snd ℝ ℝ ℝ).comp (ContinuousLinearMap.snd ℝ ℝ (ℝ × ℝ))) d :=
  ⟨hasFDerivAt_fst, hasFDerivAt_snd.fst, hasFDerivAt_snd.snd⟩

/-- The factor `afac` vanishes at `rsq = rc²`. -/
theorem afac_cut (rc : ℝ) (hrc : 0 < rc) : afac (rc * rc) (1 / (rc * rc)) = 0 := by
  have h : rc ≠ 0 := hrc.ne'
  unfold afac
  field_simp

/-- The factor `bfac` vanishes at `rsq = rc²`. -/
theorem bfac_cut (rc : ℝ) (hrc : 0 < rc) : bfac Real.sqrt (rc * rc) (1 / (rc * rc)) = 0 := by
  have h : rc ≠ 0 := hrc.ne'
  simp only [bfac, sqrt_inv_sq rc hrc, sqrt_sq_self rc hrc]
  field_simp
  ring

/-- The factor `pqfac` vanishes at `rsq = rc²`. -/
theorem pqfac_cut (rc : ℝ) (hrc : 0 < rc) : pqfac Real.sqrt (rc * rc) (1 / (rc * rc)) = 0 := by
  have h : rc ≠ 0 := hrc.ne'
  simp only [pqfac, sqrt_inv_sq rc hrc, sqrt_sq_self rc hrc]
  field_simp
  ring

/-- The factor `qpfac` vanishes at `rsq = rc²`. -/
theorem qpfac_cut (rc : ℝ) (hrc : 0 < rc) : qpfac Real.sqrt (rc * rc) (1 / (rc * rc)) = 0 := by
  have h : rc ≠ 0 := hrc.ne'
  simp only [qpfac, sqrt_inv_sq rc hrc, sqrt_sq_self rc hrc]
  field_simp
  ring

/-- The shifted LJ force factor vanishes at `rsq = cut_ljsq`. -/
theorem lj_shifted_cut (lj1 lj2 c : ℝ) : lj_shifted lj1 lj2 c c = 0 := by
  unfold lj_shifted
  ring

/-- A force whose pairing with every vector tends to 0 tends to the zero vector. -/
theorem tendsto_force_of_dot (F : ℝ → CoulTerm ℝ) (l : Filter ℝ)
    (h : ∀ a b c : ℝ, Tendsto (fun r => (F r).forcecoulx * a + (F r).forcecouly * b +
      (F r).forcecoulz * c) l (𝓝 0)) :
    Tendsto (fun r => ((F r).forcecoulx, (F r).forcecouly, (F r).forcecoulz)) l
      (𝓝 (0, 0, 0)) := by
  have hx := h 1 0 0
  have hy := h 0 1 0
  have hz := h 0 0 1
  simp only [mul_one, mul_zero, add_zero, zero_add] at hx hy hz
  exact hx.prod_mk_nhds (hy.prod_mk_nhds hz)

/-- A function that agrees on `r > 0` with one continuous at `rc` and zero there tends to 0 from the left. -/
theorem tendsto_left_of_closed (f g : ℝ → ℝ) (rc : ℝ) (hrc : 0 < rc)
    (hfg : ∀ r, 0 < r → f r = g r) (hg : ContinuousAt g rc) (h0 : g rc = 0) :
    Tendsto f (𝓝[<] rc) (𝓝 0) := by
  have hcl : ∀ᶠ r in 𝓝[<] rc, g r = f r := by
    filter_upwards [eventually_nhdsWithin_of_eventually_nhds (lt_mem_nhds hrc)] with r hr
    exact (hfg r hr).symm
  have h := hg.tendsto.mono_left (nhdsWithin_le_nhds (s := Set.Iio rc))
  rw [h0] at h
  exact h.congr' hcl

/-- Along a ray the charge-charge force tends to zero at the cutoff. -/
theorem tendsto_qq (rc qi qj ux uy uz : ℝ) (hrc : 0 < rc)
    (hu : ux * ux + uy * uy + uz * uz = 1) :
    Tendsto (fun r => ((charge_charge Real.sqrt (rc * rc) qi qj (r * ux) (r * uy) (r * uz)).forcecoulx,
      (charge_charge Real.sqrt (rc * rc) qi qj (r * ux) (r * uy) (r * uz)).forcecouly,
      (charge_charge Real.sqrt (rc * rc) qi qj (r * ux) (r * uy) (r * uz)).forcecoulz))
      (𝓝[<] rc) (𝓝 (0, 0, 0)) := by
  apply tendsto_force_of_dot
    (fun r => charge_charge Real.sqrt (rc * rc) qi qj (r * ux) (r * uy) (r * uz))
  intro a b c
  have h : rc ≠ 0 := hrc.ne'
  have h2 : rc * rc ≠ 0 := mul_ne_zero h h
  refine tendsto_left_of_closed _ _ rc hrc
    (fun r hr => force_qq_dot rc qi qj _ _ _ r a b c hr (ray_rsq ux uy uz r hu)) ?_ ?_
  · fun_prop (disch := assumption)
  · simp

/-- Along a ray the dipole-dipole force tends to zero at the cutoff. -/
theorem tendsto_dd (rc : ℝ) (mui muj : ℕ → ℝ) (ux uy uz : ℝ) (hrc : 0 < rc)
    (hu : ux * ux + uy * uy + uz * uz = 1) :
    Tendsto (fun r => ((dipole_dipole Real.sqrt (rc * rc) mui muj (r * ux) (r * uy) (r * uz)).forcecoulx,
      (dipole_dipole Real.sqrt (rc * rc) mui muj (r * ux) (r * uy) (r * uz)).forcecouly,
      (dipole_dipole Real.sqrt (rc * rc) mui muj (r * ux) (r * uy) (r * uz)).forcecoulz))
      (𝓝[<] rc) (𝓝 (0, 0, 0)) := by
  apply tendsto_force_of_dot
    (fun r => dipole_dipole Real.sqrt (rc * rc) mui muj (r * ux) (r * uy) (r * uz))
  intro a b c
  have h : rc ≠ 0 := hrc.ne'
  have h2 : rc ^ 2 ≠ 0 := pow_ne_zero 2 h
  have h3 : rc ^ 3 ≠ 0 := pow_ne_zero 3 h
  have h4 : rc ^ 4 ≠ 0 := pow_ne_zero 4 h
  have h5 : rc ^ 5 ≠ 0 := pow_ne_zero 5 h
  refine tendsto_left_of_closed _ _ rc hrc
    (fun r hr => force_dd_dot rc mui muj _ _ _ r a b c hr hrc (ray_rsq ux uy uz r hu)) ?_ ?_
  · fun_prop (disch := assumption)
  · have e4 : rc ^ 4 / rc ^ 4 = 1 := div_self h4
    have e3 : 4 * rc ^ 3 / rc ^ 3 = 4 := by field_simp
    have e5 : 3 * rc ^ 4 / rc ^ 4 = 3 := by field_simp
    simp only [e4, e3, e5]
    ring

/-- Along a ray the dipole-charge force tends to zero at the cutoff. -/
theorem tendsto_dc (rc q : ℝ) (mui : ℕ → ℝ) (ux uy uz : ℝ) (hrc : 0 < rc)
    (hu : ux * ux + uy * uy + uz * uz = 1) :
    Tendsto (fun r => ((dipole_charge Real.sqrt (rc * rc) q mui (r * ux) (r * uy) (r * uz)).forcecoulx,
      (dipole_charge Real.sqrt (rc * rc) q mui (r * ux) (r * uy) (r * uz)).forcecouly,
      (dipole_charge Real.sqrt (rc * rc) q mui (r * ux) (r * uy) (r * uz)).forcecoulz))
      (𝓝[<] rc) (𝓝 (0, 0, 0)) := by
  apply tendsto_force_of_dot
    (fun r => dipole_charge Real.sqrt (rc * rc) q mui (r * ux) (r * uy) (r * uz))
  intro a b c
  have h : rc ≠ 0 := hrc.ne'
  have h2 : rc ^ 2 ≠ 0 := pow_ne_zero 2 h
  have h3 : rc ^ 3 ≠ 0 := pow_ne_zero 3 h
  have h5 : rc ^ 5 ≠ 0 := pow_ne_zero 5 h
  refine tendsto_left_of_closed _ _ rc hrc
    (fun r hr => force_dc_dot rc q mui _ _ _ r a b c hr hrc (ray_rsq ux uy uz r hu)) ?_ ?_
  · fun_prop (disch := assumption)
  · have e2 : rc ^ 2 / rc ^ 2 = 1 := div_self h2
    have e3 : 3 * rc ^ 2 / rc ^ 2 = 3 := by field_simp
    have e5 : 2 * rc ^ 3 / rc ^ 3 = 2 := by field_simp
    simp only [e2, e3, e5]
    ring

/-- Along a ray the charge-dipole force tends to zero at the cutoff. -/
theorem tendsto_cd (rc q : ℝ) (muj : ℕ → ℝ) (ux uy uz : ℝ) (hrc : 0 < rc)
    (hu : ux * ux + uy * uy + uz * uz = 1) :
    Tendsto (fun r => ((charge_dipole Real.sqrt (rc * rc) q muj (r * ux) (r * uy) (r * uz)).forcecoulx,
      (charge_dipole Real.sqrt (rc * rc) q muj (r * ux) (r * uy) (r * uz)).forcecouly,
      (charge_dipole Real.sqrt (rc * rc) q muj (r * ux) (r * uy) (r * uz)).forcecoulz))
      (𝓝[<] rc) (𝓝 (0, 0, 0)) := by
  apply tendsto_force_of_dot
    (fun r => charge_dipole Real.sqrt (rc * rc) q muj (r * ux) (r * uy) (r * uz))
  intro a b c
  have h : rc ≠ 0 := hrc.ne'
  have h2 : rc ^ 2 ≠ 0 := pow_ne_zero 2 h
  have h3 : rc ^ 3 ≠ 0 := pow_ne_zero 3 h
  have h5 : rc ^ 5 ≠ 0 := pow_ne_zero 5 h
  refine tendsto_left_of_closed _ _ rc hrc
    (fun r hr => force_cd_dot rc q muj _ _ _ r a b c hr hrc (ray_rsq ux uy uz r hu)) ?_ ?_
  · fun_prop (disch := assumption)
  · have e2 : rc ^ 2 / rc ^ 2 = 1 := div_self h2
    have e3 : 3 * rc ^ 2 / rc ^ 2 = 3 := by field_simp
    have e5 : 2 * rc ^ 3 / rc ^ 3 = 2 := by field_simp
    simp only [e2, e3, e5]
    ring

/-- Along a ray the ungated LJ force tends to zero at the LJ cutoff. -/
theorem tendsto_lj (lj1 lj2 fl rl ux uy uz : ℝ) (hrl : 0 < rl)
    (hu : ux * ux + uy * uy + uz * uz = 1) :
    Tendsto (fun r =>
      (r * ux * (fl * lj_shifted lj1 lj2 (rl * rl)
          (r * ux * (r * ux) + r * uy * (r * uy) + r * uz * (r * uz))),
       r * uy * (fl * lj_shifted lj1 lj2 (rl * rl)
          (r * ux * (r * ux) + r * uy * (r * uy) + r * uz * (r * uz))),
       r * uz * (fl * lj_shifted lj1 lj2 (rl * rl)
          (r * ux * (r * ux) + r * uy * (r * uy) + r * uz * (r * uz)))))
      (𝓝[<] rl) (𝓝 (0, 0, 0)) := by
  have h : rl ≠ 0 := hrl.ne'
  have h2 : rl * rl ≠ 0 := mul_ne_zero h h
  have hc : ContinuousAt (fun r : ℝ => lj_shifted lj1 lj2 (rl * rl) (r * r)) rl := by
    unfold lj_shifted
    fun_prop (disch := assumption)
  have hc0 : Tendsto (fun r : ℝ => lj_shifted lj1 lj2 (rl * rl) (r * r)) (𝓝[<] rl) (𝓝 0) := by
    have := hc.tendsto.mono_left (nhdsWithin_le_nhds (s := Set.Iio rl))
    rwa [lj_shifted_cut] at this
  have hid : Tendsto (fun r : ℝ => r) (𝓝[<] rl) (𝓝 rl) :=
    tendsto_id.mono_left nhdsWithin_le_nhds
  have hcomp : ∀ u : ℝ, Tendsto (fun r : ℝ => r * u * (fl * lj_shifted lj1 lj2 (rl * rl)
      (r * ux * (r * ux) + r * uy * (r * uy) + r * uz * (r * uz)))) (𝓝[<] rl) (𝓝 0) := by
    intro u
    have := (hid.mul_const u).mul (hc0.const_mul fl)
    simp only [mul_zero] at this
    refine this.congr fun r => ?_
    rw [ray_rsq ux uy uz r hu]
  exact (hcomp ux).prod_mk_nhds ((hcomp uy).prod_mk_nhds (hcomp uz))

end Calculus

section Consistency

/-! ### Force and energy of the pair body are consistent -/

/-- C1: with the table entries `init_one(i,j)` leaves at `[i][j]` and
`factor_lj = 1`, along any ray `del = s·u` (`u` a unit vector) and at any
`0 < r < cut_lj[i][j]`, the LJ energy `evdwl` of the pair body has derivative in
`s` at `r` equal to minus `r * forcelj`, the LJ force along the separation, where
`forcelj = forceljcut - forceljsf` evaluated at `rsq = r²`. -/
theorem lj_force_energy (P : Pair ℝ) (i j : ℕ) (qtmp qj : ℝ) (mui muj : ℕ → ℝ)
    (ux uy uz : ℝ) (hu : ux * ux + uy * uy + uz * uz = 1) (factor_coul qqrd2e : ℝ)
    (eflag : ℤ) (he : eflag ≠ 0) (r : ℝ) (hr : 0 < r)
    (hlt : r < (init_one Real.sqrt P i j).2.cut_lj i j) :
    HasDerivAt
      (fun s => (pair_body Real.sqrt (init_one Real.sqrt P i j).2 i j qtmp qj mui muj
        (s * ux) (s * uy) (s * uz) 1 factor_coul qqrd2e eflag).evdwl)
      (-(r * (pair_body Real.sqrt (init_one Real.sqrt P i j).2 i j qtmp qj mui muj
        (r * ux) (r * uy) (r * uz) 1 factor_coul qqrd2e eflag).forcelj)) r ∧
    (pair_body Real.sqrt (init_one Real.sqrt P i j).2 i j qtmp qj mui muj
        (r * ux) (r * uy) (r * uz) 1 factor_coul qqrd2e eflag).forcelj =
      lj_shifted ((init_one Real.sqrt P i j).2.lj1 i j) ((init_one Real.sqrt P i j).2.lj2 i j)
        ((init_one Real.sqrt P i j).2.cut_ljsq i j) (r * r) := by
  obtain ⟨h1, h2, h3⟩ := init_one_lj Real.sqrt P i j
  have hρ := ray_rsq ux uy uz r hu
  have hgate : r * ux * (r * ux) + r * uy * (r * uy) + r * uz * (r * uz) <
      (init_one Real.sqrt P i j).2.cut_ljsq i j := by
    rw [hρ, h3]
    exact mul_self_lt_mul_self hr.le hlt
  have hpos : 0 < r * ux * (r * ux) + r * uy * (r * uy) + r * uz * (r * uz) := by
    rw [hρ]; exact mul_pos hr hr
  constructor
  · have h := (hasFDerivAt_evdwl (fun s : ℝ => s * ux) (fun s => s * uy) (fun s => s * uz)
      _ _ _ r (hasFDerivAt_ray ux r) (hasFDerivAt_ray uy r) (hasFDerivAt_ray uz r) hpos
      ((init_one Real.sqrt P i j).2.lj3 i j) ((init_one Real.sqrt P i j).2.lj4 i j)
      ((init_one Real.sqrt P i j).2.cut_ljsq i j) 1 hgate).hasDerivAt
    simp only [pair_body, if_pos he]
    convert h using 1
    simp only [ContinuousLinearMap.smul_apply, ContinuousLinearMap.add_apply,
      ContinuousLinearMap.neg_apply, ContinuousLinearMap.id_apply, smul_eq_mul, ← h1, ← h2]
    linear_combination
      ((r * forcelj ((init_one Real.sqrt P i j).2.lj1 i j)
        ((init_one Real.sqrt P i j).2.lj2 i j) ((init_one Real.sqrt P i j).2.cut_ljsq i j) 1
        (r * ux * (r * ux) + r * uy * (r * uy) + r * uz * (r * uz)))) * hu
  · have hgate2 : r * r < (init_one Real.sqrt P i j).2.cut_ljsq i j := by
      rw [← hρ]; exact hgate
    simp only [pair_body, forcelj, hρ, if_pos hgate2, one_mul]

/-- C2: with both dipole flags not positive, `cut_coulsq = rc²`, `rc > 0`, along
any ray `del = s·u` (`u` a unit vector) and at any `0 < r < rc`, the Coulomb
energy `ecoul` of the pair body has derivative in `s` at `r` equal to minus `fq`
times the Coulomb force along the separation; that force component is
`qi*qj*(1/r² - 1/rc²)` and the energy is `qi*qj/r * (1 - r/rc)²` times
`factor_coul*qqrd2e`. -/
theorem charge_charge_force_energy (P : Pair ℝ) (itype jtype : ℕ) (qi qj : ℝ)
    (mui muj : ℕ → ℝ) (hmi : mui 3 ≤ 0) (hmj : muj 3 ≤ 0)
    (rc : ℝ) (hrc : 0 < rc) (hc : P.cut_coulsq itype jtype = rc * rc)
    (ux uy uz : ℝ) (hu : ux * ux + uy * uy + uz * uz = 1)
    (factor_lj factor_coul qqrd2e : ℝ) (eflag : ℤ) (he : eflag ≠ 0)
    (r : ℝ) (hr : 0 < r) (hlt : r < rc) :
    HasDerivAt
      (fun s => (pair_body Real.sqrt P itype jtype qi qj mui muj
        (s * ux) (s * uy) (s * uz) factor_lj factor_coul qqrd2e eflag).ecoul)
      (-((pair_body Real.sqrt P itype jtype qi qj mui muj
            (r * ux) (r * uy) (r * uz) factor_lj factor_coul qqrd2e eflag).fq *
          ((pair_body Real.sqrt P itype jtype qi qj mui muj
            (r * ux) (r * uy) (r * uz) factor_lj factor_coul qqrd2e eflag).coul.forcecoulx * ux +
           (pair_body Real.sqrt P itype jtype qi qj mui muj
            (r * ux) (r * uy) (r * uz) factor_lj factor_coul qqrd2e eflag).coul.forcecouly * uy +
           (pair_body Real.sqrt P itype jtype qi qj mui muj
            (r * ux) (r * uy) (r * uz) factor_lj factor_coul qqrd2e eflag).coul.forcecoulz * uz)))
      r ∧
    (pair_body Real.sqrt P itype jtype qi qj mui muj
        (r * ux) (r * uy) (r * uz) factor_lj factor_coul qqrd2e eflag).coul.forcecoulx * ux +
      (pair_body Real.sqrt P itype jtype qi qj mui muj
        (r * ux) (r * uy) (r * uz) factor_lj factor_coul qqrd2e eflag).coul.forcecouly * uy +
      (pair_body Real.sqrt P itype jtype qi qj mui muj
        (r * ux) (r * uy) (r * uz) factor_lj factor_coul qqrd2e eflag).coul.forcecoulz * uz =
      qi * qj * (1 / r ^ 2 - 1 / rc ^ 2) ∧
    (pair_body Real.sqrt P itype jtype qi qj mui muj
        (r * ux) (r * uy) (r * uz) factor_lj factor_coul qqrd2e eflag).ecoul =
      qi * qj / r * (1 - r / rc) ^ 2 * (factor_coul * qqrd2e) := by
  have hρ := ray_rsq ux uy uz r hu
  have hpos : 0 < r * ux * (r * ux) + r * uy * (r * uy) + r * uz * (r * uz) := by
    rw [hρ]; exact mul_pos hr hr
  have hgate : r * ux * (r * ux) + r * uy * (r * uy) + r * uz * (r * uz) < rc * rc := by
    rw [hρ]; exact mul_self_lt_mul_self hr.le hlt
  have hni : ¬ (mui 3 > 0) := not_lt.mpr hmi
  have hnj : ¬ (muj 3 > 0) := not_lt.mpr hmj
  refine ⟨?_, ?_, ?_⟩
  · have h := (hasFDerivAt_ecoul (fun s : ℝ => s * ux) (fun s => s * uy) (fun s => s * uz)
      _ _ _ r (hasFDerivAt_ray ux r) (hasFDerivAt_ray uy r) (hasFDerivAt_ray uz r) hpos
      rc hrc hgate qi qj mui muj factor_coul qqrd2e).hasDerivAt
    simp only [pair_body, if_pos he, hc]
    convert h using 1
    simp only [ContinuousLinearMap.smul_apply, ContinuousLinearMap.add_apply,
      ContinuousLinearMap.neg_apply, ContinuousLinearMap.id_apply, smul_eq_mul]
    ring
  · simp only [pair_body, hc]
    rw [coulomb_force_dot Real.sqrt (rc * rc) qi qj mui muj _ _ _ ux uy uz hgate,
      force_qq_dot rc qi qj _ _ _ r ux uy uz hr hρ]
    simp only [hni, hnj, false_and, if_false, add_zero]
    have hr0 : r ≠ 0 := hr.ne'
    have hrc0 : rc ≠ 0 := hrc.ne'
    have hd : r * ux * ux + r * uy * uy + r * uz * uz = r := by
      linear_combination r * hu
    rw [hd]
    field_simp
    ring
  · simp only [pair_body, if_pos he, hc]
    rw [ecoul_eq_sum Real.sqrt (rc * rc) qi qj mui muj _ _ _ factor_coul qqrd2e hgate,
      energy_qq_closed rc qi qj _ _ _ r hr hrc hρ]
    simp only [hni, hnj, false_and, if_false, add_zero]
    have hr0 : r ≠ 0 := hr.ne'
    field_simp
    ring

/-- C3: with zero charges, both dipole flags positive, `cut_coulsq = rc²`,
`rc > 0` and `0 < |del|² < rc²`, the Coulomb energy `ecoul` of the pair body, as
a function of the separation vector, has at `del` the derivative
`v ↦ -fq * (forcecoul · v)`: the Coulomb force is minus the gradient of the
energy. Under these conditions the force is that of the dipole-dipole block,
`3*r5inv*(aforcecoul + bforcecoul)`, and the energy is the dipole-dipole term
`bfac*(r3inv*pdotp - 3*r5inv*pidotr*pjdotr)` times `factor_coul*qqrd2e`. -/
theorem dipole_dipole_force_energy (P : Pair ℝ) (itype jtype : ℕ)
    (mui muj : ℕ → ℝ) (hmi : mui 3 > 0) (hmj : muj 3 > 0)
    (rc : ℝ) (hrc : 0 < rc) (hc : P.cut_coulsq itype jtype = rc * rc)
    (delx dely delz : ℝ) (hpos : 0 < delx * delx + dely * dely + delz * delz)
    (hlt : delx * delx + dely * dely + delz * delz < rc * rc)
    (factor_lj factor_coul qqrd2e : ℝ) (eflag : ℤ) (he : eflag ≠ 0) :
    HasFDerivAt
      (fun d : ℝ × ℝ × ℝ => (pair_body Real.sqrt P itype jtype 0 0 mui muj
        d.1 d.2.1 d.2.2 factor_lj factor_coul qqrd2e eflag).ecoul)
      (-(pair_body Real.sqrt P itype jtype 0 0 mui muj
            delx dely delz factor_lj factor_coul qqrd2e eflag).fq •
        ((pair_body Real.sqrt P itype jtype 0 0 mui muj
            delx dely delz factor_lj factor_coul qqrd2e eflag).coul.forcecoulx •
            ContinuousLinearMap.fst ℝ ℝ (ℝ × ℝ) +
         (pair_body Real.sqrt P itype jtype 0 0 mui muj
            delx dely delz factor_lj factor_coul qqrd2e eflag).coul.forcecouly •
            (ContinuousLinearMap.fst ℝ ℝ ℝ).comp (ContinuousLinearMap.snd ℝ ℝ (ℝ × ℝ)) +
         (pair_body Real.sqrt P itype jtype 0 0 mui muj
            delx dely delz factor_lj factor_coul qqrd2e eflag).coul.forcecoulz •
            (ContinuousLinearMap.snd ℝ ℝ ℝ).comp (ContinuousLinearMap.snd ℝ ℝ (ℝ × ℝ))))
      (delx, dely, delz) ∧
    ((pair_body Real.sqrt P itype jtype 0 0 mui muj
        delx dely delz factor_lj factor_coul qqrd2e eflag).coul.forcecoulx =
      (dipole_dipole Real.sqrt (P.cut_coulsq itype jtype) mui muj delx dely delz).forcecoulx ∧
     (pair_body Real.sqrt P itype jtype 0 0 mui muj
        delx dely delz factor_lj factor_coul qqrd2e eflag).coul.forcecouly =
      (dipole_dipole Real.sqrt (P.cut_coulsq itype jtype) mui muj delx dely delz).forcecouly ∧
     (pair_body Real.sqrt P itype jtype 0 0 mui muj
        delx dely delz factor_lj factor_coul qqrd2e eflag).coul.forcecoulz =
      (dipole_dipole Real.sqrt (P.cut_coulsq itype jtype) mui muj delx dely delz).forcecoulz) ∧
    (pair_body Real.sqrt P itype jtype 0 0 mui muj
        delx dely delz factor_lj factor_coul qqrd2e eflag).ecoul =
      energy_dipole_dipole Real.sqrt (P.cut_coulsq itype jtype) mui muj delx dely delz *
        (factor_coul * qqrd2e) := by
  obtain ⟨hX, hY, hZ⟩ := hasFDerivAt_coord (delx, dely, delz)
  refine ⟨?_, ?_, ?_⟩
  · have h := hasFDerivAt_ecoul (fun y : ℝ × ℝ × ℝ => y.1) (fun y => y.2.1) (fun y => y.2.2)
      _ _ _ (delx, dely, delz) hX hY hZ hpos rc hrc hlt 0 0 mui muj factor_coul qqrd2e
    simp only [pair_body, if_pos he, hc]
    exact h
  · simp [pair_body, coulomb, hc, hlt, hmi, hmj, CoulTerm.add, CoulTerm.zero]
  · simp [pair_body, he, ecoul, energy_charge_charge, hc, hlt, hmi, hmj]

/-- C4: with `cut_coulsq = rc²`, `rc > 0` and `0 < |del|² < rc²`, for a dipole
row `mud` with positive flag on one particle (that particle uncharged) and a
charge `q ≠ 0` on the other (its dipole flag not positive): when the dipole is on
`i`, the Coulomb energy of the pair body has at `del` the derivative
`v ↦ -fq * (forcecoul · v)`, the force being that of the dipole-charge block
(`pre2*mu_i - pre1*del`) and the energy `-q*r3inv*pqfac*pidotr` times
`factor_coul*qqrd2e`; when the dipole is on `j`, the same holds with the
charge-dipole block and the energy `q*r3inv*qpfac*pjdotr`. -/
theorem dipole_charge_force_energy (P : Pair ℝ) (itype jtype : ℕ)
    (mud mun : ℕ → ℝ) (hmd : mud 3 > 0) (hmn : mun 3 ≤ 0) (q : ℝ) (hq : q ≠ 0)
    (rc : ℝ) (hrc : 0 < rc) (hc : P.cut_coulsq itype jtype = rc * rc)
    (delx dely delz : ℝ) (hpos : 0 < delx * delx + dely * dely + delz * delz)
    (hlt : delx * delx + dely * dely + delz * delz < rc * rc)
    (factor_lj factor_coul qqrd2e : ℝ) (eflag : ℤ) (he : eflag ≠ 0) :
    (HasFDerivAt
      (fun d : ℝ × ℝ × ℝ => (pair_body Real.sqrt P itype jtype 0 q mud mun
        d.1 d.2.1 d.2.2 factor_lj factor_coul qqrd2e eflag).ecoul)
      (-(pair_body Real.sqrt P itype jtype 0 q mud mun
            delx dely delz factor_lj factor_coul qqrd2e eflag).fq •
        ((pair_body Real.sqrt P itype jtype 0 q mud mun
            delx dely delz factor_lj factor_coul qqrd2e eflag).coul.forcecoulx •
            ContinuousLinearMap.fst ℝ ℝ (ℝ × ℝ) +
         (pair_body Real.sqrt P itype jtype 0 q mud mun
            delx dely delz factor_lj factor_coul qqrd2e eflag).coul.forcecouly •
            (ContinuousLinearMap.fst ℝ ℝ ℝ).comp (ContinuousLinearMap.snd ℝ ℝ (ℝ × ℝ)) +
         (pair_body Real.sqrt P itype jtype 0 q mud mun
            delx dely delz factor_lj factor_coul qqrd2e eflag).coul.forcecoulz •
            (ContinuousLinearMap.snd ℝ ℝ ℝ).comp (ContinuousLinearMap.snd ℝ ℝ (ℝ × ℝ))))
      (delx, dely, delz) ∧
     ((pair_body Real.sqrt P itype jtype 0 q mud mun
        delx dely delz factor_lj factor_coul qqrd2e eflag).coul.forcecoulx =
       (dipole_charge Real.sqrt (P.cut_coulsq itype jtype) q mud delx dely delz).forcecoulx ∧
      (pair_body Real.sqrt P itype jtype 0 q mud mun
        delx dely delz factor_lj factor_coul qqrd2e eflag).coul.forcecouly =
       (dipole_charge Real.sqrt (P.cut_coulsq itype jtype) q mud delx dely delz).forcecouly ∧
      (pair_body Real.sqrt P itype jtype 0 q mud mun
        delx dely delz factor_lj factor_coul qqrd2e eflag).coul.forcecoulz =
       (dipole_charge Real.sqrt (P.cut_coulsq itype jtype) q mud delx dely delz).forcecoulz) ∧
     (pair_body Real.sqrt P itype jtype 0 q mud mun
        delx dely delz factor_lj factor_coul qqrd2e eflag).ecoul =
       energy_dipole_charge Real.sqrt (P.cut_coulsq itype jtype) q mud delx dely delz *
         (factor_coul * qqrd2e)) ∧
    (HasFDerivAt
      (fun d : ℝ × ℝ × ℝ => (pair_body Real.sqrt P itype jtype q 0 mun mud
        d.1 d.2.1 d.2.2 factor_lj factor_coul qqrd2e eflag).ecoul)
      (-(pair_body Real.sqrt P itype jtype q 0 mun mud
            delx dely delz factor_lj factor_coul qqrd2e eflag).fq •
        ((pair_body Real.sqrt P itype jtype q 0 mun mud
            delx dely delz factor_lj factor_coul qqrd2e eflag).coul.forcecoulx •
            ContinuousLinearMap.fst ℝ ℝ (ℝ × ℝ) +
         (pair_body Real.sqrt P itype jtype q 0 mun mud
            delx dely delz factor_lj factor_coul qqrd2e eflag).coul.forcecouly •
            (ContinuousLinearMap.fst ℝ ℝ ℝ).comp (ContinuousLinearMap.snd ℝ ℝ (ℝ × ℝ)) +
         (pair_body Real.sqrt P itype jtype q 0 mun mud
            delx dely delz factor_lj factor_coul qqrd2e eflag).coul.forcecoulz •
            (ContinuousLinearMap.snd ℝ ℝ ℝ).comp (ContinuousLinearMap.snd ℝ ℝ (ℝ × ℝ))))
      (delx, dely, delz) ∧
     ((pair_body Real.sqrt P itype jtype q 0 mun mud
        delx dely delz factor_lj factor_coul qqrd2e eflag).coul.forcecoulx =
       (charge_dipole Real.sqrt (P.cut_coulsq itype jtype) q mud delx dely delz).forcecoulx ∧
      (pair_body Real.sqrt P itype jtype q 0 mun mud
        delx dely delz factor_lj factor_coul qqrd2e eflag).coul.forcecouly =
       (charge_dipole Real.sqrt (P.cut_coulsq itype jtype) q mud delx dely delz).forcecouly ∧
      (pair_body Real.sqrt P itype jtype q 0 mun mud
        delx dely delz factor_lj factor_coul qqrd2e eflag).coul.forcecoulz =
       (charge_dipole Real.sqrt (P.cut_coulsq itype jtype) q mud delx dely delz).forcecoulz) ∧
     (pair_body Real.sqrt P itype jtype q 0 mun mud
        delx dely delz factor_lj factor_coul qqrd2e eflag).ecoul =
       energy_charge_dipole Real.sqrt (P.cut_coulsq itype jtype) q mud delx dely delz *
         (factor_coul * qqrd2e)) := by
  obtain ⟨hX, hY, hZ⟩ := hasFDerivAt_coord (delx, dely, delz)
  have hn : ¬ (mun 3 > 0) := not_lt.mpr hmn
  refine ⟨⟨?_, ?_, ?_⟩, ⟨?_, ?_, ?_⟩⟩
  · have h := hasFDerivAt_ecoul (fun y : ℝ × ℝ × ℝ => y.1) (fun y => y.2.1) (fun y => y.2.2)
      _ _ _ (delx, dely, delz) hX hY hZ hpos rc hrc hlt 0 q mud mun factor_coul qqrd2e
    simp only [pair_body, if_pos he, hc]
    exact h
  · simp [pair_body, coulomb, hc, hlt, hmd, hn, hq, CoulTerm.add, CoulTerm.zero]
  · simp [pair_body, he, ecoul, energy_charge_charge, hc, hlt, hmd, hn, hq]
  · have h := hasFDerivAt_ecoul (fun y : ℝ × ℝ × ℝ => y.1) (fun y => y.2.1) (fun y => y.2.2)
      _ _ _ (delx, dely, delz) hX hY hZ hpos rc hrc hlt q 0 mun mud factor_coul qqrd2e
    simp only [pair_body, if_pos he, hc]
    exact h
  · simp [pair_body, coulomb, hc, hlt, hmd, hn, hq, CoulTerm.add, CoulTerm.zero]
  · simp [pair_body, he, ecoul, energy_charge_charge, hc, hlt, hmd, hn, hq]

end Consistency

section Cutoff

open Filter Topology

/-- C5: for cutoffs `rc > 0` (Coulomb) and `rl > 0` (LJ), any charges, dipole
rows and LJ coefficients: the force of each Coulomb block (charge-charge,
dipole-dipole, dipole-charge, charge-dipole), evaluated without the cutoff gate
at any separation with `rsq = rc²`, is the zero vector, and so is the ungated LJ
force `del * factor_lj * (forceljcut - forceljsf)` at any separation with
`rsq = rl²`; along every ray `del = r·u` (`u` a unit vector) each of these five
forces tends to the zero vector as `r` tends to the cutoff from below. -/
theorem forces_vanish_at_cutoff (qi qj : ℝ) (mui muj : ℕ → ℝ) (lj1 lj2 factor_lj : ℝ)
    (rc rl : ℝ) (hrc : 0 < rc) (hrl : 0 < rl) :
    (∀ delx dely delz : ℝ, delx * delx + dely * dely + delz * delz = rc * rc →
      (charge_charge Real.sqrt (rc * rc) qi qj delx dely delz).force = (0, 0, 0) ∧
      (dipole_dipole Real.sqrt (rc * rc) mui muj delx dely delz).force = (0, 0, 0) ∧
      (dipole_charge Real.sqrt (rc * rc) qj mui delx dely delz).force = (0, 0, 0) ∧
      (charge_dipole Real.sqrt (rc * rc) qi muj delx dely delz).force = (0, 0, 0)) ∧
    (∀ delx dely delz : ℝ, delx * delx + dely * dely + delz * delz = rl * rl →
      (delx * (factor_lj * lj_shifted lj1 lj2 (rl * rl)
          (delx * delx + dely * dely + delz * delz)),
       dely * (factor_lj * lj_shifted lj1 lj2 (rl * rl)
          (delx * delx + dely * dely + delz * delz)),
       delz * (factor_lj * lj_shifted lj1 lj2 (rl * rl)
          (delx * delx + dely * dely + delz * delz))) = ((0 : ℝ), (0 : ℝ), (0 : ℝ))) ∧
    (∀ ux uy uz : ℝ, ux * ux + uy * uy + uz * uz = 1 →
      Tendsto (fun r =>
          (charge_charge Real.sqrt (rc * rc) qi qj (r * ux) (r * uy) (r * uz)).force)
        (𝓝[<] rc) (𝓝 (0, 0, 0)) ∧
      Tendsto (fun r =>
          (dipole_dipole Real.sqrt (rc * rc) mui muj (r * ux) (r * uy) (r * uz)).force)
        (𝓝[<] rc) (𝓝 (0, 0, 0)) ∧
      Tendsto (fun r =>
          (dipole_charge Real.sqrt (rc * rc) qj mui (r * ux) (r * uy) (r * uz)).force)
        (𝓝[<] rc) (𝓝 (0, 0, 0)) ∧
      Tendsto (fun r =>
          (charge_dipole Real.sqrt (rc * rc) qi muj (r * ux) (r * uy) (r * uz)).force)
        (𝓝[<] rc) (𝓝 (0, 0, 0)) ∧
      Tendsto (fun r =>
          (r * ux * (factor_lj * lj_shifted lj1 lj2 (rl * rl)
              (r * ux * (r * ux) + r * uy * (r * uy) + r * uz * (r * uz))),
           r * uy * (factor_lj * lj_shifted lj1 lj2 (rl * rl)
              (r * ux * (r * ux) + r * uy * (r * uy) + r * uz * (r * uz))),
           r * uz * (factor_lj * lj_shifted lj1 lj2 (rl * rl)
              (r * ux * (r * ux) + r * uy * (r * uy) + r * uz * (r * uz)))))
        (𝓝[<] rl) (𝓝 (0, 0, 0))) := by
  have hrc0 : rc ≠ 0 := hrc.ne'
  have hone : (1 : ℝ) - rc * rc * (1 / (rc * rc)) = 0 := by field_simp
  refine ⟨?_, ?_, ?_⟩
  · intro delx dely delz hρ
    refine ⟨?_, ?_, ?_, ?_⟩
    · simp [CoulTerm.force, charge_charge, hρ]
    · simp only [CoulTerm.force, dipole_dipole, hρ, afac_cut rc hrc, bfac_cut rc hrc]
      simp
    · simp only [CoulTerm.force, dipole_charge, hρ, pqfac_cut rc hrc, hone]
      simp
    · simp only [CoulTerm.force, charge_dipole, hρ, qpfac_cut rc hrc, hone]
      simp
  · intro delx dely delz hρ
    simp [hρ, lj_shifted_cut]
  · intro ux uy uz hu
    exact ⟨tendsto_qq rc qi qj ux uy uz hrc hu, tendsto_dd rc mui muj ux uy uz hrc hu,
      tendsto_dc rc qj mui ux uy uz hrc hu, tendsto_cd rc qi muj ux uy uz hrc hu,
      tendsto_lj lj1 lj2 factor_lj rl ux uy uz hrl hu⟩

end Cutoff

section Table

variable {K : Type} [LinearOrderedField K]

/-- C7: after `init_one(i,j)` every derived array is symmetric at the pair:
`cut_ljsq`, `cut_coulsq` and `lj1..lj4` at `[j][i]` equal their values at
`[i][j]`, whatever the table was before. -/
theorem init_one_symmetric (sqrt : K → K) (P : Pair K) (i j : Nat) :
    (init_one sqrt P i j).2.cut_ljsq j i = (init_one sqrt P i j).2.cut_ljsq i j ∧
    (init_one sqrt P i j).2.cut_coulsq j i = (init_one sqrt P i j).2.cut_coulsq i j ∧
    (init_one sqrt P i j).2.lj1 j i = (init_one sqrt P i j).2.lj1 i j ∧
    (init_one sqrt P i j).2.lj2 j i = (init_one sqrt P i j).2.lj2 i j ∧
    (init_one sqrt P i j).2.lj3 j i = (init_one sqrt P i j).2.lj3 i j ∧
    (init_one sqrt P i j).2.lj4 j i = (init_one sqrt P i j).2.lj4 i j := by
  by_cases h : i = j
  · subst h
    simp
  · have h1 : ¬ (i = j ∧ j = i) := fun hc => h hc.1
    simp [init_one, set2, h1]

/-- C8: for a pair whose `setflag[i][j]` is 0, `init_one(i,j)` stores the
geometric mean of the diagonal epsilons and the arithmetic means of the diagonal
sigmas and cutoffs at `[i][j]`; a second table with the same four diagonal
entries at `(i,i)` and `(j,j)` gets the same four results. -/
theorem init_one_mixes (sqrt : K → K) (P : Pair K) (i j : Nat)
    (h : P.setflag i j = 0) :
    ((init_one sqrt P i j).2.epsilon i j = sqrt (P.epsilon i i * P.epsilon j j) ∧
     (init_one sqrt P i j).2.sigma i j = (P.sigma i i + P.sigma j j) / 2 ∧
     (init_one sqrt P i j).2.cut_lj i j = (P.cut_lj i i + P.cut_lj j j) / 2 ∧
     (init_one sqrt P i j).2.cut_coul i j = (P.cut_coul i i + P.cut_coul j j) / 2) ∧
    ∀ Q : Pair K, Q.setflag i j = 0 →
      Q.epsilon i i = P.epsilon i i → Q.epsilon j j = P.epsilon j j →
      Q.sigma i i = P.sigma i i → Q.sigma j j = P.sigma j j →
      Q.cut_lj i i = P.cut_lj i i → Q.cut_lj j j = P.cut_lj j j →
      Q.cut_coul i i = P.cut_coul i i → Q.cut_coul j j = P.cut_coul j j →
      (init_one sqrt Q i j).2.epsilon i j = (init_one sqrt P i j).2.epsilon i j ∧
      (init_one sqrt Q i j).2.sigma i j = (init_one sqrt P i j).2.sigma i j ∧
      (init_one sqrt Q i j).2.cut_lj i j = (init_one sqrt P i j).2.cut_lj i j ∧
      (init_one sqrt Q i j).2.cut_coul i j = (init_one sqrt P i j).2.cut_coul i j := by
  have key : ∀ R : Pair K, R.setflag i j = 0 →
      (init_one sqrt R i j).2.epsilon i j = sqrt (R.epsilon i i * R.epsilon j j) ∧
      (init_one sqrt R i j).2.sigma i j = (R.sigma i i + R.sigma j j) / 2 ∧
      (init_one sqrt R i j).2.cut_lj i j = (R.cut_lj i i + R.cut_lj j j) / 2 ∧
      (init_one sqrt R i j).2.cut_coul i j = (R.cut_coul i i + R.cut_coul j j) / 2 := by
    intro R hR
    simp [init_one, init_one_mix, hR, set2, mix_energy, mix_distance]
  refine ⟨key P h, ?_⟩
  intro Q hQ e1 e2 s1 s2 l1 l2 c1 c2
  obtain ⟨p1, p2, p3, p4⟩ := key P h
  obtain ⟨q1, q2, q3, q4⟩ := key Q hQ
  rw [p1, p2, p3, p4, q1, q2, q3, q4, e1, e2, s1, s2, l1, l2, c1, c2]
  exact ⟨rfl, rfl, rfl, rfl⟩

/-- C9: for a pair whose `setflag[i][j]` is 1, `init_one(i,j)` leaves the stored
arrays `epsilon`, `sigma`, `cut_lj`, `cut_coul` (and the flags) as they were, and
a second `init_one(i,j)` right after the first returns the same cutoff and leaves
the whole object as the first call left it. -/
theorem init_one_set_idempotent (sqrt : K → K) (P : Pair K) (i j : Nat)
    (h : P.setflag i j = 1) :
    (init_one sqrt P i j).2.epsilon = P.epsilon ∧
    (init_one sqrt P i j).2.sigma = P.sigma ∧
    (init_one sqrt P i j).2.cut_lj = P.cut_lj ∧
    (init_one sqrt P i j).2.cut_coul = P.cut_coul ∧
    (init_one sqrt P i j).2.setflag = P.setflag ∧
    init_one sqrt (init_one sqrt P i j).2 i j = init_one sqrt P i j := by
  have h0 : P.setflag i j ≠ 0 := by rw [h]; decide
  have hm : init_one_mix sqrt P i j = P := init_one_mix_of_set sqrt P i j h0
  refine ⟨?_, ?_, ?_, ?_, ?_, ?_⟩
  · simp [init_one, hm]
  · simp [init_one, hm]
  · simp [init_one, hm]
  · simp [init_one, hm]
  · simp [init_one, hm]
  · have hw : ∀ (a : Nat → Nat → K) (v : K),
        set2 (set2 (set2 (set2 a i j v) j i v) i j v) j i v = set2 (set2 a i j v) j i v := by
      intro a v
      funext x y
      simp only [set2]
      split_ifs <;> rfl
    have key : ∀ Q : Pair K, Q.setflag = P.setflag →
        init_one sqrt Q i j = _ := fun Q hQ =>
      init_one_of_set sqrt Q i j (by rw [hQ]; exact h0)
    rw [init_one_of_set sqrt P i j h0]
    dsimp only
    refine (key _ ?_).trans ?_
    · rfl
    · simp only [hw, set2_same]

/-- C10: after `init_one(i,j)` the squared cutoffs at `[i][j]` are the squares of
the cutoffs at `[i][j]`, `lj1..lj4` at `[i][j]` are `48εσ¹²`, `24εσ⁶`, `4εσ¹²`,
`4εσ⁶` of the final epsilon and sigma at `[i][j]`, and the value returned is the
larger of the two cutoffs at `[i][j]`. -/
theorem init_one_derived (sqrt : K → K) (P : Pair K) (i j : Nat) :
    (init_one sqrt P i j).2.cut_ljsq i j = (init_one sqrt P i j).2.cut_lj i j ^ 2 ∧
    (init_one sqrt P i j).2.cut_coulsq i j = (init_one sqrt P i j).2.cut_coul i j ^ 2 ∧
    (init_one sqrt P i j).2.lj1 i j =
      48 * (init_one sqrt P i j).2.epsilon i j * (init_one sqrt P i j).2.sigma i j ^ 12 ∧
    (init_one sqrt P i j).2.lj2 i j =
      24 * (init_one sqrt P i j).2.epsilon i j * (init_one sqrt P i j).2.sigma i j ^ 6 ∧
    (init_one sqrt P i j).2.lj3 i j =
      4 * (init_one sqrt P i j).2.epsilon i j * (init_one sqrt P i j).2.sigma i j ^ 12 ∧
    (init_one sqrt P i j).2.lj4 i j =
      4 * (init_one sqrt P i j).2.epsilon i j * (init_one sqrt P i j).2.sigma i j ^ 6 ∧
    (init_one sqrt P i j).1 =
      max ((init_one sqrt P i j).2.cut_lj i j) ((init_one sqrt P i j).2.cut_coul i j) := by
  simp [init_one, set2, MAX_eq_max, pow_two]

end Table

section Accumulation

variable {K : Type} [LinearOrderedField K]

/-- C6: for two distinct atoms `i`, `j` within the pair cutoff, the pass adds
`(fx,fy,fz)` to `f[i]`; if `newton_pair` is set or `j < nlocal` it subtracts the
same vector from `f[j]` and adds `fq*(tjxcoul,tjycoul,tjzcoul)` to `torque[j]`,
so that the changes of `f[i]` and `f[j]` sum to zero; otherwise every component
of `f[j]` and `torque[j]` is unchanged. -/
theorem pair_step_newton {E : Type} (sqrt : K → K)
    (ev_tally_xyz : E → Nat → Nat → Nat → Int → K → K → K → K → K → K → K → K → E)
    (P : Pair K) (A : Atom K) (F : Force K) (eflag evflag : Int) (i j sb : Nat)
    (S : Accum K E) (hij : i ≠ j)
    (hcut : pair_rsq A i j < P.cutsq (A.type i) (A.type j)) :
    ((pair_step sqrt ev_tally_xyz P A F eflag evflag i j sb S).f i 0 =
        S.f i 0 + (pair_record sqrt P A F eflag i j sb).fx ∧
     (pair_step sqrt ev_tally_xyz P A F eflag evflag i j sb S).f i 1 =
        S.f i 1 + (pair_record sqrt P A F eflag i j sb).fy ∧
     (pair_step sqrt ev_tally_xyz P A F eflag evflag i j sb S).f i 2 =
        S.f i 2 + (pair_record sqrt P A F eflag i j sb).fz) ∧
    ((F.newton_pair ≠ 0 ∨ j < A.nlocal) →
      ((pair_step sqrt ev_tally_xyz P A F eflag evflag i j sb S).f j 0 =
          S.f j 0 - (pair_record sqrt P A F eflag i j sb).fx ∧
       (pair_step sqrt ev_tally_xyz P A F eflag evflag i j sb S).f j 1 =
          S.f j 1 - (pair_record sqrt P A F eflag i j sb).fy ∧
       (pair_step sqrt ev_tally_xyz P A F eflag evflag i j sb S).f j 2 =
          S.f j 2 - (pair_record sqrt P A F eflag i j sb).fz) ∧
      ((pair_step sqrt ev_tally_xyz P A F eflag evflag i j sb S).torque j 0 =
          S.torque j 0 + (pair_record sqrt P A F eflag i j sb).fq *
            (pair_record sqrt P A F eflag i j sb).coul.tjxcoul ∧
       (pair_step sqrt ev_tally_xyz P A F eflag evflag i j sb S).torque j 1 =
          S.torque j 1 + (pair_record sqrt P A F eflag i j sb).fq *
            (pair_record sqrt P A F eflag i j sb).coul.tjycoul ∧
       (pair_step sqrt ev_tally_xyz P A F eflag evflag i j sb S).torque j 2 =
          S.torque j 2 + (pair_record sqrt P A F eflag i j sb).fq *
            (pair_record sqrt P A F eflag i j sb).coul.tjzcoul) ∧
      ∀ d, d < 3 →
        ((pair_step sqrt ev_tally_xyz P A F eflag evflag i j sb S).f i d - S.f i d) +
        ((pair_step sqrt ev_tally_xyz P A F eflag evflag i j sb S).f j d - S.f j d) = 0) ∧
    (¬ (F.newton_pair ≠ 0 ∨ j < A.nlocal) →
      ∀ d, (pair_step sqrt ev_tally_xyz P A F eflag evflag i j sb S).f j d = S.f j d ∧
           (pair_step sqrt ev_tally_xyz P A F eflag evflag i j sb S).torque j d =
             S.torque j d) := by
  have hji : j ≠ i := fun h => hij h.symm
  refine ⟨?_, ?_, ?_⟩
  · by_cases hn : F.newton_pair ≠ 0 ∨ j < A.nlocal
    · simp [pair_step, hcut, accumulate, hn, set2, hij]
    · simp [pair_step, hcut, accumulate, hn, set2, hij]
  · intro hn
    refine ⟨?_, ?_, ?_⟩
    · simp [pair_step, hcut, accumulate, hn, set2, hji]
    · simp [pair_step, hcut, accumulate, hn, set2, hji]
    · intro d hd
      interval_cases d <;> simp [pair_step, hcut, accumulate, hn, set2, hji, hij]
  · intro hn d
    simp [pair_step, hcut, accumulate, hn, set2, hji]

end Accumulation

section Commands

variable {K : Type}

/-! ### The commands `settings`, `coeff`, `write_restart` and `read_restart` (C11, C13) -/

/-- The loop `for (k = lo; k <= hi; k++)` visits exactly the `k` with `lo ≤ k ≤ hi`. -/
theorem mem_loop_range (lo hi k : Nat) : k ∈ loop_range lo hi ↔ lo ≤ k ∧ k ≤ hi := by
  simp only [loop_range, List.mem_range'_1]
  omega

/-- The nested loops visit exactly the pairs with `ilo ≤ a ≤ ihi` and `jlo a ≤ b ≤ jhi`. -/
theorem mem_loop2 (ilo ihi : Nat) (jlo : Nat → Nat) (jhi a b : Nat) :
    (a, b) ∈ loop2 ilo ihi jlo jhi ↔ ilo ≤ a ∧ a ≤ ihi ∧ jlo a ≤ b ∧ b ≤ jhi := by
  simp only [loop2, List.mem_flatMap, List.mem_map, mem_loop_range, Prod.mk.injEq]
  constructor
  · rintro ⟨i, ⟨h1, h2⟩, j, ⟨h3, h4⟩, rfl, rfl⟩
    exact ⟨h1, h2, h3, h4⟩
  · rintro ⟨h1, h2, h3, h4⟩
    exact ⟨a, ⟨h1, h2⟩, b, ⟨h3, h4⟩, rfl, rfl⟩

/-- A quantity that no pass of a loop changes is the same after the loop. -/
theorem foldl_keeps {σ ι α : Type} (f : σ → ι → σ) (g : σ → α)
    (h : ∀ s x, g (f s x) = g s) (L : List ι) (s : σ) : g (L.foldl f s) = g s := by
  induction L generalizing s with
  | nil => rfl
  | cons x L ih => rw [List.foldl_cons, ih, h]

/-- The double loop of `settings`, written out entry by entry. -/
theorem settings_loop_eq (L : List (Nat × Nat)) (Q : Pair K) :
    L.foldl settings_body Q =
      { Q with
        cut_lj := fun a b =>
          if (a, b) ∈ L ∧ Q.setflag a b ≠ 0 then Q.cut_lj_global else Q.cut_lj a b,
        cut_coul := fun a b =>
          if (a, b) ∈ L ∧ Q.setflag a b ≠ 0 then Q.cut_coul_global else Q.cut_coul a b } := by
  induction L generalizing Q with
  | nil => simp
  | cons x L ih =>
    rw [List.foldl_cons, ih]
    obtain ⟨i, j⟩ := x
    by_cases hs : Q.setflag i j ≠ 0
    · simp only [settings_body, if_pos hs]
      congr 1
      · funext a b
        by_cases hab : a = i ∧ b = j
        · obtain ⟨rfl, rfl⟩ := hab
          simp [set2, hs]
        · have hne : ¬ ((a, b) = (i, j)) := by simpa using hab
          simp [set2, hab, hne]
      · funext a b
        by_cases hab : a = i ∧ b = j
        · obtain ⟨rfl, rfl⟩ := hab
          simp [set2, hs]
        · have hne : ¬ ((a, b) = (i, j)) := by simpa using hab
          simp [set2, hab, hne]
    · simp only [settings_body, if_neg hs]
      congr 1
      · funext a b
        by_cases hab : a = i ∧ b = j
        · obtain ⟨rfl, rfl⟩ := hab
          simp [hs]
        · have hne : ¬ ((a, b) = (i, j)) := by simpa using hab
          simp [hne]
      · funext a b
        by_cases hab : a = i ∧ b = j
        · obtain ⟨rfl, rfl⟩ := hab
          simp [hs]
        · have hne : ¬ ((a, b) = (i, j)) := by simpa using hab
          simp [hne]

/-- The double loop of `coeff` counts its passes. -/
theorem coeff_loop_count (e s l c : K) (L : List (Nat × Nat)) (st : Pair K × Nat) :
    (L.foldl (coeff_body e s l c) st).2 = st.2 + L.length := by
  induction L generalizing st with
  | nil => simp
  | cons x L ih =>
    rw [List.foldl_cons, ih]
    simp [coeff_body]
    omega

/-- The double loop of `coeff` writes neither the derived arrays nor the scalars. -/
theorem coeff_loop_keeps (e s l c : K) (L : List (Nat × Nat)) (st : Pair K × Nat) :
    (L.foldl (coeff_body e s l c) st).1.cut_ljsq = st.1.cut_ljsq ∧
    (L.foldl (coeff_body e s l c) st).1.cut_coulsq = st.1.cut_coulsq :=
  ⟨foldl_keeps (coeff_body e s l c) (fun st => st.1.cut_ljsq) (fun _ _ => rfl) L st,
   foldl_keeps (coeff_body e s l c) (fun st => st.1.cut_coulsq) (fun _ _ => rfl) L st⟩

/-- What `settings` does to an allocated table when called with one or two
arguments. -/
theorem settings_of_allocated (P : Pair K) (ntypes narg : Nat) (arg : Nat → K)
    (halloc : P.allocated ≠ 0) (hn : narg = 1 ∨ narg = 2) :
    settings P ntypes narg arg =
      Outcome.ok ((loop2 1 ntypes (fun i => i + 1) ntypes).foldl settings_body
        { P with cut_lj_global := arg 0,
                 cut_coul_global := if narg = 1 then arg 0 else arg 1 }) := by
  have hnarg : ¬ (narg < 1 ∨ narg > 2) := by omega
  unfold settings
  rw [if_neg hnarg]
  by_cases h1 : narg = 1
  · simp only [h1, if_true]
    rw [if_pos halloc]
  · simp only [if_neg h1]
    rw [if_pos halloc]

/-- C11 (as amended): for an allocated table and a call with one or two
arguments, `settings` returns; afterwards `cut_lj_global` is the first argument
and `cut_coul_global` the second, or the first when only one is given; every
pair `1 ≤ i < j ≤ ntypes` that has been explicitly set has both cutoffs equal to
the new globals; the cutoffs of every pair whose `setflag` is 0 are as before,
and no flag changes. -/
theorem settings_resets_set_pairs (P : Pair K) (ntypes narg : Nat) (arg : Nat → K)
    (halloc : P.allocated ≠ 0) (hn : narg = 1 ∨ narg = 2) :
    (settings P ntypes narg arg).isOk = true ∧
    (settings P ntypes narg arg).state.cut_lj_global = arg 0 ∧
    (settings P ntypes narg arg).state.cut_coul_global = (if narg = 1 then arg 0 else arg 1) ∧
    (∀ i j, 1 ≤ i → i < j → j ≤ ntypes → P.setflag i j ≠ 0 →
      (settings P ntypes narg arg).state.cut_lj i j =
        (settings P ntypes narg arg).state.cut_lj_global ∧
      (settings P ntypes narg arg).state.cut_coul i j =
        (settings P ntypes narg arg).state.cut_coul_global) ∧
    (∀ i j, P.setflag i j = 0 →
      (settings P ntypes narg arg).state.cut_lj i j = P.cut_lj i j ∧
      (settings P ntypes narg arg).state.cut_coul i j = P.cut_coul i j) ∧
    (settings P ntypes narg arg).state.setflag = P.setflag := by
  rw [settings_of_allocated P ntypes narg arg halloc hn, settings_loop_eq]
  simp only [Outcome.isOk, Outcome.state, true_and]
  refine ⟨?_, ?_, trivial⟩
  · intro i j hi hij hj hs
    have hm : (i, j) ∈ loop2 1 ntypes (fun i => i + 1) ntypes :=
      (mem_loop2 _ _ _ _ _ _).mpr ⟨hi, by omega, hij, hj⟩
    simp [hm, hs]
  · intro i j hs
    simp [hs]

/-- What `coeff` does when called with 4 to 6 arguments: it runs its double
loop on the object, allocated first if need be, and stops when `count` is 0. -/
theorem coeff_eq (P fresh : Pair K) (ntypes narg ilo ihi jlo jhi : Nat)
    (arg : Nat → K) (h4 : 4 ≤ narg) (h6 : narg ≤ 6) :
    ∃ e s l c : K,
      coeff P fresh ntypes narg ilo ihi jlo jhi arg =
        if ((loop2 ilo ihi (fun i => if jlo > i then jlo else i) jhi).foldl
              (coeff_body e s l c)
              (if P.allocated = 0 then allocate P fresh ntypes else P, 0)).2 = 0 then
          Outcome.error ((loop2 ilo ihi (fun i => if jlo > i then jlo else i) jhi).foldl
              (coeff_body e s l c)
              (if P.allocated = 0 then allocate P fresh ntypes else P, 0)).1
        else
          Outcome.ok ((loop2 ilo ihi (fun i => if jlo > i then jlo else i) jhi).foldl
              (coeff_body e s l c)
              (if P.allocated = 0 then allocate P fresh ntypes else P, 0)).1 := by
  have hnarg : ¬ (narg < 4 ∨ narg > 6) := by omega
  refine ⟨arg 2, arg 3,
    if narg ≥ 5 then arg 4
      else (if P.allocated = 0 then allocate P fresh ntypes else P).cut_lj_global,
    if narg = 6 then arg 5 else (if narg ≥ 5 then arg 4
      else (if P.allocated = 0 then allocate P fresh ntypes else P).cut_coul_global), ?_⟩
  unfold coeff
  rw [if_neg hnarg]

/-- The pairs the double loop of `coeff` visits. -/
theorem coeff_loop_nonempty (ilo ihi jlo jhi : Nat) :
    (loop2 ilo ihi (fun i => if jlo > i then jlo else i) jhi).length ≠ 0 ↔
      ∃ i j, ilo ≤ i ∧ i ≤ ihi ∧ jlo ≤ j ∧ j ≤ jhi ∧ i ≤ j := by
  rw [Ne, List.length_eq_zero, ← Ne]
  constructor
  · intro hne
    obtain ⟨⟨a, b⟩, hm⟩ := List.exists_mem_of_ne_nil _ hne
    rw [mem_loop2] at hm
    obtain ⟨h1, h2, h3, h4⟩ := hm
    refine ⟨a, b, h1, h2, ?_, h4, ?_⟩
    · split_ifs at h3 <;> omega
    · split_ifs at h3 <;> omega
  · rintro ⟨a, b, h1, h2, h3, h4, h5⟩
    have hm : (a, b) ∈ loop2 ilo ihi (fun i => if jlo > i then jlo else i) jhi := by
      rw [mem_loop2]
      refine ⟨h1, h2, ?_, h4⟩
      split_ifs <;> omega
    exact List.ne_nil_of_mem hm

/-- A `coeff` call with 4 to 6 arguments returns exactly when its loop visits a
pair; when it stops, the object is the one the loop started from. -/
theorem coeff_isOk_iff (P fresh : Pair K) (ntypes narg ilo ihi jlo jhi : Nat)
    (arg : Nat → K) (h4 : 4 ≤ narg) (h6 : narg ≤ 6) :
    ((coeff P fresh ntypes narg ilo ihi jlo jhi arg).isOk = true ↔
      ∃ i j, ilo ≤ i ∧ i ≤ ihi ∧ jlo ≤ j ∧ j ≤ jhi ∧ i ≤ j) ∧
    ((coeff P fresh ntypes narg ilo ihi jlo jhi arg).isOk = false →
      (coeff P fresh ntypes narg ilo ihi jlo jhi arg).state =
        if P.allocated = 0 then allocate P fresh ntypes else P) := by
  obtain ⟨e, s, l, c, hc⟩ := coeff_eq P fresh ntypes narg ilo ihi jlo jhi arg h4 h6
  rw [hc, coeff_loop_count]
  simp only [zero_add]
  by_cases hlen : (loop2 ilo ihi (fun i => if jlo > i then jlo else i) jhi).length = 0
  · have hnil := List.length_eq_zero.mp hlen
    have hno : ¬ ∃ i j, ilo ≤ i ∧ i ≤ ihi ∧ jlo ≤ j ∧ j ≤ jhi ∧ i ≤ j := by
      rw [← coeff_loop_nonempty]
      exact not_not.mpr hlen
    rw [if_pos hlen, hnil, List.foldl_nil]
    refine ⟨⟨fun h => ?_, fun h => absurd h hno⟩, fun _ => rfl⟩
    simp [Outcome.isOk] at h
  · have hyes := (coeff_loop_nonempty ilo ihi jlo jhi).mp hlen
    rw [if_neg hlen]
    refine ⟨⟨fun _ => hyes, fun _ => rfl⟩, fun h => ?_⟩
    simp [Outcome.isOk] at h

/-- C13 (as amended): a `coeff` call with 4 to 6 arguments whose resolved ranges
`ilo..ihi` and `jlo..jhi` lie within `[1,ntypes]` returns if and only if its
ranges hold a pair `(i,j)` with `ilo ≤ i ≤ ihi`, `jlo ≤ j ≤ jhi` and `i ≤ j`, and
stops in `error->all` otherwise; when it stops on an already allocated table,
the object is exactly as it was before the call. -/
theorem coeff_succeeds_iff (P fresh : Pair K) (ntypes narg ilo ihi jlo jhi : Nat)
    (arg : Nat → K) (h4 : 4 ≤ narg) (h6 : narg ≤ 6)
    (_hilo : 1 ≤ ilo) (_hihi : ihi ≤ ntypes) (_hjlo : 1 ≤ jlo) (_hjhi : jhi ≤ ntypes) :
    ((coeff P fresh ntypes narg ilo ihi jlo jhi arg).isOk = true ↔
      ∃ i j, ilo ≤ i ∧ i ≤ ihi ∧ jlo ≤ j ∧ j ≤ jhi ∧ i ≤ j) ∧
    ((coeff P fresh ntypes narg ilo ihi jlo jhi arg).isOk = false → P.allocated ≠ 0 →
      (coeff P fresh ntypes narg ilo ihi jlo jhi arg).state = P) := by
  obtain ⟨h1, h2⟩ := coeff_isOk_iff P fresh ntypes narg ilo ihi jlo jhi arg h4 h6
  refine ⟨h1, fun hf ha => ?_⟩
  rw [h2 hf, if_neg ha]

/-- `settings` writes neither `cut_ljsq` nor `cut_coulsq`. -/
theorem settings_keeps_sq (P : Pair K) (ntypes narg : Nat) (arg : Nat → K) :
    (settings P ntypes narg arg).state.cut_ljsq = P.cut_ljsq ∧
    (settings P ntypes narg arg).state.cut_coulsq = P.cut_coulsq := by
  have hk : ∀ (L : List (Nat × Nat)) (Q : Pair K),
      (L.foldl settings_body Q).cut_ljsq = Q.cut_ljsq ∧
      (L.foldl settings_body Q).cut_coulsq = Q.cut_coulsq := fun L Q => by
    rw [settings_loop_eq]
    exact ⟨rfl, rfl⟩
  unfold settings
  by_cases hnarg : narg < 1 ∨ narg > 2
  · rw [if_pos hnarg]
    exact ⟨rfl, rfl⟩
  · rw [if_neg hnarg]
    by_cases h1 : narg = 1 <;> by_cases ha : P.allocated = 0 <;>
      simp [h1, ha, Outcome.state, hk]

/-- `coeff` on an allocated table writes neither `cut_ljsq` nor `cut_coulsq`. -/
theorem coeff_keeps_sq (P fresh : Pair K) (ntypes narg ilo ihi jlo jhi : Nat)
    (arg : Nat → K) (halloc : P.allocated ≠ 0) :
    (coeff P fresh ntypes narg ilo ihi jlo jhi arg).state.cut_ljsq = P.cut_ljsq ∧
    (coeff P fresh ntypes narg ilo ihi jlo jhi arg).state.cut_coulsq = P.cut_coulsq := by
  by_cases hnarg : narg < 4 ∨ narg > 6
  · unfold coeff
    rw [if_pos hnarg]
    exact ⟨rfl, rfl⟩
  · obtain ⟨e, s, l, c, hc⟩ := coeff_eq P fresh ntypes narg ilo ihi jlo jhi arg
      (by omega) (by omega)
    rw [hc, if_neg halloc]
    obtain ⟨k1, k2⟩ := coeff_loop_keeps e s l c
      (loop2 ilo ihi (fun i => if jlo > i then jlo else i) jhi) (P, 0)
    split_ifs
    · exact ⟨k1, k2⟩
    · exact ⟨k1, k2⟩

/-- `allocate` keeps the scalar settings of the object. -/
theorem allocate_scalars (P fresh : Pair K) (n : Nat) :
    (allocate P fresh n).cut_lj_global = P.cut_lj_global ∧
    (allocate P fresh n).cut_coul_global = P.cut_coul_global ∧
    (allocate P fresh n).mix_flag = P.mix_flag := by
  unfold allocate
  dsimp only
  refine ⟨?_, ?_, ?_⟩
  · rw [foldl_keeps (fun (Q : Pair K) (ij : Nat × Nat) =>
      { Q with setflag := set2 Q.setflag ij.1 ij.2 0 }) (fun Q => Q.cut_lj_global)
      (fun _ _ => rfl)]
  · rw [foldl_keeps (fun (Q : Pair K) (ij : Nat × Nat) =>
      { Q with setflag := set2 Q.setflag ij.1 ij.2 0 }) (fun Q => Q.cut_coul_global)
      (fun _ _ => rfl)]
  · rw [foldl_keeps (fun (Q : Pair K) (ij : Nat × Nat) =>
      { Q with setflag := set2 Q.setflag ij.1 ij.2 0 }) (fun Q => Q.mix_flag)
      (fun _ _ => rfl)]

/-- A pass of the loop of `write_restart` appends the values of its pair. -/
theorem write_restart_body_append (P : Pair K) (fp : List (Item K)) (ij : Nat × Nat) :
    write_restart_body P fp ij = fp ++ write_restart_body P [] ij := by
  unfold write_restart_body
  split_ifs <;> simp

/-- The loop of `write_restart` appends the values of its pairs in order. -/
theorem write_loop_eq (P : Pair K) (L : List (Nat × Nat)) (fp : List (Item K)) :
    L.foldl (write_restart_body P) fp =
      fp ++ L.flatMap (fun ij => write_restart_body P [] ij) := by
  induction L generalizing fp with
  | nil => simp
  | cons x L ih =>
    rw [List.foldl_cons, ih, write_restart_body_append, List.flatMap_cons, List.append_assoc]

/-- Reading back the values one pass of `write_restart` wrote for the pair. -/
theorem read_body_written (P Q : Pair K) (ij : Nat × Nat) (tail : List (Item K)) :
    ∃ Q1, read_restart_body (Q, write_restart_body P [] ij ++ tail) ij = some (Q1, tail) ∧
      (Q1.cut_lj_global = Q.cut_lj_global ∧ Q1.cut_coul_global = Q.cut_coul_global ∧
        Q1.mix_flag = Q.mix_flag) ∧
      Q1.setflag ij.1 ij.2 = P.setflag ij.1 ij.2 ∧
      (P.setflag ij.1 ij.2 ≠ 0 → StoredEq Q1 P ij.1 ij.2) ∧
      (∀ a b, ¬ (a = ij.1 ∧ b = ij.2) → Q1.setflag a b = Q.setflag a b ∧ StoredEq Q1 Q a b) := by
  by_cases hs : P.setflag ij.1 ij.2 ≠ 0
  · refine ⟨{ Q with
        setflag := set2 Q.setflag ij.1 ij.2 (P.setflag ij.1 ij.2),
        epsilon := set2 Q.epsilon ij.1 ij.2 (P.epsilon ij.1 ij.2),
        sigma := set2 Q.sigma ij.1 ij.2 (P.sigma ij.1 ij.2),
        cut_lj := set2 Q.cut_lj ij.1 ij.2 (P.cut_lj ij.1 ij.2),
        cut_coul := set2 Q.cut_coul ij.1 ij.2 (P.cut_coul ij.1 ij.2) }, ?_, ?_, ?_, ?_, ?_⟩
    · simp [read_restart_body, write_restart_body, hs, fread_int, fread_double,
        read_restart_values, set2]
    · exact ⟨rfl, rfl, rfl⟩
    · simp [set2]
    · intro _
      simp [StoredEq, set2]
    · intro a b hab
      simp [StoredEq, set2, hab]
  · refine ⟨{ Q with setflag := set2 Q.setflag ij.1 ij.2 (P.setflag ij.1 ij.2) },
      ?_, ?_, ?_, ?_, ?_⟩
    · simp [read_restart_body, write_restart_body, hs, fread_int, set2]
    · exact ⟨rfl, rfl, rfl⟩
    · simp [set2]
    · intro h
      exact absurd h hs
    · intro a b hab
      simp [StoredEq, set2, hab]

/-- Reading back what the loop of `write_restart` wrote for a list of pairs:
the reads succeed and consume exactly those values; the pairs of the list get
the flags of the written table and, where set, its stored values; nothing else
changes. -/
theorem read_loop_written (P : Pair K) (L : List (Nat × Nat)) (Q : Pair K)
    (rest : List (Item K)) :
    ∃ R, L.foldlM read_restart_body
        (Q, L.flatMap (fun ij => write_restart_body P [] ij) ++ rest) = some (R, rest) ∧
      (R.cut_lj_global = Q.cut_lj_global ∧ R.cut_coul_global = Q.cut_coul_global ∧
        R.mix_flag = Q.mix_flag) ∧
      (∀ a b, (a, b) ∈ L →
        R.setflag a b = P.setflag a b ∧ (P.setflag a b ≠ 0 → StoredEq R P a b)) ∧
      (∀ a b, (a, b) ∉ L → R.setflag a b = Q.setflag a b ∧ StoredEq R Q a b) := by
  induction L generalizing Q with
  | nil =>
    refine ⟨Q, by simp, ⟨rfl, rfl, rfl⟩, ?_, ?_⟩
    · intro a b h
      exact absurd h (List.not_mem_nil _)
    · intro a b _
      exact ⟨rfl, rfl, rfl, rfl, rfl⟩
  | cons x L ih =>
    obtain ⟨Q1, hr, ⟨g1, g2, g3⟩, hfl, hst, hfr⟩ :=
      read_body_written P Q x (L.flatMap (fun ij => write_restart_body P [] ij) ++ rest)
    obtain ⟨R, hR, ⟨k1, k2, k3⟩, hin, hout⟩ := ih Q1
    refine ⟨R, ?_, ⟨k1.trans g1, k2.trans g2, k3.trans g3⟩, ?_, ?_⟩
    · rw [List.flatMap_cons, List.append_assoc, List.foldlM_cons, hr]
      exact hR
    · intro a b hmem
      by_cases hL : (a, b) ∈ L
      · exact hin a b hL
      · have hx : (a, b) = x := by
          rcases List.mem_cons.mp hmem with h | h
          · exact h
          · exact absurd h hL
        obtain ⟨o1, o2⟩ := hout a b hL
        subst hx
        refine ⟨o1.trans hfl, fun hne => ?_⟩
        obtain ⟨z1, z2, z3, z4⟩ := hst hne
        obtain ⟨w1, w2, w3, w4⟩ := o2
        exact ⟨w1.trans z1, w2.trans z2, w3.trans z3, w4.trans z4⟩
    · intro a b hmem
      have hL : (a, b) ∉ L := fun h => hmem (List.mem_cons_of_mem _ h)
      have hx : ¬ (a = x.1 ∧ b = x.2) := by
        rintro ⟨rfl, rfl⟩
        exact hmem (List.mem_cons_self _ _)
      obtain ⟨o1, w1, w2, w3, w4⟩ := hout a b hL
      obtain ⟨p1, z1, z2, z3, z4⟩ := hfr a b hx
      exact ⟨o1.trans p1, w1.trans z1, w2.trans z2, w3.trans z3, w4.trans z4⟩

end Commands

section SquaredCaches

variable {K : Type} [LinearOrderedField K]

/-! ### The caches `cut_ljsq` and `cut_coulsq` (C12) -/

/-- `init_one` changes neither the flags nor the scalar members. -/
theorem init_one_scalars (sqrt : K → K) (P : Pair K) (i j : Nat) :
    (init_one sqrt P i j).2.setflag = P.setflag ∧
    (init_one sqrt P i j).2.cut_lj_global = P.cut_lj_global ∧
    (init_one sqrt P i j).2.cut_coul_global = P.cut_coul_global ∧
    (init_one sqrt P i j).2.mix_flag = P.mix_flag := by
  by_cases h : P.setflag i j = 0 <;> simp [init_one, init_one_mix, h]

/-- The stored arrays after `init_one(i,j)` at `[i][j]`: mixed when the flag is
0, kept otherwise. -/
theorem init_one_stored_at (sqrt : K → K) (P : Pair K) (i j : Nat) :
    (init_one sqrt P i j).2.epsilon i j =
      (if P.setflag i j = 0 then
        mix_energy sqrt (P.epsilon i i) (P.epsilon j j) (P.sigma i i) (P.sigma j j)
      else P.epsilon i j) ∧
    (init_one sqrt P i j).2.sigma i j =
      (if P.setflag i j = 0 then mix_distance (P.sigma i i) (P.sigma j j)
      else P.sigma i j) ∧
    (init_one sqrt P i j).2.cut_lj i j =
      (if P.setflag i j = 0 then mix_distance (P.cut_lj i i) (P.cut_lj j j)
      else P.cut_lj i j) ∧
    (init_one sqrt P i j).2.cut_coul i j =
      (if P.setflag i j = 0 then mix_distance (P.cut_coul i i) (P.cut_coul j j)
      else P.cut_coul i j) := by
  by_cases h : P.setflag i j = 0 <;> simp [init_one, init_one_mix, h, set2]

/-- `init_one(i,j)` writes the stored arrays at `[i][j]` only. -/
theorem init_one_stored_frame (sqrt : K → K) (P : Pair K) (i j a b : Nat)
    (h : ¬ (a = i ∧ b = j)) :
    (init_one sqrt P i j).2.epsilon a b = P.epsilon a b ∧
    (init_one sqrt P i j).2.sigma a b = P.sigma a b ∧
    (init_one sqrt P i j).2.cut_lj a b = P.cut_lj a b ∧
    (init_one sqrt P i j).2.cut_coul a b = P.cut_coul a b := by
  by_cases hs : P.setflag i j = 0 <;> simp [init_one, init_one_mix, hs, set2, h]

/-- `init_one(i,j)` writes the derived arrays at `[i][j]` and `[j][i]` only. -/
theorem init_one_derived_frame (sqrt : K → K) (P : Pair K) (i j a b : Nat)
    (h1 : ¬ (a = i ∧ b = j)) (h2 : ¬ (a = j ∧ b = i)) :
    (init_one sqrt P i j).2.cut_ljsq a b = P.cut_ljsq a b ∧
    (init_one sqrt P i j).2.cut_coulsq a b = P.cut_coulsq a b ∧
    (init_one sqrt P i j).2.lj1 a b = P.lj1 a b ∧
    (init_one sqrt P i j).2.lj2 a b = P.lj2 a b ∧
    (init_one sqrt P i j).2.lj3 a b = P.lj3 a b ∧
    (init_one sqrt P i j).2.lj4 a b = P.lj4 a b := by
  by_cases hs : P.setflag i j = 0 <;> simp [init_one, init_one_mix, hs, set2, h1, h2]

/-- The derived arrays after `init_one(i,j)` at `[i][j]` and `[j][i]`, in terms of
the stored arrays after the call. -/
theorem init_one_derived_at (sqrt : K → K) (P : Pair K) (i j : Nat) :
    ((init_one sqrt P i j).2.cut_ljsq i j =
        (init_one sqrt P i j).2.cut_lj i j * (init_one sqrt P i j).2.cut_lj i j ∧
     (init_one sqrt P i j).2.cut_coulsq i j =
        (init_one sqrt P i j).2.cut_coul i j * (init_one sqrt P i j).2.cut_coul i j ∧
     (init_one sqrt P i j).2.lj1 i j =
        48 * (init_one sqrt P i j).2.epsilon i j * (init_one sqrt P i j).2.sigma i j ^ 12 ∧
     (init_one sqrt P i j).2.lj2 i j =
        24 * (init_one sqrt P i j).2.epsilon i j * (init_one sqrt P i j).2.sigma i j ^ 6 ∧
     (init_one sqrt P i j).2.lj3 i j =
        4 * (init_one sqrt P i j).2.epsilon i j * (init_one sqrt P i j).2.sigma i j ^ 12 ∧
     (init_one sqrt P i j).2.lj4 i j =
        4 * (init_one sqrt P i j).2.epsilon i j * (init_one sqrt P i j).2.sigma i j ^ 6) ∧
    ((init_one sqrt P i j).2.cut_ljsq j i = (init_one sqrt P i j).2.cut_ljsq i j ∧
     (init_one sqrt P i j).2.cut_coulsq j i = (init_one sqrt P i j).2.cut_coulsq i j ∧
     (init_one sqrt P i j).2.lj1 j i = (init_one sqrt P i j).2.lj1 i j ∧
     (init_one sqrt P i j).2.lj2 j i = (init_one sqrt P i j).2.lj2 i j ∧
     (init_one sqrt P i j).2.lj3 j i = (init_one sqrt P i j).2.lj3 i j ∧
     (init_one sqrt P i j).2.lj4 j i = (init_one sqrt P i j).2.lj4 i j) := by
  constructor
  · simp [init_one, set2]
  · by_cases h : i = j
    · subst h
      simp
    · have h1 : ¬ (i = j ∧ j = i) := fun hc => h hc.1
      simp [init_one, set2, h1]

/-- `init_one(i,j)` with `i ≤ j` keeps the squared caches of all pairs `a ≤ b`
consistent with the cutoffs. -/
theorem init_one_keeps_sq (sqrt : K → K) (P : Pair K) (ntypes i j : Nat) (hij : i ≤ j)
    (hP : ∀ a b, 1 ≤ a → a ≤ b → b ≤ ntypes →
      P.cut_ljsq a b = P.cut_lj a b ^ 2 ∧ P.cut_coulsq a b = P.cut_coul a b ^ 2) :
    ∀ a b, 1 ≤ a → a ≤ b → b ≤ ntypes →
      (init_one sqrt P i j).2.cut_ljsq a b = (init_one sqrt P i j).2.cut_lj a b ^ 2 ∧
      (init_one sqrt P i j).2.cut_coulsq a b = (init_one sqrt P i j).2.cut_coul a b ^ 2 := by
  intro a b ha hab hb
  by_cases h1 : a = i ∧ b = j
  · obtain ⟨rfl, rfl⟩ := h1
    obtain ⟨⟨e1, e2, _⟩, _⟩ := init_one_derived_at sqrt P a b
    rw [e1, e2]
    exact ⟨(sq _).symm, (sq _).symm⟩
  · have h2 : ¬ (a = j ∧ b = i) := by
      rintro ⟨rfl, rfl⟩
      exact h1 ⟨le_antisymm hab hij, le_antisymm hij hab⟩
    obtain ⟨d1, d2, _⟩ := init_one_derived_frame sqrt P i j a b h1 h2
    obtain ⟨_, _, s3, s4⟩ := init_one_stored_frame sqrt P i j a b h1
    rw [d1, d2, s3, s4]
    exact hP a b ha hab hb

/-- C12 (as amended): the predicate "for every type pair `1 ≤ a ≤ b ≤ ntypes`,
`cut_ljsq = cut_lj²` and `cut_coulsq = cut_coul²`" is preserved by `init_one(i,j)`
for every `i ≤ j`; `settings`, and `coeff` on an allocated table, write the
cutoffs but leave the arrays `cut_ljsq` and `cut_coulsq` as they were. -/
theorem sq_caches_invariant (sqrt : K → K) (P : Pair K) (ntypes : Nat) :
    (∀ i j, i ≤ j →
      (∀ a b, 1 ≤ a → a ≤ b → b ≤ ntypes →
        P.cut_ljsq a b = P.cut_lj a b ^ 2 ∧ P.cut_coulsq a b = P.cut_coul a b ^ 2) →
      ∀ a b, 1 ≤ a → a ≤ b → b ≤ ntypes →
        (init_one sqrt P i j).2.cut_ljsq a b = (init_one sqrt P i j).2.cut_lj a b ^ 2 ∧
        (init_one sqrt P i j).2.cut_coulsq a b = (init_one sqrt P i j).2.cut_coul a b ^ 2) ∧
    (∀ narg arg,
      (settings P ntypes narg arg).state.cut_ljsq = P.cut_ljsq ∧
      (settings P ntypes narg arg).state.cut_coulsq = P.cut_coulsq) ∧
    (∀ fresh narg ilo ihi jlo jhi arg, P.allocated ≠ 0 →
      (coeff P fresh ntypes narg ilo ihi jlo jhi arg).state.cut_ljsq = P.cut_ljsq ∧
      (coeff P fresh ntypes narg ilo ihi jlo jhi arg).state.cut_coulsq = P.cut_coulsq) :=
  ⟨fun i j hij hP => init_one_keeps_sq sqrt P ntypes i j hij hP,
   fun narg arg => settings_keeps_sq P ntypes narg arg,
   fun fresh narg ilo ihi jlo jhi arg ha =>
     coeff_keeps_sq P fresh ntypes narg ilo ihi jlo jhi arg ha⟩

end SquaredCaches

section Restart

variable {K : Type} [LinearOrderedField K]

/-! ### Finalizing a restored table (C17) -/

/-- One pass of the finalizing loop keeps two tables with the same explicit
settings in step: the settings stay the same, the pair just finalized agrees,
and every pair that agreed before still agrees. -/
theorem init_one_lockstep (sqrt : K → K) (n i j : Nat) (A B : Pair K)
    (hi : 1 ≤ i) (hij : i ≤ j) (hj : j ≤ n)
    (hset : SameSettings A B n) (hdiag : ∀ a, 1 ≤ a → a ≤ n → B.setflag a a ≠ 0) :
    SameSettings (init_one sqrt A i j).2 (init_one sqrt B i j).2 n ∧
    (∀ a, 1 ≤ a → a ≤ n → (init_one sqrt B i j).2.setflag a a ≠ 0) ∧
    AgreeAt (init_one sqrt A i j).2 (init_one sqrt B i j).2 i j ∧
    (∀ a b, a ≤ b → AgreeAt A B a b →
      AgreeAt (init_one sqrt A i j).2 (init_one sqrt B i j).2 a b) := by
  obtain ⟨fA, _, _, _⟩ := init_one_scalars sqrt A i j
  obtain ⟨fB, _, _, _⟩ := init_one_scalars sqrt B i j
  obtain ⟨a1, a2, a3, a4⟩ := init_one_stored_at sqrt A i j
  obtain ⟨b1, b2, b3, b4⟩ := init_one_stored_at sqrt B i j
  obtain ⟨hfl, hst⟩ := hset i j hi hij hj
  -- the stored arrays at `[i][j]` agree after the pass
  have hstored : StoredEq (init_one sqrt A i j).2 (init_one sqrt B i j).2 i j := by
    unfold StoredEq
    rw [a1, a2, a3, a4, b1, b2, b3, b4, hfl]
    by_cases hs : B.setflag i j = 0
    · simp only [if_pos hs]
      obtain ⟨_, hii⟩ := hset i i hi (le_refl i) (le_trans hij hj)
      obtain ⟨_, hjj⟩ := hset j j (le_trans hi hij) (le_refl j) hj
      obtain ⟨e1, e2, e3, e4⟩ := hii (hdiag i hi (le_trans hij hj))
      obtain ⟨g1, g2, g3, g4⟩ := hjj (hdiag j (le_trans hi hij) hj)
      rw [e1, e2, e3, e4, g1, g2, g3, g4]
      exact ⟨rfl, rfl, rfl, rfl⟩
    · simp only [if_neg hs]
      exact hst hs
  have hagree : AgreeAt (init_one sqrt A i j).2 (init_one sqrt B i j).2 i j := by
    obtain ⟨s1, s2, s3, s4⟩ := hstored
    obtain ⟨⟨p1, p2, p3, p4, p5, p6⟩, ⟨q1, q2, q3, q4, q5, q6⟩⟩ :=
      init_one_derived_at sqrt A i j
    obtain ⟨⟨u1, u2, u3, u4, u5, u6⟩, ⟨v1, v2, v3, v4, v5, v6⟩⟩ :=
      init_one_derived_at sqrt B i j
    refine ⟨⟨s1, s2, s3, s4⟩, ?_, ?_⟩
    · unfold DerivedEq
      rw [p1, p2, p3, p4, p5, p6, u1, u2, u3, u4, u5, u6, s1, s2, s3, s4]
      exact ⟨rfl, rfl, rfl, rfl, rfl, rfl⟩
    · unfold DerivedEq
      rw [q1, q2, q3, q4, q5, q6, v1, v2, v3, v4, v5, v6,
        p1, p2, p3, p4, p5, p6, u1, u2, u3, u4, u5, u6, s1, s2, s3, s4]
      exact ⟨rfl, rfl, rfl, rfl, rfl, rfl⟩
  refine ⟨?_, ?_, hagree, ?_⟩
  · intro a b ha hab hb
    rw [fA, fB]
    obtain ⟨hf, hs⟩ := hset a b ha hab hb
    refine ⟨hf, fun hne => ?_⟩
    by_cases h1 : a = i ∧ b = j
    · obtain ⟨rfl, rfl⟩ := h1
      exact hstored
    · obtain ⟨x1, x2, x3, x4⟩ := init_one_stored_frame sqrt A i j a b h1
      obtain ⟨y1, y2, y3, y4⟩ := init_one_stored_frame sqrt B i j a b h1
      obtain ⟨z1, z2, z3, z4⟩ := hs hne
      unfold StoredEq
      rw [x1, x2, x3, x4, y1, y2, y3, y4]
      exact ⟨z1, z2, z3, z4⟩
  · intro a ha han
    rw [fB]
    exact hdiag a ha han
  · intro a b hab hAB
    by_cases h1 : a = i ∧ b = j
    · obtain ⟨rfl, rfl⟩ := h1
      exact hagree
    · have h2 : ¬ (a = j ∧ b = i) := by
        rintro ⟨rfl, rfl⟩
        exact h1 ⟨le_antisymm hab hij, le_antisymm hij hab⟩
      have h3 : ¬ (b = i ∧ a = j) := fun h => h2 ⟨h.2, h.1⟩
      have h4 : ¬ (b = j ∧ a = i) := fun h => h1 ⟨h.2, h.1⟩
      obtain ⟨⟨z1, z2, z3, z4⟩, ⟨c1, c2, c3, c4, c5, c6⟩, ⟨d1, d2, d3, d4, d5, d6⟩⟩ := hAB
      obtain ⟨x1, x2, x3, x4⟩ := init_one_stored_frame sqrt A i j a b h1
      obtain ⟨y1, y2, y3, y4⟩ := init_one_stored_frame sqrt B i j a b h1
      obtain ⟨m1, m2, m3, m4, m5, m6⟩ := init_one_derived_frame sqrt A i j a b h1 h2
      obtain ⟨n1, n2, n3, n4, n5, n6⟩ := init_one_derived_frame sqrt B i j a b h1 h2
      obtain ⟨r1, r2, r3, r4, r5, r6⟩ := init_one_derived_frame sqrt A i j b a h3 h4
      obtain ⟨t1, t2, t3, t4, t5, t6⟩ := init_one_derived_frame sqrt B i j b a h3 h4
      refine ⟨?_, ?_, ?_⟩
      · unfold StoredEq
        rw [x1, x2, x3, x4, y1, y2, y3, y4]
        exact ⟨z1, z2, z3, z4⟩
      · unfold DerivedEq
        rw [m1, m2, m3, m4, m5, m6, n1, n2, n3, n4, n5, n6]
        exact ⟨c1, c2, c3, c4, c5, c6⟩
      · unfold DerivedEq
        rw [r1, r2, r3, r4, r5, r6, t1, t2, t3, t4, t5, t6]
        exact ⟨d1, d2, d3, d4, d5, d6⟩

/-- Finalizing a list of pairs on two tables with the same explicit settings
leaves them in agreement on every pair of the list. -/
theorem init_loop_lockstep (sqrt : K → K) (n : Nat) (L : List (Nat × Nat))
    (hL : ∀ ij ∈ L, 1 ≤ ij.1 ∧ ij.1 ≤ ij.2 ∧ ij.2 ≤ n) (A B : Pair K)
    (hset : SameSettings A B n) (hdiag : ∀ a, 1 ≤ a → a ≤ n → B.setflag a a ≠ 0) :
    (∀ ij ∈ L, AgreeAt (L.foldl (fun Q ij => (init_one sqrt Q ij.1 ij.2).2) A)
        (L.foldl (fun Q ij => (init_one sqrt Q ij.1 ij.2).2) B) ij.1 ij.2) ∧
    (∀ a b, a ≤ b → AgreeAt A B a b →
      AgreeAt (L.foldl (fun Q ij => (init_one sqrt Q ij.1 ij.2).2) A)
        (L.foldl (fun Q ij => (init_one sqrt Q ij.1 ij.2).2) B) a b) := by
  induction L generalizing A B with
  | nil => exact ⟨fun ij h => absurd h (List.not_mem_nil ij), fun a b _ h => h⟩
  | cons x L ih =>
    obtain ⟨hx1, hx2, hx3⟩ := hL x (List.mem_cons_self _ _)
    obtain ⟨s1, s2, s3, s4⟩ := init_one_lockstep sqrt n x.1 x.2 A B hx1 hx2 hx3 hset hdiag
    obtain ⟨ih1, ih2⟩ := ih (fun ij h => hL ij (List.mem_cons_of_mem _ h)) _ _ s1 s2
    simp only [List.foldl_cons]
    refine ⟨?_, ?_⟩
    · intro ij hmem
      rcases List.mem_cons.mp hmem with h | h
      · subst h
        exact ih2 _ _ hx2 s3
      · exact ih1 ij h
    · intro a b hab hAB
      exact ih2 a b hab (s4 a b hab hAB)

/-- C17 (as amended): reading with `read_restart` the values `write_restart`
wrote succeeds and consumes them all; it restores `cut_lj_global`,
`cut_coul_global`, `mix_flag`, the flag of every pair `1 ≤ i ≤ j ≤ ntypes` and
the stored values of every explicitly set pair, whatever the object and the
fresh storage were before. If moreover every diagonal pair `(i,i)` of the
written table is explicitly set, then finalizing every pair `i ≤ j` of the
restored table and of the written table gives tables that agree, for every
`1 ≤ i ≤ j ≤ ntypes`, on the stored arrays at `[i][j]` and on the derived arrays
at `[i][j]` and `[j][i]`. -/
theorem restart_round_trip (sqrt : K → K) (P Q fresh : Pair K) (ntypes : Nat) :
    ∃ R, read_restart Q fresh ntypes (write_restart P ntypes []) = some (R, []) ∧
      R.cut_lj_global = P.cut_lj_global ∧ R.cut_coul_global = P.cut_coul_global ∧
      R.mix_flag = P.mix_flag ∧
      (∀ i j, 1 ≤ i → i ≤ j → j ≤ ntypes →
        R.setflag i j = P.setflag i j ∧ (P.setflag i j ≠ 0 → StoredEq R P i j)) ∧
      ((∀ i, 1 ≤ i → i ≤ ntypes → P.setflag i i ≠ 0) →
        ∀ i j, 1 ≤ i → i ≤ j → j ≤ ntypes →
          AgreeAt (init_all sqrt R ntypes) (init_all sqrt P ntypes) i j) := by
  obtain ⟨R, hR, ⟨k1, k2, k3⟩, hin, _⟩ := read_loop_written P
    (loop2 1 ntypes (fun i => i) ntypes)
    (allocate { Q with cut_lj_global := P.cut_lj_global,
                       cut_coul_global := P.cut_coul_global,
                       mix_flag := P.mix_flag } fresh ntypes) []
  obtain ⟨a1, a2, a3⟩ := allocate_scalars
    { Q with cut_lj_global := P.cut_lj_global, cut_coul_global := P.cut_coul_global,
             mix_flag := P.mix_flag } fresh ntypes
  have hmem : ∀ i j, 1 ≤ i → i ≤ j → j ≤ ntypes →
      (i, j) ∈ loop2 1 ntypes (fun i => i) ntypes := fun i j h1 h2 h3 =>
    (mem_loop2 _ _ _ _ _ _).mpr ⟨h1, le_trans h2 h3, h2, h3⟩
  have hsame : ∀ i j, 1 ≤ i → i ≤ j → j ≤ ntypes →
      R.setflag i j = P.setflag i j ∧ (P.setflag i j ≠ 0 → StoredEq R P i j) :=
    fun i j h1 h2 h3 => hin i j (hmem i j h1 h2 h3)
  refine ⟨R, ?_, k1.trans a1, k2.trans a2, k3.trans a3, hsame, ?_⟩
  · rw [List.append_nil] at hR
    simp only [write_restart, write_restart_settings, write_loop_eq, List.nil_append,
      read_restart, read_restart_settings, fread_double, fread_int, List.cons_append]
    exact hR
  · intro hdiag i j h1 h2 h3
    have hL : ∀ ij ∈ loop2 1 ntypes (fun i => i) ntypes,
        1 ≤ ij.1 ∧ ij.1 ≤ ij.2 ∧ ij.2 ≤ ntypes := by
      rintro ⟨a, b⟩ hab
      obtain ⟨u1, _, u3, u4⟩ := (mem_loop2 _ _ _ _ _ _).mp hab
      exact ⟨u1, u3, u4⟩
    exact (init_loop_lockstep sqrt ntypes _ hL R P hsame hdiag).1 (i, j) (hmem i j h1 h2 h3)

end Restart

section Gating

variable {K : Type} [LinearOrderedField K]

/-! ### Gating by charges, dipole flags and cutoffs (C14, C16) -/

end Gating

section Balance

variable {K : Type} [LinearOrderedField K]

/-! ### Angular-momentum balance (C20) -/

/-- The zero term is balanced. -/
theorem balanced_zero (x y z : K) : (CoulTerm.zero : CoulTerm K).balanced x y z := by
  simp [CoulTerm.balanced, CoulTerm.zero]

/-- Accumulating two balanced terms gives a balanced term. -/
theorem balanced_add (a b : CoulTerm K) (x y z : K) (ha : a.balanced x y z)
    (hb : b.balanced x y z) : (a.add b).balanced x y z := by
  obtain ⟨a1, a2, a3⟩ := ha
  obtain ⟨b1, b2, b3⟩ := hb
  refine ⟨?_, ?_, ?_⟩ <;> simp only [CoulTerm.add]
  · linear_combination a1 + b1
  · linear_combination a2 + b2
  · linear_combination a3 + b3

/-- The charge-charge block is balanced: a central force and no torque. -/
theorem balanced_charge_charge (sqrt : K → K) (c qtmp qj x y z : K) :
    (charge_charge sqrt c qtmp qj x y z).balanced x y z := by
  refine ⟨?_, ?_, ?_⟩ <;> simp only [charge_charge] <;> ring

/-- The dipole-dipole block is balanced. -/
theorem balanced_dipole_dipole (sqrt : K → K) (c : K) (mui muj : Nat → K) (x y z : K) :
    (dipole_dipole sqrt c mui muj x y z).balanced x y z := by
  refine ⟨?_, ?_, ?_⟩ <;> simp only [dipole_dipole] <;> ring

/-- The dipole-charge block is balanced. -/
theorem balanced_dipole_charge (sqrt : K → K) (c qj : K) (mui : Nat → K) (x y z : K) :
    (dipole_charge sqrt c qj mui x y z).balanced x y z := by
  refine ⟨?_, ?_, ?_⟩ <;> simp only [dipole_charge] <;> ring

/-- The charge-dipole block is balanced. -/
theorem balanced_charge_dipole (sqrt : K → K) (c qtmp : K) (muj : Nat → K) (x y z : K) :
    (charge_dipole sqrt c qtmp muj x y z).balanced x y z := by
  refine ⟨?_, ?_, ?_⟩ <;> simp only [charge_dipole] <;> ring

/-- The accumulators of the Coulomb family are balanced, whichever blocks run. -/
theorem balanced_coulomb (sqrt : K → K) (c qtmp qj : K) (mui muj : Nat → K) (x y z : K) :
    (coulomb sqrt c qtmp qj mui muj x y z).balanced x y z := by
  unfold coulomb
  dsimp only
  split_ifs <;>
    first
    | exact balanced_zero x y z
    | repeat (first
        | exact balanced_zero x y z
        | exact balanced_charge_charge sqrt c qtmp qj x y z
        | exact balanced_dipole_dipole sqrt c mui muj x y z
        | exact balanced_dipole_charge sqrt c qj mui x y z
        | exact balanced_charge_dipole sqrt c qtmp muj x y z
        | apply balanced_add)

/-- C20: angular-momentum balance of the per-pair body of `compute`: with
`T_i = fq*(tixcoul, tiycoul, tizcoul)`, `T_j = fq*(tjxcoul, tjycoul, tjzcoul)`,
`F = (fx, fy, fz)` and `del = (delx, dely, delz)`, every component of
`T_i + T_j + del × F` is zero, for all charges, dipole rows, flags, separations
and table entries. -/
theorem angular_momentum_balance (sqrt : K → K) (P : Pair K) (itype jtype : Nat)
    (qtmp qj : K) (mui muj : Nat → K) (delx dely delz factor_lj factor_coul qqrd2e : K)
    (eflag : Int) :
    (pair_body sqrt P itype jtype qtmp qj mui muj delx dely delz factor_lj factor_coul
          qqrd2e eflag).fq *
        (pair_body sqrt P itype jtype qtmp qj mui muj delx dely delz factor_lj factor_coul
          qqrd2e eflag).coul.tixcoul +
      (pair_body sqrt P itype jtype qtmp qj mui muj delx dely delz factor_lj factor_coul
          qqrd2e eflag).fq *
        (pair_body sqrt P itype jtype qtmp qj mui muj delx dely delz factor_lj factor_coul
          qqrd2e eflag).coul.tjxcoul +
      (dely * (pair_body sqrt P itype jtype qtmp qj mui muj delx dely delz factor_lj
          factor_coul qqrd2e eflag).fz -
        delz * (pair_body sqrt P itype jtype qtmp qj mui muj delx dely delz factor_lj
          factor_coul qqrd2e eflag).fy) = 0 ∧
    (pair_body sqrt P itype jtype qtmp qj mui muj delx dely delz factor_lj factor_coul
          qqrd2e eflag).fq *
        (pair_body sqrt P itype jtype qtmp qj mui muj delx dely delz factor_lj factor_coul
          qqrd2e eflag).coul.tiycoul +
      (pair_body sqrt P itype jtype qtmp qj mui muj delx dely delz factor_lj factor_coul
          qqrd2e eflag).fq *
        (pair_body sqrt P itype jtype qtmp qj mui muj delx dely delz factor_lj factor_coul
          qqrd2e eflag).coul.tjycoul +
      (delz * (pair_body sqrt P itype jtype qtmp qj mui muj delx dely delz factor_lj
          factor_coul qqrd2e eflag).fx -
        delx * (pair_body sqrt P itype jtype qtmp qj mui muj delx dely delz factor_lj
          factor_coul qqrd2e eflag).fz) = 0 ∧
    (pair_body sqrt P itype jtype qtmp qj mui muj delx dely delz factor_lj factor_coul
          qqrd2e eflag).fq *
        (pair_body sqrt P itype jtype qtmp qj mui muj delx dely delz factor_lj factor_coul
          qqrd2e eflag).coul.tizcoul +
      (pair_body sqrt P itype jtype qtmp qj mui muj delx dely delz factor_lj factor_coul
          qqrd2e eflag).fq *
        (pair_body sqrt P itype jtype qtmp qj mui muj delx dely delz factor_lj factor_coul
          qqrd2e eflag).coul.tjzcoul +
      (delx * (pair_body sqrt P itype jtype qtmp qj mui muj delx dely delz factor_lj
          factor_coul qqrd2e eflag).fy -
        dely * (pair_body sqrt P itype jtype qtmp qj mui muj delx dely delz factor_lj
          factor_coul qqrd2e eflag).fx) = 0 := by
  obtain ⟨h1, h2, h3⟩ := balanced_coulomb sqrt (P.cut_coulsq itype jtype) qtmp qj mui muj
    delx dely delz
  simp only [pair_body]
  generalize coulomb sqrt (P.cut_coulsq itype jtype) qtmp qj mui muj delx dely delz = t
    at h1 h2 h3 ⊢
  refine ⟨?_, ?_, ?_⟩
  · linear_combination (factor_coul * qqrd2e) * h1
  · linear_combination (factor_coul * qqrd2e) * h2
  · linear_combination (factor_coul * qqrd2e) * h3

end Balance

section Exchange

variable {K : Type} [LinearOrderedField K]

/-! ### Exchanging the two particles of a pair (C19) -/

/-- The charge-charge block seen from the other particle. -/
theorem charge_charge_exchange (sqrt : K → K) (c qi qj x y z : K) :
    charge_charge sqrt c qj qi (-x) (-y) (-z) =
      (charge_charge sqrt c qi qj x y z).exchange := by
  simp only [charge_charge, CoulTerm.exchange, neg_mul_neg, CoulTerm.mk.injEq]
  refine ⟨?_, ?_, ?_, ?_, ?_, ?_, ?_, ?_, ?_⟩ <;> first | trivial | ring

/-- The dipole-dipole block seen from the other particle. -/
theorem dipole_dipole_exchange (sqrt : K → K) (c : K) (mui muj : Nat → K) (x y z : K) :
    dipole_dipole sqrt c muj mui (-x) (-y) (-z) =
      (dipole_dipole sqrt c mui muj x y z).exchange := by
  simp only [dipole_dipole, CoulTerm.exchange, neg_mul_neg, CoulTerm.mk.injEq]
  refine ⟨?_, ?_, ?_, ?_, ?_, ?_, ?_, ?_, ?_⟩ <;> first | trivial | ring

/-- The dipole-charge block of the exchanged pair is the charge-dipole block of the
pair, seen from the other particle. -/
theorem dipole_charge_exchange (sqrt : K → K) (c q : K) (mu : Nat → K) (x y z : K) :
    dipole_charge sqrt c q mu (-x) (-y) (-z) =
      (charge_dipole sqrt c q mu x y z).exchange := by
  simp only [dipole_charge, charge_dipole, CoulTerm.exchange, neg_mul_neg, CoulTerm.mk.injEq,
    pqfac, qpfac]
  refine ⟨?_, ?_, ?_, ?_, ?_, ?_, ?_, ?_, ?_⟩ <;> first | trivial | ring

/-- The charge-dipole block of the exchanged pair is the dipole-charge block of the
pair, seen from the other particle. -/
theorem charge_dipole_exchange (sqrt : K → K) (c q : K) (mu : Nat → K) (x y z : K) :
    charge_dipole sqrt c q mu (-x) (-y) (-z) =
      (dipole_charge sqrt c q mu x y z).exchange := by
  simp only [dipole_charge, charge_dipole, CoulTerm.exchange, neg_mul_neg, CoulTerm.mk.injEq,
    pqfac, qpfac]
  refine ⟨?_, ?_, ?_, ?_, ?_, ?_, ?_, ?_, ?_⟩ <;> first | trivial | ring

/-- The zero term seen from the other particle is the zero term. -/
theorem exchange_zero : (CoulTerm.zero : CoulTerm K).exchange = CoulTerm.zero := by
  simp [CoulTerm.exchange, CoulTerm.zero]

/-- Exchanging the particles commutes with accumulation. -/
theorem exchange_add (a b : CoulTerm K) :
    (a.add b).exchange = a.exchange.add b.exchange := by
  simp only [CoulTerm.add, CoulTerm.exchange, CoulTerm.mk.injEq]
  refine ⟨?_, ?_, ?_, ?_, ?_, ?_, ?_, ?_, ?_⟩ <;> first | trivial | ring

/-- The order in which two terms are accumulated does not matter. -/
theorem add_right_comm_term (a b c : CoulTerm K) : (a.add b).add c = (a.add c).add b := by
  simp only [CoulTerm.add, CoulTerm.mk.injEq]
  refine ⟨?_, ?_, ?_, ?_, ?_, ?_, ?_, ?_, ?_⟩ <;> first | trivial | ring

/-- The four guarded accumulations of the exchanged pair, where the last two blocks
run in the other order, give the accumulators of the pair seen from the other
particle. -/
theorem exchange_sum (t1 t2 t3 t4 : CoulTerm K) (g1 g2 g3 g4 : Prop) [Decidable g1]
    [Decidable g2] [Decidable g3] [Decidable g4] :
    (if g3 then
        (if g4 then
          (if g2 then (if g1 then (CoulTerm.zero).add t1.exchange else CoulTerm.zero).add
              t2.exchange
            else (if g1 then (CoulTerm.zero).add t1.exchange else CoulTerm.zero)).add
            t4.exchange
          else (if g2 then
            (if g1 then (CoulTerm.zero).add t1.exchange else CoulTerm.zero).add t2.exchange
            else (if g1 then (CoulTerm.zero).add t1.exchange else CoulTerm.zero))).add
          t3.exchange
      else
        (if g4 then
          (if g2 then (if g1 then (CoulTerm.zero).add t1.exchange else CoulTerm.zero).add
              t2.exchange
            else (if g1 then (CoulTerm.zero).add t1.exchange else CoulTerm.zero)).add
            t4.exchange
          else (if g2 then
            (if g1 then (CoulTerm.zero).add t1.exchange else CoulTerm.zero).add t2.exchange
            else (if g1 then (CoulTerm.zero).add t1.exchange else CoulTerm.zero)))) =
    (if g4 then
        (if g3 then
          (if g2 then (if g1 then (CoulTerm.zero).add t1 else CoulTerm.zero).add t2
            else (if g1 then (CoulTerm.zero).add t1 else CoulTerm.zero)).add t3
          else (if g2 then (if g1 then (CoulTerm.zero).add t1 else CoulTerm.zero).add t2
            else (if g1 then (CoulTerm.zero).add t1 else CoulTerm.zero))).add t4
      else
        (if g3 then
          (if g2 then (if g1 then (CoulTerm.zero).add t1 else CoulTerm.zero).add t2
            else (if g1 then (CoulTerm.zero).add t1 else CoulTerm.zero)).add t3
          else (if g2 then (if g1 then (CoulTerm.zero).add t1 else CoulTerm.zero).add t2
            else (if g1 then (CoulTerm.zero).add t1 else CoulTerm.zero)))).exchange := by
  by_cases h1 : g1 <;> by_cases h2 : g2 <;> by_cases h3 : g3 <;> by_cases h4 : g4 <;>
    simp only [h1, h2, h3, h4, if_true, if_false, exchange_add, exchange_zero] <;>
    exact add_right_comm_term _ _ _

/-- The Coulomb accumulators of the exchanged pair. -/
theorem coulomb_exchange (sqrt : K → K) (c qi qj : K) (mui muj : Nat → K) (x y z : K) :
    coulomb sqrt c qj qi muj mui (-x) (-y) (-z) =
      (coulomb sqrt c qi qj mui muj x y z).exchange := by
  have h := exchange_sum (charge_charge sqrt c qi qj x y z)
    (dipole_dipole sqrt c mui muj x y z) (dipole_charge sqrt c qj mui x y z)
    (charge_dipole sqrt c qi muj x y z) (qi ≠ 0 ∧ qj ≠ 0) (mui 3 > 0 ∧ muj 3 > 0)
    (mui 3 > 0 ∧ qj ≠ 0) (muj 3 > 0 ∧ qi ≠ 0)
  unfold coulomb
  simp only [neg_mul_neg, charge_charge_exchange, dipole_dipole_exchange,
    dipole_charge_exchange, charge_dipole_exchange]
  by_cases hc : x * x + y * y + z * z < c
  · simp only [hc, if_true]
    simp only [and_comm (a := qj ≠ 0), and_comm (a := muj 3 > 0) (b := mui 3 > 0)]
    exact h
  · simp [hc, CoulTerm.exchange, CoulTerm.zero]

/-- The charge-charge energy does not depend on the order of the pair. -/
theorem energy_charge_charge_exchange (sqrt : K → K) (c qi qj x y z : K) :
    energy_charge_charge sqrt c qj qi (-x) (-y) (-z) =
      energy_charge_charge sqrt c qi qj x y z := by
  simp only [energy_charge_charge, neg_mul_neg]
  ring

/-- The dipole-dipole energy does not depend on the order of the pair. -/
theorem energy_dipole_dipole_exchange (sqrt : K → K) (c : K) (mui muj : Nat → K)
    (x y z : K) :
    energy_dipole_dipole sqrt c muj mui (-x) (-y) (-z) =
      energy_dipole_dipole sqrt c mui muj x y z := by
  simp only [energy_dipole_dipole, neg_mul_neg]
  ring

/-- The dipole-charge energy of the exchanged pair is the charge-dipole energy of
the pair. -/
theorem energy_dipole_charge_exchange (sqrt : K → K) (c q : K) (mu : Nat → K) (x y z : K) :
    energy_dipole_charge sqrt c q mu (-x) (-y) (-z) =
      energy_charge_dipole sqrt c q mu x y z := by
  simp only [energy_dipole_charge, energy_charge_dipole, neg_mul_neg, pqfac, qpfac]
  ring

/-- The charge-dipole energy of the exchanged pair is the dipole-charge energy of
the pair. -/
theorem energy_charge_dipole_exchange (sqrt : K → K) (c q : K) (mu : Nat → K) (x y z : K) :
    energy_charge_dipole sqrt c q mu (-x) (-y) (-z) =
      energy_dipole_charge sqrt c q mu x y z := by
  simp only [energy_dipole_charge, energy_charge_dipole, neg_mul_neg, pqfac, qpfac]
  ring

/-- The variable `ecoul` does not depend on the order of the pair. -/
theorem ecoul_exchange (sqrt : K → K) (c qi qj : K) (mui muj : Nat → K) (x y z fc qq : K) :
    ecoul sqrt c qj qi muj mui (-x) (-y) (-z) fc qq =
      ecoul sqrt c qi qj mui muj x y z fc qq := by
  unfold ecoul
  simp only [neg_mul_neg, energy_charge_charge_exchange, energy_dipole_dipole_exchange,
    energy_dipole_charge_exchange, energy_charge_dipole_exchange]
  generalize energy_charge_charge sqrt c qi qj x y z = e1
  generalize energy_dipole_dipole sqrt c mui muj x y z = e2
  generalize energy_dipole_charge sqrt c qj mui x y z = e3
  generalize energy_charge_dipole sqrt c qi muj x y z = e4
  by_cases hc : x * x + y * y + z * z < c
  · simp only [hc, if_true]
    by_cases h1 : mui 3 > 0 <;> by_cases h2 : muj 3 > 0 <;> by_cases h3 : qi = 0 <;>
      by_cases h4 : qj = 0 <;>
      (simp only [h1, h2, h3, h4, ne_eq, not_true_eq_false, not_false_eq_true, and_self,
        and_true, and_false, true_and, false_and, if_true, if_false]; first | done | ring)
  · simp only [hc, if_false]

/-- C19: for a table whose derived fields `cut_coulsq`, `cut_ljsq`, `lj1..lj4` are
symmetric at the type pair of two atoms, evaluating the per-pair body with the
two atoms exchanged gives the negated force `(fx,fy,fz)`, the same `fq`, the two
torque contributions exchanged (the i-torque of one evaluation is the j-torque
of the other), and the same `ecoul` and `evdwl`. -/
theorem exchange_antisymmetry (sqrt : K → K) (P : Pair K) (A : Atom K) (F : Force K)
    (eflag : Int) (i j sb : Nat)
    (hcoul : P.cut_coulsq (A.type j) (A.type i) = P.cut_coulsq (A.type i) (A.type j))
    (hlj : P.cut_ljsq (A.type j) (A.type i) = P.cut_ljsq (A.type i) (A.type j))
    (h1 : P.lj1 (A.type j) (A.type i) = P.lj1 (A.type i) (A.type j))
    (h2 : P.lj2 (A.type j) (A.type i) = P.lj2 (A.type i) (A.type j))
    (h3 : P.lj3 (A.type j) (A.type i) = P.lj3 (A.type i) (A.type j))
    (h4 : P.lj4 (A.type j) (A.type i) = P.lj4 (A.type i) (A.type j)) :
    ((pair_record sqrt P A F eflag j i sb).fx = -(pair_record sqrt P A F eflag i j sb).fx ∧
      (pair_record sqrt P A F eflag j i sb).fy = -(pair_record sqrt P A F eflag i j sb).fy ∧
      (pair_record sqrt P A F eflag j i sb).fz = -(pair_record sqrt P A F eflag i j sb).fz) ∧
    ((pair_record sqrt P A F eflag j i sb).fq = (pair_record sqrt P A F eflag i j sb).fq ∧
      (pair_record sqrt P A F eflag j i sb).coul.tixcoul =
        (pair_record sqrt P A F eflag i j sb).coul.tjxcoul ∧
      (pair_record sqrt P A F eflag j i sb).coul.tiycoul =
        (pair_record sqrt P A F eflag i j sb).coul.tjycoul ∧
      (pair_record sqrt P A F eflag j i sb).coul.tizcoul =
        (pair_record sqrt P A F eflag i j sb).coul.tjzcoul ∧
      (pair_record sqrt P A F eflag j i sb).coul.tjxcoul =
        (pair_record sqrt P A F eflag i j sb).coul.tixcoul ∧
      (pair_record sqrt P A F eflag j i sb).coul.tjycoul =
        (pair_record sqrt P A F eflag i j sb).coul.tiycoul ∧
      (pair_record sqrt P A F eflag j i sb).coul.tjzcoul =
        (pair_record sqrt P A F eflag i j sb).coul.tizcoul) ∧
    (pair_record sqrt P A F eflag j i sb).ecoul = (pair_record sqrt P A F eflag i j sb).ecoul ∧
    (pair_record sqrt P A F eflag j i sb).evdwl = (pair_record sqrt P A F eflag i j sb).evdwl := by
  have hx : A.x j 0 - A.x i 0 = -(A.x i 0 - A.x j 0) := (neg_sub _ _).symm
  have hy : A.x j 1 - A.x i 1 = -(A.x i 1 - A.x j 1) := (neg_sub _ _).symm
  have hz : A.x j 2 - A.x i 2 = -(A.x i 2 - A.x j 2) := (neg_sub _ _).symm
  simp only [pair_record, pair_body, hx, hy, hz, hcoul, hlj, h1, h2, h3, h4, neg_mul_neg,
    coulomb_exchange, ecoul_exchange, CoulTerm.exchange]
  refine ⟨⟨?_, ?_, ?_⟩, ⟨?_, ?_, ?_, ?_, ?_, ?_, ?_⟩, ?_, ?_⟩ <;> first | trivial | rfl | ring

end Exchange

section Scenario

/-! ### Smoothing factors in closed form and the two-charge scenario (C18, C15) -/

/-- C18: over the reals, for `r > 0` and `rc > 0`, with `rsq = r^2` and
`rcutcoul2inv = 1/rc^2`, the square-root form of `bfac` equals
`1 - 4*(r/rc)^3 + 3*(r/rc)^4`, `afac` equals `1 - (r/rc)^4`, and `pqfac` and
`qpfac` equal `1 - 3*(r/rc)^2 + 2*(r/rc)^3`. -/
theorem smoothing_factors_closed (r rc : ℝ) (hr : 0 < r) (hrc : 0 < rc) :
    bfac Real.sqrt (r ^ 2) (1 / rc ^ 2) = 1 - 4 * (r / rc) ^ 3 + 3 * (r / rc) ^ 4 ∧
    afac (r ^ 2) (1 / rc ^ 2) = 1 - (r / rc) ^ 4 ∧
    pqfac Real.sqrt (r ^ 2) (1 / rc ^ 2) = 1 - 3 * (r / rc) ^ 2 + 2 * (r / rc) ^ 3 ∧
    qpfac Real.sqrt (r ^ 2) (1 / rc ^ 2) = 1 - 3 * (r / rc) ^ 2 + 2 * (r / rc) ^ 3 := by
  have h1 : Real.sqrt (r ^ 2) = r := Real.sqrt_sq hr.le
  have h2 : Real.sqrt (1 / rc ^ 2) = 1 / rc := by
    rw [one_div, ← inv_pow, Real.sqrt_sq (inv_nonneg.mpr hrc.le), one_div]
  have hne : rc ≠ 0 := ne_of_gt hrc
  refine ⟨?_, ?_, ?_, ?_⟩
  · simp only [bfac, h1, h2]; field_simp; ring
  · simp only [afac]; field_simp; ring
  · simp only [pqfac, h1, h2]; field_simp; ring
  · simp only [qpfac, h1, h2]; field_simp; ring

/-- The entries of the finalized scenario table at the type pair (1,1). -/
theorem scen_table :
    (init_one Real.sqrt (scenPair ℝ) 1 1).2.cut_coulsq 1 1 = 25 / 4 ∧
    (init_one Real.sqrt (scenPair ℝ) 1 1).2.cut_ljsq 1 1 = 25 / 4 ∧
    (init_one Real.sqrt (scenPair ℝ) 1 1).2.lj1 1 1 = 48 ∧
    (init_one Real.sqrt (scenPair ℝ) 1 1).2.lj2 1 1 = 24 ∧
    (init_one Real.sqrt (scenPair ℝ) 1 1).2.cutsq 1 1 = 25 / 4 := by
  refine ⟨?_, ?_, ?_, ?_, ?_⟩ <;>
    simp [init_one, init_one_mix, scenPair, exPair, set2] <;> norm_num

/-- The Coulomb accumulators of the scenario: charges 1 and -1 at separation
`(1,0,0)`, Coulomb cutoff 2.5, no dipoles. -/
theorem scen_coulomb :
    coulomb Real.sqrt (25 / 4) 1 (-1) (fun _ => (0 : ℝ)) (fun _ => 0) (1 - 0) (0 - 0) (0 - 0) =
      { forcecoulx := -(21 / 25), forcecouly := 0, forcecoulz := 0,
        tixcoul := 0, tiycoul := 0, tizcoul := 0,
        tjxcoul := 0, tjycoul := 0, tjzcoul := 0 } := by
  simp [coulomb, charge_charge, CoulTerm.add, CoulTerm.zero]
  norm_num

/-- The variable `forcelj` of the scenario: `lj1 = 48`, `lj2 = 24`, LJ cutoff 2.5,
`rsq = 1`. -/
theorem scen_forcelj :
    forcelj (48 : ℝ) 24 (25 / 4) 1 ((1 - 0) * (1 - 0) + (0 - 0) * (0 - 0) + (0 - 0) * (0 - 0)) =
      24 - (48 / (5 / 2) ^ 13 - 24 / (5 / 2) ^ 7) / (5 / 2) := by
  simp [forcelj, lj_shifted]
  norm_num

/-- C15 (as amended): in the scenario (one type with epsilon 1, sigma 1, both
cutoffs 2.5, table finalized by `init_one`; charges +1 and -1 at distance 1
along x, no dipole flags, special factors 1, `qqrd2e = 1`) the pair is within
the cutoff; the force has zero y and z components; its Coulomb part along x is
`-(|q_i*q_j|*(1 - 1/6.25)) = -0.84`, directed from `i` toward `j`; its LJ part is
the 12-6 force at `r = 1`, which is 24, minus `r/rc = 1/2.5` times the 12-6
force at `r = 2.5`; and `fx` is the sum of the two parts. -/
theorem scenario_opposite_charges :
    pair_rsq (exAtom ℝ) 0 1 <
        (init_one Real.sqrt (scenPair ℝ) 1 1).2.cutsq ((exAtom ℝ).type 0) ((exAtom ℝ).type 1) ∧
    (pair_record Real.sqrt (init_one Real.sqrt (scenPair ℝ) 1 1).2 (exAtom ℝ) (exForce ℝ)
        0 0 1 0).fy = 0 ∧
    (pair_record Real.sqrt (init_one Real.sqrt (scenPair ℝ) 1 1).2 (exAtom ℝ) (exForce ℝ)
        0 0 1 0).fz = 0 ∧
    (pair_record Real.sqrt (init_one Real.sqrt (scenPair ℝ) 1 1).2 (exAtom ℝ) (exForce ℝ)
        0 0 1 0).fq *
      (pair_record Real.sqrt (init_one Real.sqrt (scenPair ℝ) 1 1).2 (exAtom ℝ) (exForce ℝ)
        0 0 1 0).coul.forcecoulx = -(1 * 1 * (1 - 1 / (25 / 4))) ∧
    ((exAtom ℝ).x 0 0 - (exAtom ℝ).x 1 0) *
      (pair_record Real.sqrt (init_one Real.sqrt (scenPair ℝ) 1 1).2 (exAtom ℝ) (exForce ℝ)
        0 0 1 0).forcelj = 24 - (48 / (5 / 2) ^ 13 - 24 / (5 / 2) ^ 7) / (5 / 2) ∧
    (pair_record Real.sqrt (init_one Real.sqrt (scenPair ℝ) 1 1).2 (exAtom ℝ) (exForce ℝ)
        0 0 1 0).fx =
      -(21 / 25) + (24 - (48 / (5 / 2) ^ 13 - 24 / (5 / 2) ^ 7) / (5 / 2)) := by
  obtain ⟨t1, t2, t3, t4, t5⟩ := scen_table
  have hx : (exAtom ℝ).x 0 0 - (exAtom ℝ).x 1 0 = 1 - 0 := by simp [exAtom]
  have hy : (exAtom ℝ).x 0 1 - (exAtom ℝ).x 1 1 = 0 - 0 := by simp [exAtom]
  have hz : (exAtom ℝ).x 0 2 - (exAtom ℝ).x 1 2 = 0 - 0 := by simp [exAtom]
  have hq0 : (exAtom ℝ).q 0 = 1 := by simp [exAtom]
  have hq1 : (exAtom ℝ).q 1 = -1 := by simp [exAtom]
  have hm0 : (exAtom ℝ).mu 0 = fun _ => 0 := rfl
  have hm1 : (exAtom ℝ).mu 1 = fun _ => 0 := rfl
  have ht0 : (exAtom ℝ).type 0 = 1 := rfl
  have ht1 : (exAtom ℝ).type 1 = 1 := rfl
  have hsl : (exForce ℝ).special_lj 0 = 1 := rfl
  have hsc : (exForce ℝ).special_coul 0 = 1 := rfl
  have hqq : (exForce ℝ).qqrd2e = 1 := rfl
  refine ⟨?_, ?_, ?_, ?_, ?_, ?_⟩
  · rw [ht0, ht1, t5]
    simp [pair_rsq, exAtom]
    norm_num
  all_goals
    simp only [pair_record, pair_body, hx, hy, hz, hq0, hq1, hm0, hm1, ht0, ht1, hsl, hsc,
      hqq, t1, t2, t3, t4, scen_coulomb, scen_forcelj]
    norm_num

end Scenario

section Instances

/-! ### The theorems with hypotheses, applied to concrete data -/

/-- Instance of C1: the set table `exPair`, type pair (1,1), the ray along x, `r = 1` below the LJ cutoff 2. -/
theorem lj_force_energy_witness :
    HasDerivAt
      (fun s => (pair_body Real.sqrt (init_one Real.sqrt (exPair ℝ) 1 1).2 1 1 1 (-1)
        (exMuNone ℝ) (exMuNone ℝ) (s * 1) (s * 0) (s * 0) 1 1 1 1).evdwl)
      (-(1 * (pair_body Real.sqrt (init_one Real.sqrt (exPair ℝ) 1 1).2 1 1 1 (-1)
        (exMuNone ℝ) (exMuNone ℝ) (1 * 1) (1 * 0) (1 * 0) 1 1 1 1).forcelj)) 1 :=
  (lj_force_energy (exPair ℝ) 1 1 1 (-1) (exMuNone ℝ) (exMuNone ℝ) 1 0 0 (by norm_num)
    1 1 1 (by decide) 1 (by norm_num)
    (by norm_num [init_one, init_one_mix, exPair])).1

/-- Instance of C2: charges 1 and -1 without dipoles at distance 1 on the x axis, Coulomb cutoff 2. -/
theorem charge_charge_force_energy_witness :
    (pair_body Real.sqrt (exPair ℝ) 1 1 1 (-1) (exMuNone ℝ) (exMuNone ℝ)
        (1 * 1) (1 * 0) (1 * 0) 1 1 1 1).ecoul =
      1 * (-1) / 1 * (1 - 1 / 2) ^ 2 * (1 * 1) :=
  (charge_charge_force_energy (exPair ℝ) 1 1 1 (-1) (exMuNone ℝ) (exMuNone ℝ)
    (by norm_num [exMuNone]) (by norm_num [exMuNone]) 2 (by norm_num)
    (by norm_num [exPair]) 1 0 0 (by norm_num) 1 1 1 1 (by decide) 1 (by norm_num)
    (by norm_num)).2.2

/-- Instance of C3: two uncharged dipoles `(1,1,1)` at separation `(1,0,0)`, Coulomb cutoff 2. -/
theorem dipole_dipole_force_energy_witness :
    (pair_body Real.sqrt (exPair ℝ) 1 1 0 0 (exMu ℝ) (exMu ℝ) 1 0 0 1 1 1 1).ecoul =
      energy_dipole_dipole Real.sqrt ((exPair ℝ).cut_coulsq 1 1) (exMu ℝ) (exMu ℝ) 1 0 0 *
        (1 * 1) :=
  (dipole_dipole_force_energy (exPair ℝ) 1 1 (exMu ℝ) (exMu ℝ)
    (by norm_num [exMu]) (by norm_num [exMu]) 2 (by norm_num) (by norm_num [exPair])
    1 0 0 (by norm_num) (by norm_num) 1 1 1 1 (by decide)).2.2

/-- Instance of C4: a dipole `(1,1,1)` on `i` and a charge 1 on `j` at separation `(1,0,0)`, Coulomb cutoff 2. -/
theorem dipole_charge_force_energy_witness :
    (pair_body Real.sqrt (exPair ℝ) 1 1 0 1 (exMu ℝ) (exMuNone ℝ) 1 0 0 1 1 1 1).ecoul =
      energy_dipole_charge Real.sqrt ((exPair ℝ).cut_coulsq 1 1) 1 (exMu ℝ) 1 0 0 *
        (1 * 1) :=
  (dipole_charge_force_energy (exPair ℝ) 1 1 (exMu ℝ) (exMuNone ℝ)
    (by norm_num [exMu]) (by norm_num [exMuNone]) 1 (by norm_num) 2 (by norm_num)
    (by norm_num [exPair]) 1 0 0 (by norm_num) (by norm_num) 1 1 1 1 (by decide)).1.2.2

/-- Instance of C5: the dipole-dipole force of two dipoles `(1,1,1)` at separation `(2,0,0)` with cutoff 2. -/
theorem forces_vanish_at_cutoff_witness :
    (dipole_dipole Real.sqrt (2 * 2) (exMu ℝ) (exMu ℝ) 2 0 0).force = (0, 0, 0) :=
  ((forces_vanish_at_cutoff 1 (-1) (exMu ℝ) (exMu ℝ) 48 24 1 2 2 (by norm_num)
    (by norm_num)).1 2 0 0 (by norm_num)).2.1

/-- Instance of C6: the local atom 0 and the ghost atom 1 of `exAtom`, at distance 1 within the pair cutoff. -/
theorem pair_step_newton_witness :
    (pair_step Real.sqrt (fun _ _ _ _ _ _ _ _ _ _ _ _ _ => ()) (exPair ℝ) (exAtom ℝ)
        (exForce ℝ) 1 1 0 1 0 (exAccum ℝ)).f 0 0 =
      (exAccum ℝ).f 0 0 + (pair_record Real.sqrt (exPair ℝ) (exAtom ℝ) (exForce ℝ) 1 0 1 0).fx :=
  (pair_step_newton Real.sqrt (fun _ _ _ _ _ _ _ _ _ _ _ _ _ => ()) (exPair ℝ) (exAtom ℝ)
    (exForce ℝ) 1 1 0 1 0 (exAccum ℝ) (by decide)
    (by norm_num [pair_rsq, exAtom, exPair])).1.1

/-- Instance of C8: the unset pair (1,2) of `exPairUnset`. -/
theorem init_one_mixes_witness :
    (init_one Real.sqrt (exPairUnset ℝ) 1 2).2.sigma 1 2 =
      ((exPairUnset ℝ).sigma 1 1 + (exPairUnset ℝ).sigma 2 2) / 2 :=
  (init_one_mixes Real.sqrt (exPairUnset ℝ) 1 2 rfl).1.2.1

/-- Instance of C9: the set pair (1,2) of `exPair`. -/
theorem init_one_set_idempotent_witness :
    init_one Real.sqrt (init_one Real.sqrt (exPair ℝ) 1 2).2 1 2 =
      init_one Real.sqrt (exPair ℝ) 1 2 :=
  (init_one_set_idempotent Real.sqrt (exPair ℝ) 1 2 rfl).2.2.2.2.2

/-! ### Instances and counterexamples for C11 to C20 -/

/-- Instance of C11 (as amended): the set table `exPair`, two types, one argument. -/
theorem settings_resets_set_pairs_witness :
    (settings (exPair ℝ) 2 1 (fun _ => 3)).state.cut_lj 1 2 =
      (settings (exPair ℝ) 2 1 (fun _ => 3)).state.cut_lj_global :=
  ((settings_resets_set_pairs (exPair ℝ) 2 1 (fun _ => 3) (by simp [exPair])
    (Or.inl rfl)).2.2.2.1 1 2 (by norm_num) (by norm_num) (by norm_num)
    (by simp [exPair])).1

/-- C11, the claim as stated fails: on the allocated table `exPairUnset`, whose
pair (1,2) is not set and has `cut_lj = 2`, `settings` with the single argument 3
returns and leaves `cut_lj[1][2]` different from the new `cut_lj_global`. -/
theorem settings_unset_pair_counterexample :
    (exPairUnset ℝ).allocated ≠ 0 ∧ (exPairUnset ℝ).setflag 1 2 = 0 ∧
    (settings (exPairUnset ℝ) 2 1 (fun _ => 3)).isOk = true ∧
    (settings (exPairUnset ℝ) 2 1 (fun _ => 3)).state.cut_lj 1 2 ≠
      (settings (exPairUnset ℝ) 2 1 (fun _ => 3)).state.cut_lj_global := by
  have ha : (exPairUnset ℝ).allocated ≠ 0 := by simp [exPairUnset, exPair]
  rw [settings_of_allocated (exPairUnset ℝ) 2 1 (fun _ => 3) ha (Or.inl rfl), settings_loop_eq]
  refine ⟨ha, rfl, rfl, ?_⟩
  simp [Outcome.state, exPairUnset, exPair]

/-- Instance of C12 (as amended): `init_one(1,2)` on the table `exPair`. -/
theorem sq_caches_invariant_witness :
    (init_one Real.sqrt (exPair ℝ) 1 2).2.cut_ljsq 1 2 =
      (init_one Real.sqrt (exPair ℝ) 1 2).2.cut_lj 1 2 ^ 2 :=
  ((sq_caches_invariant Real.sqrt (exPair ℝ) 2).1 1 2 (by norm_num)
    (by intro a b _ _ _; simp [exPair]; norm_num) 1 2 (by norm_num) (by norm_num)
    (by norm_num)).1

/-- C12, the claim as stated fails: the table `exPair` satisfies the predicate,
and after the `coeff` call that sets the pair (1,1) with the cutoff 3 the cache
`cut_ljsq[1][1]` is not the square of `cut_lj[1][1]`; and the table `exPairSkew`
satisfies the predicate, and after `init_one(2,1)` the cache `cut_ljsq[1][2]` is
not the square of `cut_lj[1][2]`. -/
theorem coeff_breaks_sq_caches_counterexample :
    ((∀ a b, 1 ≤ a → a ≤ b → b ≤ 2 →
        (exPair ℝ).cut_ljsq a b = (exPair ℝ).cut_lj a b ^ 2 ∧
        (exPair ℝ).cut_coulsq a b = (exPair ℝ).cut_coul a b ^ 2) ∧
      (coeff (exPair ℝ) (exFresh ℝ) 2 5 1 1 1 1 (fun _ => 3)).isOk = true ∧
      (coeff (exPair ℝ) (exFresh ℝ) 2 5 1 1 1 1 (fun _ => 3)).state.cut_ljsq 1 1 ≠
        (coeff (exPair ℝ) (exFresh ℝ) 2 5 1 1 1 1 (fun _ => 3)).state.cut_lj 1 1 ^ 2) ∧
    ((∀ a b, 1 ≤ a → a ≤ b → b ≤ 2 →
        (exPairSkew ℝ).cut_ljsq a b = (exPairSkew ℝ).cut_lj a b ^ 2 ∧
        (exPairSkew ℝ).cut_coulsq a b = (exPairSkew ℝ).cut_coul a b ^ 2) ∧
      (init_one Real.sqrt (exPairSkew ℝ) 2 1).2.cut_ljsq 1 2 ≠
        (init_one Real.sqrt (exPairSkew ℝ) 2 1).2.cut_lj 1 2 ^ 2) := by
  have hL : loop2 1 1 (fun i => if 1 > i then 1 else i) 1 = [(1, 1)] := by decide
  refine ⟨⟨?_, ?_, ?_⟩, ?_, ?_⟩
  · intro a b _ _ _
    simp [exPair]
    norm_num
  · simp only [coeff, hL]
    simp [coeff_body, Outcome.isOk, exPair]
  · simp only [coeff, hL]
    simp [coeff_body, Outcome.state, exPair, set2]
    norm_num
  · intro a b h1 h2 h3
    have hab : ¬ (a = 2 ∧ b = 1) := by omega
    simp [exPairSkew, exPair, hab]
    norm_num
  · simp [init_one, init_one_mix, exPairSkew, exPair, set2]
    norm_num

/-- Instance of C13 (as amended): the set table `exPair` with two types, ranges
`1..1` and `1..2`. -/
theorem coeff_succeeds_iff_witness :
    (coeff (exPair ℝ) (exFresh ℝ) 2 4 1 1 1 2 (fun _ => 1)).isOk = true :=
  (coeff_succeeds_iff (exPair ℝ) (exFresh ℝ) 2 4 1 1 1 2 (fun _ => 1)
    (by norm_num) (by norm_num) (by norm_num) (by norm_num) (by norm_num)
    (by norm_num)).1.mpr
    ⟨1, 1, le_refl 1, le_refl 1, le_refl 1, by norm_num, le_refl 1⟩

/-- C13, the claim as stated fails: with two types, the ranges `2..2` and `1..1`
are non-empty and lie within `[1,2]`, and the `coeff` call with 4 arguments
stops in `error->all`. -/
theorem coeff_nonempty_ranges_counterexample :
    ((2 : Nat) ≤ 2 ∧ (1 : Nat) ≤ 1) ∧ ((1 : Nat) ≤ 2 ∧ (2 : Nat) ≤ 2 ∧ (1 : Nat) ≤ 1 ∧
      (1 : Nat) ≤ 2) ∧
    (coeff (exPair ℝ) (exFresh ℝ) 2 4 2 2 1 1 (fun _ => 1)).isOk = false := by
  refine ⟨by decide, by decide, ?_⟩
  have h := (coeff_isOk_iff (exPair ℝ) (exFresh ℝ) 2 4 2 2 1 1 (fun _ => 1)
    (by norm_num) (by norm_num)).1
  cases hok : (coeff (exPair ℝ) (exFresh ℝ) 2 4 2 2 1 1 (fun _ => 1)).isOk
  · rfl
  · obtain ⟨i, j, h1, h2, h3, h4, h5⟩ := h.mp hok
    omega

/-- C15, the claim as stated fails: in the scenario the LJ part of the force is not
the 12-6 force at `r = 1` minus the 12-6 force
`48/2.5^13 - 24/2.5^7` at `r = 2.5`. -/
theorem scenario_lj_shift_counterexample :
    ((exAtom ℝ).x 0 0 - (exAtom ℝ).x 1 0) *
      (pair_record Real.sqrt (init_one Real.sqrt (scenPair ℝ) 1 1).2 (exAtom ℝ) (exForce ℝ)
        0 0 1 0).forcelj ≠ 24 - (48 / (5 / 2) ^ 13 - 24 / (5 / 2) ^ 7) := by
  obtain ⟨t1, t2, t3, t4, t5⟩ := scen_table
  have hx : (exAtom ℝ).x 0 0 - (exAtom ℝ).x 1 0 = 1 - 0 := by simp [exAtom]
  have hy : (exAtom ℝ).x 0 1 - (exAtom ℝ).x 1 1 = 0 - 0 := by simp [exAtom]
  have hz : (exAtom ℝ).x 0 2 - (exAtom ℝ).x 1 2 = 0 - 0 := by simp [exAtom]
  have ht0 : (exAtom ℝ).type 0 = 1 := rfl
  have ht1 : (exAtom ℝ).type 1 = 1 := rfl
  have hsl : (exForce ℝ).special_lj 0 = 1 := rfl
  simp only [pair_record, pair_body, hx, hy, hz, ht0, ht1, hsl, t2, t3, t4, scen_forcelj]
  norm_num

/-- Instance of C17 (as amended): the fully set table `exPair` with two types,
read back into zeroed storage. -/
theorem restart_round_trip_witness :
    ∃ R, read_restart (exFresh ℝ) (exFresh ℝ) 2 (write_restart (exPair ℝ) 2 []) =
        some (R, []) ∧
      AgreeAt (init_all Real.sqrt R 2) (init_all Real.sqrt (exPair ℝ) 2) 1 2 := by
  obtain ⟨R, h1, _, _, _, _, h6⟩ :=
    restart_round_trip Real.sqrt (exPair ℝ) (exFresh ℝ) (exFresh ℝ) 2
  exact ⟨R, h1, h6 (fun i _ _ => by simp [exPair]) 1 2 (by norm_num) (by norm_num)
    (by norm_num)⟩

/-- C17, the claim as stated fails: the table `exPairUnset` with one type has
its only pair (1,1) not set, with `cut_lj[1][1] = 2`. Written and read back into
zeroed storage and then finalized, it has `cut_ljsq[1][1] = 0`, while finalizing
the written table itself gives `cut_ljsq[1][1] = 4`. -/
theorem restart_unset_diagonal_counterexample :
    (read_restart (exFresh ℝ) (exFresh ℝ) 1 (write_restart (exPairUnset ℝ) 1 [])).map
        (fun r => (init_all Real.sqrt r.1 1).cut_ljsq 1 1) = some 0 ∧
    (init_all Real.sqrt (exPairUnset ℝ) 1).cut_ljsq 1 1 = 4 := by
  have hL : loop2 1 1 (fun i => i) 1 = [(1, 1)] := by decide
  constructor
  · simp only [read_restart, write_restart, allocate, init_all, hL]
    simp [write_restart_settings, write_restart_body, read_restart_settings,
      read_restart_body, fread_double, fread_int, exPairUnset, exPair, exFresh, set2,
      init_one, init_one_mix, mix_distance]
  · simp only [init_all, hL]
    simp [exPairUnset, exPair, set2, init_one, init_one_mix, mix_distance]
    norm_num

/-- Instance of C18: `r = 1`, `rc = 2`. -/
theorem smoothing_factors_closed_witness :
    bfac Real.sqrt (1 ^ 2) (1 / 2 ^ 2) = 1 - 4 * (1 / 2 : ℝ) ^ 3 + 3 * (1 / 2) ^ 4 ∧
    afac (1 ^ 2) (1 / 2 ^ 2) = 1 - (1 / 2 : ℝ) ^ 4 ∧
    pqfac Real.sqrt (1 ^ 2) (1 / 2 ^ 2) = 1 - 3 * (1 / 2 : ℝ) ^ 2 + 2 * (1 / 2) ^ 3 ∧
    qpfac Real.sqrt (1 ^ 2) (1 / 2 ^ 2) = 1 - 3 * (1 / 2 : ℝ) ^ 2 + 2 * (1 / 2) ^ 3 :=
  smoothing_factors_closed 1 2 (by norm_num) (by norm_num)

/-- Instance of C19: the two charged atoms of `exAtom` in the constant table
`exPair`. -/
theorem exchange_antisymmetry_witness :
    (pair_record Real.sqrt (exPair ℝ) (exAtom ℝ) (exForce ℝ) 1 1 0 0).fx =
      -(pair_record Real.sqrt (exPair ℝ) (exAtom ℝ) (exForce ℝ) 1 0 1 0).fx ∧
    (pair_record Real.sqrt (exPair ℝ) (exAtom ℝ) (exForce ℝ) 1 1 0 0).ecoul =
      (pair_record Real.sqrt (exPair ℝ) (exAtom ℝ) (exForce ℝ) 1 0 1 0).ecoul :=
  ⟨(exchange_antisymmetry Real.sqrt (exPair ℝ) (exAtom ℝ) (exForce ℝ) 1 0 1 0
      rfl rfl rfl rfl rfl rfl).1.1,
    (exchange_antisymmetry Real.sqrt (exPair ℝ) (exAtom ℝ) (exForce ℝ) 1 0 1 0
      rfl rfl rfl rfl rfl rfl).2.2.1⟩

end Instances

end PairDipoleSF
